import Mathlib

/-!
Verification of the station-graph core of the Shortest-Path-Weighted-Graph
train-schedule project.

The C++ sources embedded here are `station_graph.hpp`, `departure.hpp` and
`station.hpp`.  The repository's `trip.hpp`, `route.hpp` and `utility.hpp`
are not available; the types `Trip`, `TripPlusLayover`, `Route` and the
sentinel `Utility::INF` are modelled from the specification (see the doc
comments on those definitions).

Raw timetable rows are vectors of decimal strings in the source
(`std::vector<std::vector<std::string>>`); a trip row is
`[originStationID, destinationStationID, departureTime, arrivalTime]` and a
station row's first field is the station ID.  We model a trip row as a
four-field structure and a station row by its first field.
-/

/-- `std::stoi` on the digit strings appearing in well-formed tables:
the decimal value of the digit characters. -/
def stoi (x : String) : Int :=
  x.data.foldl (fun acc c => acc * 10 + ((c.toNat : Int) - 48)) 0

/-- Lexicographic strict order on character lists, as `operator<` of
`std::string` compares character by character. -/
def lexLt : List Char → List Char → Bool
  | _, [] => false
  | [], _ :: _ => true
  | a :: as, b :: bs =>
      if a.toNat < b.toNat then true
      else if b.toNat < a.toNat then false
      else lexLt as bs

/-- `std::string` `operator<`. -/
def strLt (a b : String) : Bool := lexLt a.data b.data

/-- `std::string` `operator==`. -/
def streq (a b : String) : Bool := a.data = b.data

/-- One raw trip record: `[origin, destination, departure, arrival]`
(fields `[0]`, `[1]`, `[2]`, `[3]` of the row). -/
structure TripRow where
  orig : String
  dest : String
  dep : String
  arr : String
deriving DecidableEq

instance : Inhabited TripRow := ⟨⟨"", "", "", ""⟩⟩

/-- Modelled from the spec: `Utility::INF` from the absent `utility.hpp`,
"a fixed sentinel larger than any real achievable cost"; `INT_MAX`. -/
def INF : Int := 2147483647

/-- Modelled from the spec: `Trip` from the absent `trip.hpp` — one
scheduled ride of the static graph: destination station ID, departure
clock time, arrival clock time (the three values the builders pass to
its aggregate initializer). -/
structure Trip where
  destinationID : Int
  departureTime : Int
  arrivalTime : Int
deriving DecidableEq

/-- Modelled from the spec: `TripPlusLayover` from the absent `trip.hpp` —
one directed edge of the time-expanded graph: target vertex key,
ride time, layover at destination, total edge weight; initializer order
as in `build_departures_graph`.  `{-1}` value-initializes the rest to 0. -/
structure TripPlusLayover where
  destinationKey : Int
  rideTimeToDestinationMins : Int
  layoverTimeAtDestinationMins : Int
  tripWeight : Int
deriving DecidableEq

instance : Inhabited TripPlusLayover := ⟨⟨-1, 0, 0, 0⟩⟩

/-- `Station` from `station.hpp`: a station ID and its trip list. -/
structure Station where
  stationID : Int
  trips : List Trip
deriving DecidableEq

/-- `Station::GetID`. -/
def Station.GetID (s : Station) : Int := s.stationID

/-- `Station::StationIsValid`. -/
def Station.StationIsValid (s : Station) : Bool := s.stationID > 0

/-- `Departure` from `departure.hpp`: a time-expanded vertex, constructor
argument order `(tripArray, ID, key, departure)`. -/
structure Departure where
  validTrips : List TripPlusLayover
  stationID : Int
  lookUpKey : Int
  departureTime : Int
deriving DecidableEq

instance : Inhabited Departure := ⟨⟨[], -1, -1, -1⟩⟩

/-- `Departure::IsFinalDestination`: no outgoing trips. -/
def Departure.IsFinalDestination (d : Departure) : Bool :=
  d.validTrips.length = 0

/-- `Departure::FindTripByDestinationKey`: first stored trip whose
`destinationKey` matches, else the `{-1}` sentinel. -/
def Departure.FindTripByDestinationKey (d : Departure) (destinationKey : Int) :
    TripPlusLayover :=
  match d.validTrips.find? (fun t => t.destinationKey = destinationKey) with
  | some t => t
  | none => ⟨-1, 0, 0, 0⟩

/-- `Departure::GetTripCount`. -/
def Departure.GetTripCount (d : Departure) : Nat := d.validTrips.length

/-- `Departure::GetStationID`. -/
def Departure.GetStationID (d : Departure) : Int := d.stationID

/-- Modelled from the spec: `Route` from the absent `route.hpp` — a
departing vertex and the ordered segments taken (the two values
`get_route` passes to its initializer). -/
structure Route where
  departingStation : Departure
  tripList : List TripPlusLayover
deriving DecidableEq

/-- Modelled from the spec: `Route::RouteIsValid` from the absent
`route.hpp`.  §3: valid iff the departing vertex's station ID is
non-negative and every segment's target key is non-negative; §7 and the
scenarios of §8 additionally require the segment list to be non-empty
(the "no feasible route" sentinel is exactly a route with an empty
segment list, and `PathExists` must be false for unreachable pairs). -/
def Route.RouteIsValid (r : Route) : Bool :=
  0 ≤ r.departingStation.stationID ∧ r.tripList ≠ [] ∧
    r.tripList.all (fun t => 0 ≤ t.destinationKey)

/-- `StationGraph::station_records_match`: the two records agree on all
four fields after `stoi` conversion. -/
def station_records_match (t : List TripRow) (key1 key2 : Nat) : Bool :=
  let r1 := t.getD key1 default
  let r2 := t.getD key2 default
  stoi r1.orig = stoi r2.orig ∧ stoi r1.dest = stoi r2.dest ∧
    stoi r1.dep = stoi r2.dep ∧ stoi r1.arr = stoi r2.arr

/-- `StationGraph::build_stations_graph`: per-station outgoing trip lists.
The temporary table is modelled as a function from station slot to trip
list; the source's unchecked write `tempTripTable[startID]` is only
defined for in-range `startID`, so out-of-range records are dropped. -/
def build_stations_graph (stationCount : Nat) (t : List TripRow) :
    List Station :=
  let temp : Nat → List Trip :=
    t.foldl
      (fun tab r =>
        let startID := stoi r.orig - 1
        let trip : Trip := ⟨stoi r.dest, stoi r.dep, stoi r.arr⟩
        if 0 ≤ startID ∧ startID < (stationCount : Int) then
          fun x => if x = startID.toNat then tab x ++ [trip] else tab x
        else tab)
      (fun _ => [])
  (List.range stationCount).map (fun i => ⟨Int.ofNat i + 1, temp i⟩)

/-- `StationGraph::build_station_arrivals_graph`: the inverted view keyed
by destination; note the source stores field `[3]` as the trip's
`departureTime` and field `[2]` as its `arrivalTime` here. -/
def build_station_arrivals_graph (stationCount : Nat) (t : List TripRow) :
    List Station :=
  let temp : Nat → List Trip :=
    t.foldl
      (fun tab r =>
        let startID := stoi r.dest - 1
        let trip : Trip := ⟨stoi r.orig, stoi r.arr, stoi r.dep⟩
        if 0 ≤ startID ∧ startID < (stationCount : Int) then
          fun x => if x = startID.toNat then tab x ++ [trip] else tab x
        else tab)
      (fun _ => [])
  (List.range stationCount).map (fun i => ⟨Int.ofNat i + 1, temp i⟩)

/-- One slot of the temporary departure table:
`((departureTime, originStationID), edge list)`. -/
abbrev DepSlot := (Int × Int) × List TripPlusLayover

/-- The edges record `i` contributes in the inner `j`-loop of
`build_departures_graph`: one connection edge towards every other record
`j` whose origin equals `i`'s destination as a *string* and whose
departure is lexicographically above `i`'s arrival; the target key is the
last index matching record `j`. -/
def connection_push (t : List TripRow) (i : Nat)
    (tmp : Nat → DepSlot) : Nat → DepSlot :=
  let R := t.length
  let ri := t.getD i default
  (List.range R).foldl
    (fun tmp j =>
      let rj := t.getD j default
      if j ≠ i ∧ streq ri.dest rj.orig ∧ strLt ri.arr rj.dep then
        let departureTime := stoi ri.dep
        let rideTimeToDestination := stoi ri.arr - stoi ri.dep
        let layoverAtDestination := stoi rj.dep - stoi ri.arr
        let totalTripTime := rideTimeToDestination + layoverAtDestination
        let destinationKey :=
          (List.range R).foldl
            (fun dk keyIndx =>
              if station_records_match t keyIndx j then (keyIndx : Int) else dk)
            0
        (List.range R).foldl
          (fun tmp k =>
            if station_records_match t k i then
              fun x =>
                if x = k then
                  ((departureTime, stoi ri.orig),
                    (tmp k).2 ++
                      [⟨destinationKey, rideTimeToDestination,
                        layoverAtDestination, totalTripTime⟩])
                else tmp x
            else tmp)
          tmp
      else tmp)
    tmp

/-- Processing of one record `i` in `build_departures_graph`: first the
ride edge towards the destination's terminal key, then the connection
edges of the `j`-loop. -/
def record_push (t : List TripRow) (tmp : Nat → DepSlot) (i : Nat) :
    Nat → DepSlot :=
  let R := t.length
  let ri := t.getD i default
  let departureTime := stoi ri.dep
  let rideTimeToDestination := stoi ri.arr - stoi ri.dep
  let layoverAtDestination : Int := 0
  let totalTripTime := rideTimeToDestination + layoverAtDestination
  let destinationKey :=
    (List.range R).foldl
      (fun dk keyIndx =>
        if station_records_match t keyIndx i then
          stoi (t.getD keyIndx default).dest + ((R : Int) - 1)
        else dk)
      0
  let tmp2 :=
    (List.range R).foldl
      (fun tmp k =>
        if station_records_match t k i then
          fun x =>
            if x = k then
              ((departureTime, stoi ri.orig),
                (tmp k).2 ++
                  [⟨destinationKey, rideTimeToDestination,
                    layoverAtDestination, totalTripTime⟩])
            else tmp x
        else tmp)
      tmp
  connection_push t i tmp2

/-- `StationGraph::build_departures_graph`: the time-expanded vertex list —
one vertex per trip record followed by one edge-free terminal vertex per
station record. -/
def build_departures_graph (t : List TripRow) (s : List String) :
    List Departure :=
  let R := t.length
  let tmp : Nat → DepSlot :=
    (List.range R).foldl (record_push t) (fun _ => ((0, 0), []))
  (List.range R).map
      (fun i => Departure.mk (tmp i).2 (tmp i).1.2 (i : Int) (tmp i).1.1) ++
    (List.range s.length).map
      (fun i => Departure.mk [] (stoi (s.getD i "")) ((i : Int) + (R : Int)) 0)

/-- A distance or sequence table: `V×V` ints, `INF` elsewhere. -/
abbrev Mat := Nat → Nat → Int

/-- Pointwise matrix update. -/
def mupd (m : Mat) (a b : Nat) (v : Int) : Mat :=
  fun x y => if x = a ∧ y = b then v else m x y

/-- Weight of one edge under a weight mode: total trip weight with
layovers, ride time only without. -/
def weightSel (includeLayovers : Bool) (tr : TripPlusLayover) : Int :=
  if includeLayovers then tr.tripWeight else tr.rideTimeToDestinationMins

/-- Seeding pass of `floyd_warshal_shortest_paths`: for every vertex and
every stored trip, write the selected weight into the distance matrix and
the target key into the sequence table (later trips overwrite earlier
ones with the same target). -/
def fw_seed (G : List Departure) (includeLayovers : Bool) : Mat × Mat :=
  G.foldl
    (fun DN dep =>
      dep.validTrips.foldl
        (fun DN tr =>
          let startID := dep.lookUpKey.toNat
          let destinationID := tr.destinationKey.toNat
          (mupd DN.1 startID destinationID (weightSel includeLayovers tr),
            mupd DN.2 startID destinationID tr.destinationKey))
        DN)
    (fun _ _ => INF, fun _ _ => INF)

/-- One relaxation of the classic triple loop. -/
def fw_step (k i j : Nat) (DN : Mat × Mat) : Mat × Mat :=
  if DN.1 i k ≠ INF ∧ DN.1 k j ≠ INF ∧ DN.1 i k + DN.1 k j < DN.1 i j then
    (mupd DN.1 i j (DN.1 i k + DN.1 k j), mupd DN.2 i j (DN.2 i k))
  else DN

/-- The innermost loop of the relaxation over `j`, for fixed `k` and `i`. -/
def fw_inner (V k i : Nat) (DN : Mat × Mat) : Mat × Mat :=
  (List.range V).foldl (fun DN j => fw_step k i j DN) DN

/-- The middle loop over `i`, for fixed `k`: one full pass of pivot `k`. -/
def fw_pass (V k : Nat) (DN : Mat × Mat) : Mat × Mat :=
  (List.range V).foldl (fun DN i => fw_inner V k i DN) DN

/-- The triple loop over `k`, `i`, `j`. -/
def fw_run (V : Nat) (DN : Mat × Mat) : Mat × Mat :=
  (List.range V).foldl (fun DN k => fw_pass V k DN) DN

/-- `StationGraph::floyd_warshal_shortest_paths`: distance matrix and
sequence (next-hop) table after the full precomputation; the object keeps
only the sequence table. -/
def floyd_warshal_shortest_paths (G : List Departure)
    (includeLayovers : Bool) : Mat × Mat :=
  fw_run G.length (fw_seed G includeLayovers)

/-- Loop body of `StationGraph::get_route`, with explicit fuel standing in
for the source's unbounded `while`; returns the collected segments, the
sequence of visited vertex keys (the successive values of the loop's
`currentNode`), and whether the loop reached its exit condition within
the fuel. -/
def get_route_go (G : List Departure) (T : Mat) (destinationKey : Nat) :
    Nat → Nat → List TripPlusLayover × List Nat × Bool
  | 0, cur => ([], [cur], false)
  | fuel + 1, cur =>
      let currentNode := G.getD cur default
      let nextStopID := T cur destinationKey
      if currentNode.IsFinalDestination ∨ nextStopID = INF then
        (if nextStopID ≠ INF then
            [currentNode.FindTripByDestinationKey nextStopID]
          else [], [cur], true)
      else
        let tr := currentNode.FindTripByDestinationKey nextStopID
        let rest := get_route_go G T destinationKey fuel nextStopID.toNat
        (tr :: rest.1, cur :: rest.2.1, rest.2.2)

/-- `StationGraph::get_route`: walk the sequence table from a departure
vertex towards a destination vertex and package the result, returning the
invalid-route sentinel when the reconstruction is not valid. -/
def get_route (G : List Departure) (T : Mat)
    (departureKey destinationKey : Nat) : Route :=
  let shortPath := (get_route_go G T destinationKey (G.length + 1) departureKey).1
  let finalRoute : Route := ⟨G.getD departureKey default, shortPath⟩
  if finalRoute.RouteIsValid then finalRoute
  else ⟨⟨[], -1, -1, -1⟩, []⟩

/-- Total weight the selection loop of `get_shortest_route` assigns to a
candidate route. -/
def routeWeight (includeLayovers : Bool) (r : Route) : Int :=
  r.tripList.foldl (fun acc tr => acc + weightSel includeLayovers tr) 0

/-- `StationGraph::get_shortest_route`: enumerate every vertex pair whose
station IDs match the query, keep the valid reconstructions, and return
the first candidate of minimum total weight (the invalid-route sentinel
when there is none; the source's out-of-bounds access when no candidate
weight is below `INF` is modelled by the sentinel as well). -/
def get_shortest_route (G : List Departure) (T : Mat)
    (departureID destinationID : Int) (includeLayovers : Bool) : Route :=
  let V := G.length
  let potentialRouteList :=
    (List.range V).flatMap
      (fun j =>
        (List.range V).filterMap
          (fun k =>
            if (G.getD j default).stationID = departureID ∧
                (G.getD k default).stationID = destinationID then
              let r := get_route G T j k
              if r.RouteIsValid then some r else none
            else none))
  if potentialRouteList.length > 0 then
    let sel :=
      potentialRouteList.foldl
        (fun (acc : Int × Int × Int) r =>
          let totalCurrentWeight := routeWeight includeLayovers r
          if totalCurrentWeight < acc.1 then
            (totalCurrentWeight, acc.2.2, acc.2.2 + 1)
          else (acc.1, acc.2.1, acc.2.2 + 1))
        (INF, -1, 0)
    if 0 ≤ sel.2.1 then
      potentialRouteList.getD sel.2.1.toNat ⟨⟨[], -1, -1, -1⟩, []⟩
    else ⟨⟨[], -1, -1, -1⟩, []⟩
  else ⟨⟨[], -1, -1, -1⟩, []⟩

/-- `StationGraph::direct_route_exists`: some vertex pair matching the two
station IDs reconstructs to a valid single-segment route. -/
def direct_route_exists (G : List Departure) (T : Mat)
    (departureID destinationID : Int) : Bool :=
  let V := G.length
  (List.range V).any
    (fun j =>
      (List.range V).any
        (fun k =>
          if (G.getD j default).stationID = departureID ∧
              (G.getD k default).stationID = destinationID then
            let r := get_route G T j k
            r.RouteIsValid ∧ r.tripList.length = 1
          else false))

/-- The `StationGraph` object: the data its constructor builds and keeps. -/
structure StationGraph where
  stationCount : Nat
  stationsGraphList : List Station
  stationArrivalsGraphList : List Station
  departureGraphList : List Departure
  shortestRouteWithLayoverSequenceTable : Mat
  shortestRouteWithoutLayoverSequenceTable : Mat

/-- The `StationGraph` constructor: build the three graphs and precompute
both sequence tables. -/
def mkStationGraph (tripData : List TripRow) (stationData : List String)
    (stationsCount : Nat) : StationGraph :=
  let G := build_departures_graph tripData stationData
  { stationCount := stationsCount
    stationsGraphList := build_stations_graph stationsCount tripData
    stationArrivalsGraphList :=
      build_station_arrivals_graph stationsCount tripData
    departureGraphList := G
    shortestRouteWithLayoverSequenceTable :=
      (floyd_warshal_shortest_paths G true).2
    shortestRouteWithoutLayoverSequenceTable :=
      (floyd_warshal_shortest_paths G false).2 }

/-- `StationGraph::GetShortestRoute`. -/
def StationGraph.GetShortestRoute (g : StationGraph)
    (departureStationID destinationStationID : Int)
    (includeLayovers : Bool) : Route :=
  if includeLayovers then
    get_shortest_route g.departureGraphList
      g.shortestRouteWithLayoverSequenceTable
      departureStationID destinationStationID true
  else
    get_shortest_route g.departureGraphList
      g.shortestRouteWithoutLayoverSequenceTable
      departureStationID destinationStationID false

/-- `StationGraph::PathExists`. -/
def StationGraph.PathExists (g : StationGraph)
    (startStationID targetStationID : Int) : Bool :=
  (get_shortest_route g.departureGraphList
      g.shortestRouteWithLayoverSequenceTable
      startStationID targetStationID true).RouteIsValid

/-- `StationGraph::DirectPathExists`. -/
def StationGraph.DirectPathExists (g : StationGraph)
    (startStationID targetStationID : Int) : Bool :=
  direct_route_exists g.departureGraphList
    g.shortestRouteWithLayoverSequenceTable startStationID targetStationID

/-- `StationGraph::GetVertexCount`. -/
def StationGraph.GetVertexCount (g : StationGraph) : Nat := g.stationCount

/-- `StationGraph::GetStationFromGraph`. -/
def StationGraph.GetStationFromGraph (g : StationGraph) (stationID : Int) :
    Station :=
  let iDAsZeroIndex := stationID - 1
  if iDAsZeroIndex < (g.stationsGraphList.length : Int) ∧ 0 ≤ iDAsZeroIndex
  then g.stationsGraphList.getD iDAsZeroIndex.toNat ⟨-1, []⟩
  else ⟨-1, []⟩

/-- `StationGraph::GetStationFromArrivalGraph`. -/
def StationGraph.GetStationFromArrivalGraph (g : StationGraph)
    (stationID : Int) : Station :=
  let iDAsZeroIndex := stationID - 1
  if iDAsZeroIndex < (g.stationArrivalsGraphList.length : Int) ∧
      0 ≤ iDAsZeroIndex
  then g.stationArrivalsGraphList.getD iDAsZeroIndex.toNat ⟨-1, []⟩
  else ⟨-1, []⟩

/-- `StationGraph::GetDepartureFromGraph` indexes the departure list with
no bounds check; the embedding returns `none` exactly on the accesses
that are undefined in the source. -/
def StationGraph.GetDepartureFromGraph (g : StationGraph) (lookUpKey : Int) :
    Option Departure :=
  if 0 ≤ lookUpKey then g.departureGraphList.get? lookUpKey.toNat else none

/-! ### Concrete timetables used in counterexamples and witnesses -/

/-- Scenario A of §8: stations `{1,2,3}`, trips `1→2` 0800–0900 and `2→3`
0920–1000 (times written with their leading zeros). -/
def tblA : List TripRow := [⟨"1", "2", "0800", "0900"⟩, ⟨"2", "3", "0920", "1000"⟩]

/-- The three station rows (first field of each). -/
def stA : List String := ["1", "2", "3"]

/-- A timetable whose clock times lack leading zeros: trip `1→2` arrives
950 and trip `2→3` departs 1000, a numerically valid connection. -/
def tblNoPad : List TripRow := [⟨"1", "2", "800", "950"⟩, ⟨"2", "3", "1000", "1100"⟩]

/-- The same timetable with all clock times zero-padded to four digits. -/
def tblPad : List TripRow := [⟨"1", "2", "0800", "0950"⟩, ⟨"2", "3", "1000", "1100"⟩]

/-- Scenario B of §8: the second trip departs 0850, before the first
arrives at 0900, so stations 1 and 3 chain statically but no
time-respecting connection exists. -/
def tblB : List TripRow := [⟨"1", "2", "0800", "0900"⟩, ⟨"2", "3", "0850", "0950"⟩]

/-- The destination station IDs listed by the static outgoing view of a
station. -/
def staticDestinations (stationsList : List Station) (a : Int) : List Int :=
  match stationsList.find? (fun st => st.stationID = a) with
  | some st => st.trips.map (fun tr => tr.destinationID)
  | none => []

/-- Modelled from the spec: the breadth-first reachability over the static
adjacency view that §4.4 describes for `PathExists` — "is there any
sequence of trips, ignoring timing/transfer feasibility, connecting these
stations".  Membership of the target in the iterated neighbour closure. -/
def specStaticReachable (stationsList : List Station) (a b : Int) : Bool :=
  let step : List Int → List Int := fun acc =>
    (acc ++ acc.flatMap (staticDestinations stationsList)).dedup
  b ∈ step^[stationsList.length] [a]

/-! ### Walks of the time-expanded graph

The seeding pass writes, for every vertex and target column, the weight of
the *last* stored trip with that target key; `lastTripTo` is exactly that
edge, and `Walk`/`walkW` describe edge sequences and their summed weights
under a weight mode.  `nextChain` follows a sequence table towards a fixed
destination column, as route reconstruction does. -/

/-- The last stored trip of a vertex towards target key `v` — the edge
whose weight the seeding pass leaves in the matrices. -/
def lastTripTo (d : Departure) (v : Nat) : Option TripPlusLayover :=
  d.validTrips.foldl
    (fun acc tr => if tr.destinationKey = (v : Int) then some tr else acc) none

/-- Weight of the stored edge from vertex `u` to vertex `v` (0 if absent;
only used beneath an existence hypothesis). -/
def edgeWeight (m : Bool) (G : List Departure) (u v : Nat) : Int :=
  match lastTripTo (G.getD u default) v with
  | some tr => weightSel m tr
  | none => 0

/-- `Walk G u vs w`: from vertex `u` the successive targets `vs` each
follow a stored edge, ending at `w`.  Walks are nonempty. -/
inductive Walk (G : List Departure) : Nat → List Nat → Nat → Prop
  | single {u v : Nat} (hu : u < G.length)
      (ht : (lastTripTo (G.getD u default) v).isSome = true) : Walk G u [v] v
  | cons {u v w : Nat} {vs : List Nat} (hu : u < G.length)
      (ht : (lastTripTo (G.getD u default) v).isSome = true)
      (hw : Walk G v vs w) : Walk G u (v :: vs) w

/-- Summed edge weights along a vertex sequence. -/
def walkW (m : Bool) (G : List Departure) : Nat → List Nat → Int
  | _, [] => 0
  | u, v :: vs => edgeWeight m G u v + walkW m G v vs

/-- Follow a sequence table from `cur` towards destination column `j`,
recording the vertices stepped onto, stopping on reaching `j` (or when
the fuel runs out). -/
def nextChain (N : Mat) (j : Nat) : Nat → Nat → List Nat
  | 0, _ => []
  | fuel + 1, cur =>
      if cur = j then []
      else (N cur j).toNat :: nextChain N j fuel (N cur j).toNat

/-- All stored edge weights under mode `m` are positive and at most
20000 (twice the largest 4-digit clock value — every timetable-derived
weight is a sum or difference of two such values). -/
def WeightsGood (m : Bool) (G : List Departure) : Prop :=
  ∀ d ∈ G, ∀ tr ∈ d.validTrips, 0 < weightSel m tr ∧ weightSel m tr ≤ 20000

/-- All stored target keys denote vertices of the graph. -/
def KeysGood (G : List Departure) : Prop :=
  ∀ d ∈ G, ∀ tr ∈ d.validTrips,
    0 ≤ tr.destinationKey ∧ tr.destinationKey < (G.length : Int)

/-- All stored target keys are non-negative. -/
def KeysNonneg (G : List Departure) : Prop :=
  ∀ d ∈ G, ∀ tr ∈ d.validTrips, 0 ≤ tr.destinationKey

/-- Every vertex's stored lookup key is its own index. -/
def KeysCanonical (G : List Departure) : Prop :=
  ∀ p, p < G.length → (G.getD p default).lookUpKey = (p : Int)

/-- Edges into a non-terminal vertex strictly increase the stored
departure time (true of every well-formed timetable: a connection departs
after the previous trip arrived, which is after it departed). -/
def DepTimesIncrease (G : List Departure) : Prop :=
  ∀ u, u < G.length → ∀ tr ∈ (G.getD u default).validTrips,
    (G.getD tr.destinationKey.toNat default).validTrips ≠ [] →
      (G.getD u default).departureTime <
        (G.getD tr.destinationKey.toNat default).departureTime

/-- The joint invariant of the distance matrix and sequence table: entries
never exceed the sentinel, the two tables are set at the same cells, and
every finite distance is witnessed by a walk whose first hop is the
sequence-table entry. -/
def SeqOk (m : Bool) (G : List Departure) (S : Mat × Mat) : Prop :=
  ∀ x y, S.1 x y ≤ INF ∧ (S.1 x y = INF → S.2 x y = INF) ∧
    (S.1 x y ≠ INF →
      ∃ v vs, Walk G x (v :: vs) y ∧
        walkW m G x (v :: vs) = S.1 x y ∧ S.2 x y = (v : Int))

/-- The partial minimality invariant of the relaxation: after the passes
whose pivots form `K`, every finite entry is at most the weight of any
walk whose intermediate vertices all lie in `K`. -/
def GoodUpto (m : Bool) (G : List Departure) (K : List Nat)
    (S : Mat × Mat) : Prop :=
  ∀ x y vs, y < G.length → Walk G x vs y →
    (∀ v ∈ vs.dropLast, v ∈ K) → S.1 x y ≤ walkW m G x vs

/-- The connection edge record `i` pushes towards record `j` in the
`j`-loop of `build_departures_graph`: target key `j`, ride time, layover
at destination, total weight. -/
def connEdge (t : List TripRow) (i j : Nat) : TripPlusLayover :=
  ⟨(j : Int), stoi (t.getD i default).arr - stoi (t.getD i default).dep,
    stoi (t.getD j default).dep - stoi (t.getD i default).arr,
    stoi (t.getD i default).arr - stoi (t.getD i default).dep +
      (stoi (t.getD j default).dep - stoi (t.getD i default).arr)⟩

/-- The ride edge of record `i`: towards the terminal vertex of the
record's destination station, with no layover. -/
def rideEdge (t : List TripRow) (i : Nat) : TripPlusLayover :=
  ⟨stoi (t.getD i default).dest + ((t.length : Int) - 1),
    stoi (t.getD i default).arr - stoi (t.getD i default).dep, 0,
    stoi (t.getD i default).arr - stoi (t.getD i default).dep + 0⟩

/-- All connection edges of record `i`, in the order of the `j`-loop. -/
def connEdges (t : List TripRow) (i : Nat) : List TripPlusLayover :=
  (List.range t.length).filterMap
    (fun j =>
      if j ≠ i ∧ streq (t.getD i default).dest (t.getD j default).orig ∧
          strLt (t.getD i default).arr (t.getD j default).dep then
        some (connEdge t i j)
      else none)

/-- No two distinct trip records agree on all four fields after `stoi`:
`station_records_match` identifies only a record with itself. -/
def RecordsDistinct (t : List TripRow) : Prop :=
  ∀ k, k < t.length → ∀ i, i < t.length →
    station_records_match t k i = true → k = i

/-- The station table lists the station IDs `1..S` in order. -/
def StationsCanonical (s : List String) : Prop :=
  ∀ i, i < s.length → stoi (s.getD i "") = (i : Int) + 1

/-- Record-level well-formedness of a timetable: pairwise distinct
records, origin and destination station IDs inside the station table,
non-negative 4-digit clock values with positive ride times, string
comparison agreeing with numeric comparison on the compared clock pairs,
and a canonical station table. -/
def TripsWF (t : List TripRow) (s : List String) : Prop :=
  RecordsDistinct t ∧
  (∀ r ∈ t, 1 ≤ stoi r.orig ∧ stoi r.orig ≤ (s.length : Int)) ∧
  (∀ r ∈ t, 1 ≤ stoi r.dest ∧ stoi r.dest ≤ (s.length : Int)) ∧
  (∀ r ∈ t, 0 ≤ stoi r.dep ∧ stoi r.dep < stoi r.arr ∧
    stoi r.arr ≤ 9999) ∧
  (∀ r1 ∈ t, ∀ r2 ∈ t, strLt r1.arr r2.dep = true →
    stoi r1.arr < stoi r2.dep) ∧
  StationsCanonical s

/-- The origin station's static outgoing adjacency list contains a trip
whose destination is exactly the target station (the right-hand side of
the `DirectPathExists` contract, stated with the program's own static
station lookup). -/
def staticDirectAdj (g : StationGraph) (origin target : Int) : Bool :=
  (g.GetStationFromGraph origin).trips.any
    (fun tr => tr.destinationID = target)

/-! ### Helper lemmas on the built lists -/

theorem getD_map_range {α : Type} (n i : Nat) (f : Nat → α) (dflt : α)
    (h : i < n) : ((List.range n).map f).getD i dflt = f i := by
  rw [List.getD_eq_getElem?_getD, List.getElem?_map, List.getElem?_range h]
  rfl

theorem build_stations_length (n : Nat) (t : List TripRow) :
    (build_stations_graph n t).length = n := by
  simp [build_stations_graph]

theorem build_arrivals_length (n : Nat) (t : List TripRow) :
    (build_station_arrivals_graph n t).length = n := by
  simp [build_station_arrivals_graph]

theorem build_departures_length (t : List TripRow) (s : List String) :
    (build_departures_graph t s).length = t.length + s.length := by
  simp [build_departures_graph]

theorem build_stations_getD (n : Nat) (t : List TripRow) (i : Nat)
    (h : i < n) :
    ((build_stations_graph n t).getD i ⟨-1, []⟩).stationID =
      Int.ofNat i + 1 := by
  simp only [build_stations_graph]
  rw [getD_map_range _ _ _ _ h]

theorem build_arrivals_getD (n : Nat) (t : List TripRow) (i : Nat)
    (h : i < n) :
    ((build_station_arrivals_graph n t).getD i ⟨-1, []⟩).stationID =
      Int.ofNat i + 1 := by
  simp only [build_station_arrivals_graph]
  rw [getD_map_range _ _ _ _ h]

theorem build_departures_lookUpKey (t : List TripRow) (s : List String)
    (m : Nat) (d : Departure)
    (h : (build_departures_graph t s).get? m = some d) :
    d.lookUpKey = (m : Int) := by
  simp only [build_departures_graph] at h
  rcases Nat.lt_or_ge m t.length with hm | hm
  · rw [List.get?_append (by simpa using hm), List.get?_map,
      List.get?_range (by simpa using hm)] at h
    cases h
    rfl
  · have hm2 : m - t.length < s.length := by
      by_contra hc
      rw [List.get?_eq_none.mpr
        (by simp only [List.length_append, List.length_map,
              List.length_range]; omega)] at h
      exact Option.noConfusion h
    rw [List.get?_append_right (by simpa using hm), List.get?_map] at h
    simp only [List.length_map, List.length_range] at h
    rw [List.get?_range hm2] at h
    cases h
    simp only [Departure.lookUpKey]
    omega

theorem build_departures_get?_isSome (t : List TripRow) (s : List String)
    (m : Nat) (h : m < t.length + s.length) :
    ∃ d, (build_departures_graph t s).get? m = some d := by
  cases heq : (build_departures_graph t s).get? m with
  | none =>
      have := List.get?_eq_none.mp heq
      rw [build_departures_length] at this
      omega
  | some d => exact ⟨d, rfl⟩

set_option maxRecDepth 100000

/-! ### Claim theorems (part 1) -/

/-- C1: the specification states that a connection edge from record A to
record B exists iff B's departure time exceeds A's arrival time *as
integers*, with clock times possibly lacking leading zeros.  The builder
instead compares the two fields as strings
(`tripDataTable[i][3] < tripDataTable[j][2]`).  On `tblNoPad`, A arrives
"950" and B departs "1000": B's departure is numerically later and B's
origin equals A's destination, yet vertex 0 gets no connection edge to
vertex 1 because `"950" < "1000"` is lexicographically false.  Padding
the same times to four digits (`tblPad`) produces the edge with exactly
the layover `1000 − 950 = 50` and weight `ride + layover = 200` the
claim prescribes. -/
theorem connection_edge_uses_string_compare :
    stoi (tblNoPad.getD 0 default).arr < stoi (tblNoPad.getD 1 default).dep ∧
    streq (tblNoPad.getD 0 default).dest (tblNoPad.getD 1 default).orig = true ∧
    strLt (tblNoPad.getD 0 default).arr (tblNoPad.getD 1 default).dep = false ∧
    (((build_departures_graph tblNoPad stA).getD 0 default).validTrips.all
      (fun tr => tr.destinationKey ≠ 1)) = true ∧
    (((build_departures_graph tblPad stA).getD 0 default).validTrips.any
      (fun tr => tr.destinationKey = 1 ∧ tr.layoverTimeAtDestinationMins = 50 ∧
        tr.tripWeight = 200)) = true := by
  decide

/-- C2 as stated is false: on Scenario A the with-layover route does have
exactly 2 segments, but its summed weight is 200, not 120 — the code
subtracts raw 4-digit clock values (`0900 − 0800 = 100`), it never
converts them to minutes. -/
theorem scenarioA_claimed_weights_false :
    ((mkStationGraph tblA stA 3).GetShortestRoute 1 3 true).tripList.length = 2 ∧
    routeWeight true ((mkStationGraph tblA stA 3).GetShortestRoute 1 3 true) = 200 ∧
    ¬ routeWeight true
        ((mkStationGraph tblA stA 3).GetShortestRoute 1 3 true) = 120 := by
  decide

/-- C2 (amended): on Scenario A, `GetShortestRoute(1,3,true)` returns a
2-segment route of total summed weight 200 (100 + 20 layover + 80, raw
clock differences), and `GetShortestRoute(1,3,false)` returns the same
segment sequence with total summed ride time 180 (100 + 80). -/
theorem scenarioA_route_weights :
    ((mkStationGraph tblA stA 3).GetShortestRoute 1 3 true).tripList.length = 2 ∧
    routeWeight true ((mkStationGraph tblA stA 3).GetShortestRoute 1 3 true) = 200 ∧
    ((mkStationGraph tblA stA 3).GetShortestRoute 1 3 false).tripList =
      ((mkStationGraph tblA stA 3).GetShortestRoute 1 3 true).tripList ∧
    routeWeight false ((mkStationGraph tblA stA 3).GetShortestRoute 1 3 false) = 180 := by
  decide

/-- C4 as stated is false: on Scenario B the static adjacency view chains
`1 → 2 → 3` (timing ignored), but `PathExists(1,3)` is false — the
implementation consults the time-expanded with-layover table, not a
breadth-first search of the static view. -/
theorem pathExists_not_static_reachability :
    specStaticReachable (build_stations_graph 3 tblB) 1 3 = true ∧
    (mkStationGraph tblB stA 3).PathExists 1 3 = false := by
  decide

/-- C4 (amended): `PathExists` answers time-respecting reachability: it
returns true exactly when the with-layovers shortest-route query between
the two stations yields a valid route. -/
theorem pathExists_is_time_respecting (t : List TripRow) (s : List String)
    (n : Nat) (a b : Int) :
    (mkStationGraph t s n).PathExists a b =
      ((mkStationGraph t s n).GetShortestRoute a b true).RouteIsValid := rfl

/-- C8: a station ID outside `[1, stationCount]` makes both station
lookups return the sentinel station with ID −1 and no trips; an ID inside
the range returns the stored station with that ID (the list entry at
index `ID − 1`). -/
theorem station_lookup_contract (t : List TripRow) (s : List String)
    (n : Nat) (id : Int) :
    ((id < 1 ∨ (n : Int) < id) →
      (mkStationGraph t s n).GetStationFromGraph id = ⟨-1, []⟩ ∧
      (mkStationGraph t s n).GetStationFromArrivalGraph id = ⟨-1, []⟩) ∧
    (1 ≤ id → id ≤ (n : Int) →
      ((mkStationGraph t s n).GetStationFromGraph id).stationID = id ∧
      (mkStationGraph t s n).GetStationFromGraph id =
        (mkStationGraph t s n).stationsGraphList.getD (id - 1).toNat ⟨-1, []⟩ ∧
      ((mkStationGraph t s n).GetStationFromArrivalGraph id).stationID = id ∧
      (mkStationGraph t s n).GetStationFromArrivalGraph id =
        (mkStationGraph t s n).stationArrivalsGraphList.getD
          (id - 1).toNat ⟨-1, []⟩) := by
  have hlen1 : (mkStationGraph t s n).stationsGraphList.length = n :=
    build_stations_length n t
  have hlen2 : (mkStationGraph t s n).stationArrivalsGraphList.length = n :=
    build_arrivals_length n t
  constructor
  · intro hout
    constructor
    · simp only [StationGraph.GetStationFromGraph, hlen1]
      rw [if_neg (by omega)]
    · simp only [StationGraph.GetStationFromArrivalGraph, hlen2]
      rw [if_neg (by omega)]
  · intro h1 h2
    have hidx : (id - 1).toNat < n := by omega
    have hval : Int.ofNat (id - 1).toNat + 1 = id := by
      show ((id - 1).toNat : Int) + 1 = id
      omega
    refine ⟨?_, ?_, ?_, ?_⟩
    · simp only [StationGraph.GetStationFromGraph, hlen1]
      rw [if_pos (by omega)]
      have := build_stations_getD n t (id - 1).toNat hidx
      exact this.trans hval
    · simp only [StationGraph.GetStationFromGraph, hlen1]
      rw [if_pos (by omega)]
    · simp only [StationGraph.GetStationFromArrivalGraph, hlen2]
      rw [if_pos (by omega)]
      have := build_arrivals_getD n t (id - 1).toNat hidx
      exact this.trans hval
    · simp only [StationGraph.GetStationFromArrivalGraph, hlen2]
      rw [if_pos (by omega)]

/-- Witness for C8 at a concrete graph: ID 0 and ID `stationCount + 1`
give the sentinel, ID 2 gives the stored station. -/
theorem station_lookup_contract_witness :
    (mkStationGraph tblA stA 3).GetStationFromGraph 0 = ⟨-1, []⟩ ∧
    (mkStationGraph tblA stA 3).GetStationFromGraph 4 = ⟨-1, []⟩ ∧
    ((mkStationGraph tblA stA 3).GetStationFromGraph 2).stationID = 2 := by
  refine ⟨((station_lookup_contract tblA stA 3 0).1 (by omega)).1,
    ((station_lookup_contract tblA stA 3 4).1 (by omega)).1,
    ((station_lookup_contract tblA stA 3 2).2 (by omega) (by omega)).1⟩

/-- C9: with `stationsCount` equal to the number S of station records,
`GetVertexCount` returns S while the time-expanded departure graph holds
R + S vertices; with at least one trip record the former is strictly
smaller. -/
theorem vertex_count_is_station_count (t : List TripRow) (s : List String)
    (h : 0 < t.length) :
    (mkStationGraph t s s.length).GetVertexCount = s.length ∧
    (mkStationGraph t s s.length).departureGraphList.length =
      t.length + s.length ∧
    (mkStationGraph t s s.length).GetVertexCount <
      (mkStationGraph t s s.length).departureGraphList.length := by
  refine ⟨rfl, build_departures_length t s, ?_⟩
  have h2 : (mkStationGraph t s s.length).departureGraphList.length =
      t.length + s.length := build_departures_length t s
  rw [h2]
  show s.length < t.length + s.length
  omega

/-- Witness for C9 on Scenario A. -/
theorem vertex_count_is_station_count_witness :
    (mkStationGraph tblA stA 3).GetVertexCount = 3 ∧
    (mkStationGraph tblA stA 3).departureGraphList.length = 5 := by
  have h := vertex_count_is_station_count tblA stA (by decide)
  exact ⟨h.1, h.2.1⟩

/-- C10: under the precondition `0 ≤ lookUpKey < R + S` the unchecked
lookup always returns the stored vertex, and that vertex's own lookup key
equals the argument; the `none` branch of the Option-returning embedding
is unreachable in range. -/
theorem departure_lookup_in_range (t : List TripRow) (s : List String)
    (n : Nat) (k : Int) (h0 : 0 ≤ k)
    (h1 : k < ((t.length + s.length : Nat) : Int)) :
    ∃ d, (mkStationGraph t s n).GetDepartureFromGraph k = some d ∧
      d.lookUpKey = k := by
  obtain ⟨d, hd⟩ := build_departures_get?_isSome t s k.toNat (by omega)
  refine ⟨d, ?_, ?_⟩
  · simp only [StationGraph.GetDepartureFromGraph, if_pos h0]
    exact hd
  · rw [build_departures_lookUpKey t s k.toNat d hd]
    omega

/-- Witness for C10 at key 4 of the Scenario A graph. -/
theorem departure_lookup_in_range_witness :
    ∃ d, (mkStationGraph tblA stA 3).GetDepartureFromGraph 4 = some d ∧
      d.lookUpKey = 4 := by
  exact departure_lookup_in_range tblA stA 3 4 (by omega) (by decide)

/-! ### Fold invariant helpers -/

theorem foldl_preserve {α σ : Type} {P : σ → Prop} {f : σ → α → σ}
    (h : ∀ s a, P s → P (f s a)) :
    ∀ (l : List α) (s : σ), P s → P (l.foldl f s) := by
  intro l
  induction l with
  | nil => intro s hs; exact hs
  | cons a l ih => intro s hs; exact ih (f s a) (h s a hs)

theorem foldl_establish {α σ : Type} {P : σ → Prop} {R : α → σ → Prop}
    {f : σ → α → σ}
    (hP : ∀ s a, P s → P (f s a))
    (hR : ∀ s a b, R a s → R a (f s b)) :
    ∀ (l : List α) (s : σ), P s → (∀ s a, P s → a ∈ l → R a (f s a)) →
      ∀ a ∈ l, R a (l.foldl f s) := by
  intro l
  induction l with
  | nil => intro s _ _ a ha; exact absurd ha (List.not_mem_nil a)
  | cons b l ih =>
      intro s hs hE a ha
      rcases List.mem_cons.mp ha with rfl | ha2
      · exact foldl_preserve (fun s c hr => hR s a c hr) l (f s a)
          (hE s a hs (List.mem_cons_self _ _))
      · exact ih (f s b) (hP s b hs)
          (fun s c hc hm => hE s c hc (List.mem_cons_of_mem _ hm)) a ha2

/-! ### Walk toolkit -/

theorem lastTripTo_aux (v : Nat) :
    ∀ (ts : List TripPlusLayover) (acc : Option TripPlusLayover) (tr : TripPlusLayover),
      ts.foldl (fun acc tr =>
        if tr.destinationKey = (v : Int) then some tr else acc) acc = some tr →
      (tr ∈ ts ∧ tr.destinationKey = (v : Int)) ∨ acc = some tr := by
  intro ts
  induction ts with
  | nil => intro acc tr h; exact Or.inr h
  | cons a ts ih =>
      intro acc tr h
      rcases ih _ tr h with ⟨hm, hk⟩ | hacc
      · exact Or.inl ⟨List.mem_cons_of_mem _ hm, hk⟩
      · by_cases hk : a.destinationKey = (v : Int)
        · have hacc2 : some a = some tr := by simpa [hk] using hacc
          cases hacc2
          exact Or.inl ⟨List.mem_cons_self _ _, hk⟩
        · have hacc2 : acc = some tr := by simpa [hk] using hacc
          exact Or.inr hacc2

theorem lastTripTo_mem {d : Departure} {v : Nat} {tr : TripPlusLayover}
    (h : lastTripTo d v = some tr) :
    tr ∈ d.validTrips ∧ tr.destinationKey = (v : Int) := by
  rcases lastTripTo_aux v d.validTrips none tr h with hok | hbad
  · exact hok
  · exact Option.noConfusion hbad

theorem getD_mem_of_lt {α : Type} [Inhabited α] {l : List α} {u : Nat}
    (h : u < l.length) : l.getD u default ∈ l := by
  rw [List.getD_eq_getElem l default h]
  exact List.getElem_mem h

theorem walk_src_lt {G : List Departure} {u : Nat} {vs : List Nat} {w : Nat}
    (h : Walk G u vs w) : u < G.length := by
  cases h with
  | single hu _ => exact hu
  | cons hu _ _ => exact hu

theorem walk_ne_nil {G : List Departure} {u : Nat} {vs : List Nat} {w : Nat}
    (h : Walk G u vs w) : vs ≠ [] := by
  cases h <;> simp

theorem walk_getLast {G : List Departure} {u : Nat} {vs : List Nat} {w : Nat}
    (h : Walk G u vs w) : vs.getLast? = some w := by
  induction h with
  | single _ _ => rfl
  | cons _ _ hw ih =>
      rcases List.exists_cons_of_ne_nil (walk_ne_nil hw) with ⟨b, l, heq⟩
      subst heq
      simpa [List.getLast?_cons_cons] using ih

theorem walk_append {G : List Departure} {u k w : Nat} {p q : List Nat}
    (h1 : Walk G u p k) (h2 : Walk G k q w) : Walk G u (p ++ q) w := by
  induction h1 with
  | single hu ht => exact Walk.cons hu ht h2
  | cons hu ht _ ih => exact Walk.cons hu ht (ih h2)

theorem walkW_append {m : Bool} {G : List Departure} {u k : Nat}
    {p : List Nat} (h1 : Walk G u p k) (q : List Nat) :
    walkW m G u (p ++ q) = walkW m G u p + walkW m G k q := by
  induction h1 with
  | single hu ht => simp [walkW, add_assoc]
  | cons hu ht _ ih => simp [walkW, ih, add_assoc]

theorem edge_weight_pos {m : Bool} {G : List Departure} {u v : Nat}
    (hpos : WeightsGood m G) (hu : u < G.length)
    (ht : (lastTripTo (G.getD u default) v).isSome = true) :
    0 < edgeWeight m G u v ∧ edgeWeight m G u v ≤ 20000 := by
  rcases Option.isSome_iff_exists.mp ht with ⟨tr, htr⟩
  have hmem := (lastTripTo_mem htr).1
  have := hpos _ (getD_mem_of_lt hu) tr hmem
  simp only [edgeWeight, htr]
  exact this

theorem walkW_pos {m : Bool} {G : List Departure} {u w : Nat} {vs : List Nat}
    (hpos : WeightsGood m G) (h : Walk G u vs w) : 0 < walkW m G u vs := by
  induction h with
  | single hu ht =>
      have := (edge_weight_pos hpos hu ht).1
      simp [walkW]
      omega
  | cons hu ht hw ih =>
      have := (edge_weight_pos hpos hu ht).1
      simp only [walkW]
      omega

theorem walkW_bounded {m : Bool} {G : List Departure} {u w : Nat}
    {vs : List Nat} (hpos : WeightsGood m G) (h : Walk G u vs w) :
    walkW m G u vs ≤ (vs.length : Int) * 20000 := by
  induction h with
  | single hu ht =>
      have := (edge_weight_pos hpos hu ht).2
      simp [walkW]
      omega
  | cons hu ht hw ih =>
      have := (edge_weight_pos hpos hu ht).2
      simp only [walkW, List.length_cons]
      push_cast
      nlinarith

/-! ### Seeding characterization -/

theorem lastTrip_fold_acc (y : Nat) :
    ∀ (ts : List TripPlusLayover) (acc : Option TripPlusLayover),
      ts.foldl (fun acc tr =>
          if tr.destinationKey = (y : Int) then some tr else acc) acc =
        match ts.foldl (fun acc tr =>
            if tr.destinationKey = (y : Int) then some tr else acc) none with
        | some t => some t
        | none => acc := by
  intro ts
  induction ts with
  | nil => intro acc; rfl
  | cons tr ts ih =>
      intro acc
      simp only [List.foldl_cons]
      by_cases hk : tr.destinationKey = (y : Int)
      · rw [if_pos hk, if_pos hk, ih (some tr)]
        cases ts.foldl (fun acc tr =>
          if tr.destinationKey = (y : Int) then some tr else acc) none <;> rfl
      · rw [if_neg hk, if_neg hk, ih acc, ih none]

theorem seed_row_spec (m : Bool) (row : Nat) :
    ∀ (ts : List TripPlusLayover), (∀ tr ∈ ts, 0 ≤ tr.destinationKey) →
    ∀ (DN : Mat × Mat) (x y : Nat),
      ((ts.foldl (fun DN tr =>
          (mupd DN.1 row tr.destinationKey.toNat (weightSel m tr),
            mupd DN.2 row tr.destinationKey.toNat tr.destinationKey)) DN).1 x y =
        (if x = row then
          match ts.foldl (fun acc tr =>
              if tr.destinationKey = (y : Int) then some tr else acc) none with
          | some tr => weightSel m tr
          | none => DN.1 x y
        else DN.1 x y)) ∧
      ((ts.foldl (fun DN tr =>
          (mupd DN.1 row tr.destinationKey.toNat (weightSel m tr),
            mupd DN.2 row tr.destinationKey.toNat tr.destinationKey)) DN).2 x y =
        (if x = row then
          match ts.foldl (fun acc tr =>
              if tr.destinationKey = (y : Int) then some tr else acc) none with
          | some tr => tr.destinationKey
          | none => DN.2 x y
        else DN.2 x y)) := by
  intro ts
  induction ts with
  | nil =>
      intro _ DN x y
      constructor <;> simp
  | cons tr ts ih =>
      intro hk DN x y
      have hk0 : 0 ≤ tr.destinationKey := hk tr (List.mem_cons_self _ _)
      have hkts : ∀ a ∈ ts, 0 ≤ a.destinationKey :=
        fun a ha => hk a (List.mem_cons_of_mem _ ha)
      simp only [List.foldl_cons]
      rw [lastTrip_fold_acc]
      rcases (ih hkts (mupd DN.1 row tr.destinationKey.toNat (weightSel m tr),
        mupd DN.2 row tr.destinationKey.toNat tr.destinationKey) x y) with ⟨ih1, ih2⟩
      rw [ih1, ih2]
      cases hfold : ts.foldl (fun acc tr =>
          if tr.destinationKey = (y : Int) then some tr else acc) none with
      | some t =>
          constructor
          · by_cases hx : x = row
            · simp [hx]
            · simp [hx, mupd]
          · by_cases hx : x = row
            · simp [hx]
            · simp [hx, mupd]
      | none =>
          constructor
          · by_cases hx : x = row
            · by_cases hy : tr.destinationKey = (y : Int)
              · have hyy : y = tr.destinationKey.toNat := by omega
                simp [hx, hy, mupd, ← hyy]
              · have hyy : ¬ y = tr.destinationKey.toNat := by omega
                simp [hx, hy, mupd, hyy]
            · simp [hx, mupd]
          · by_cases hx : x = row
            · by_cases hy : tr.destinationKey = (y : Int)
              · have hyy : y = tr.destinationKey.toNat := by omega
                simp [hx, hy, mupd, ← hyy]
              · have hyy : ¬ y = tr.destinationKey.toNat := by omega
                simp [hx, hy, mupd, hyy]
            · simp [hx, mupd]

theorem fw_seed_spec (m : Bool) :
    ∀ (G : List Departure), KeysCanonical G → KeysNonneg G →
    ∀ x y,
      ((fw_seed G m).1 x y =
        (if x < G.length then
          match lastTripTo (G.getD x default) y with
          | some tr => weightSel m tr
          | none => INF
        else INF)) ∧
      ((fw_seed G m).2 x y =
        (if x < G.length then
          match lastTripTo (G.getD x default) y with
          | some tr => tr.destinationKey
          | none => INF
        else INF)) := by
  intro G
  induction G using List.reverseRecOn with
  | nil =>
      intro _ _ x y
      constructor <;> simp [fw_seed]
  | append_singleton l d ih =>
      intro hcanon hnn x y
      have hd : d.lookUpKey = (l.length : Int) := by
        have h := hcanon l.length (by simp)
        rwa [List.getD_append_right _ _ _ _ (le_refl _), Nat.sub_self] at h
      have hrow : d.lookUpKey.toNat = l.length := by omega
      have hcl : KeysCanonical l := by
        intro p hp
        have h := hcanon p (by simp; omega)
        rwa [List.getD_append _ _ _ _ hp] at h
      have hnl : KeysNonneg l := fun dd hdd tr htr =>
        hnn dd (List.mem_append_left _ hdd) tr htr
      have hsplit : fw_seed (l ++ [d]) m =
          d.validTrips.foldl (fun DN tr =>
            (mupd DN.1 d.lookUpKey.toNat tr.destinationKey.toNat
              (weightSel m tr),
             mupd DN.2 d.lookUpKey.toNat tr.destinationKey.toNat
              tr.destinationKey))
            (fw_seed l m) := by
        simp [fw_seed, List.foldl_append]
      obtain ⟨h1, h2⟩ := seed_row_spec m d.lookUpKey.toNat d.validTrips
        (fun tr htr => hnn d (List.mem_append_right _ (by simp)) tr htr)
        (fw_seed l m) x y
      obtain ⟨il1, il2⟩ := ih hcl hnl x y
      rw [hsplit]
      constructor
      · rw [h1]
        by_cases hx : x = l.length
        · subst hx
          rw [if_pos hrow.symm, il1, if_neg (lt_irrefl _),
            if_pos (by simp), List.getD_append_right _ _ _ _ (le_refl _),
            Nat.sub_self]
          show _ = match lastTripTo d y with
            | some tr => weightSel m tr
            | none => INF
          simp only [lastTripTo]
        · rw [if_neg (by omega), il1]
          rcases Nat.lt_trichotomy x l.length with hlt | heq | hgt
          · rw [if_pos hlt, if_pos (by simp; omega),
              List.getD_append _ _ _ _ hlt]
          · exact absurd heq hx
          · rw [if_neg (by omega), if_neg (by simp; omega)]
      · rw [h2]
        by_cases hx : x = l.length
        · subst hx
          rw [if_pos hrow.symm, il2, if_neg (lt_irrefl _),
            if_pos (by simp), List.getD_append_right _ _ _ _ (le_refl _),
            Nat.sub_self]
          show _ = match lastTripTo d y with
            | some tr => tr.destinationKey
            | none => INF
          simp only [lastTripTo]
        · rw [if_neg (by omega), il2]
          rcases Nat.lt_trichotomy x l.length with hlt | heq | hgt
          · rw [if_pos hlt, if_pos (by simp; omega),
              List.getD_append _ _ _ _ hlt]
          · exact absurd heq hx
          · rw [if_neg (by omega), if_neg (by simp; omega)]

/-! ### Monotonicity and the walk invariant through the relaxation -/

theorem fw_step_mono (k i j : Nat) (DN : Mat × Mat) (x y : Nat) :
    (fw_step k i j DN).1 x y ≤ DN.1 x y := by
  unfold fw_step
  by_cases h : DN.1 i k ≠ INF ∧ DN.1 k j ≠ INF ∧ DN.1 i k + DN.1 k j < DN.1 i j
  · rw [if_pos h]
    simp only [mupd]
    by_cases hxy : x = i ∧ y = j
    · rw [if_pos hxy]
      obtain ⟨rfl, rfl⟩ := hxy
      exact le_of_lt h.2.2
    · rw [if_neg hxy]
  · rw [if_neg h]

theorem fw_step_keep (k i j : Nat) (DN : Mat × Mat) (x y : Nat) :
    (fw_step k i j DN).1 x y < DN.1 x y ∨
    ((fw_step k i j DN).1 x y = DN.1 x y ∧
      (fw_step k i j DN).2 x y = DN.2 x y) := by
  unfold fw_step
  by_cases h : DN.1 i k ≠ INF ∧ DN.1 k j ≠ INF ∧ DN.1 i k + DN.1 k j < DN.1 i j
  · rw [if_pos h]
    simp only [mupd]
    by_cases hxy : x = i ∧ y = j
    · rw [if_pos hxy, if_pos hxy]
      obtain ⟨rfl, rfl⟩ := hxy
      exact Or.inl h.2.2
    · rw [if_neg hxy, if_neg hxy]
      exact Or.inr ⟨rfl, rfl⟩
  · rw [if_neg h]
    exact Or.inr ⟨rfl, rfl⟩

theorem fw_step_SeqOk {m : Bool} {G : List Departure} (k i j : Nat)
    {DN : Mat × Mat} (h : SeqOk m G DN) : SeqOk m G (fw_step k i j DN) := by
  intro x y
  unfold fw_step
  by_cases hc : DN.1 i k ≠ INF ∧ DN.1 k j ≠ INF ∧ DN.1 i k + DN.1 k j < DN.1 i j
  · rw [if_pos hc]
    obtain ⟨hik1, hkj1, himp⟩ := hc
    by_cases hxy : x = i ∧ y = j
    · obtain ⟨rfl, rfl⟩ := hxy
      simp only [mupd, and_self, if_true]
      have hIJ := (h x y).1
      obtain ⟨v1, vs1, hw1, hwW1, hN1⟩ := (h x k).2.2 hik1
      obtain ⟨v2, vs2, hw2, hwW2, hN2⟩ := (h k y).2.2 hkj1
      refine ⟨by omega, by omega, fun _ => ?_⟩
      refine ⟨v1, vs1 ++ (v2 :: vs2), ?_, ?_, hN1⟩
      · exact walk_append hw1 hw2
      · have hW := walkW_append (m := m) hw1 (v2 :: vs2)
        rw [List.cons_append] at hW
        rw [hW, hwW1, hwW2]
    · have e1 : (mupd DN.1 i j (DN.1 i k + DN.1 k j),
          mupd DN.2 i j (DN.2 i k)).1 x y = DN.1 x y := by
        show (if x = i ∧ y = j then DN.1 i k + DN.1 k j else DN.1 x y) =
          DN.1 x y
        rw [if_neg hxy]
      have e2 : (mupd DN.1 i j (DN.1 i k + DN.1 k j),
          mupd DN.2 i j (DN.2 i k)).2 x y = DN.2 x y := by
        show (if x = i ∧ y = j then DN.2 i k else DN.2 x y) = DN.2 x y
        rw [if_neg hxy]
      rw [e1, e2]
      exact h x y
  · rw [if_neg hc]
    exact h x y

theorem fw_seed_SeqOk (m : Bool) (G : List Departure)
    (hcanon : KeysCanonical G) (hnn : KeysNonneg G) (hW : WeightsGood m G) :
    SeqOk m G (fw_seed G m) := by
  intro x y
  obtain ⟨h1, h2⟩ := fw_seed_spec m G hcanon hnn x y
  rw [h1, h2]
  by_cases hx : x < G.length
  · rw [if_pos hx, if_pos hx]
    cases hlt : lastTripTo (G.getD x default) y with
    | none => exact ⟨le_refl _, fun _ => rfl, fun hne => absurd rfl hne⟩
    | some tr =>
        obtain ⟨hmem, hkey⟩ := lastTripTo_mem hlt
        obtain ⟨hp, hb⟩ := hW _ (getD_mem_of_lt hx) tr hmem
        have hINF : INF = 2147483647 := rfl
        have hD : (match some tr with
            | some t => weightSel m t
            | none => INF) = weightSel m tr := rfl
        have hN : (match some tr with
            | some t => t.destinationKey
            | none => INF) = tr.destinationKey := rfl
        rw [hD, hN]
        refine ⟨by omega, by omega, fun _ => ?_⟩
        refine ⟨y, [], ?_, ?_, hkey⟩
        · exact Walk.single hx (by rw [hlt]; rfl)
        · show edgeWeight m G x y + walkW m G y [] = weightSel m tr
          simp only [edgeWeight, hlt, walkW, add_zero]
  · rw [if_neg hx, if_neg hx]
    exact ⟨le_refl _, fun _ => rfl, fun hne => absurd rfl hne⟩

theorem SeqOk_pos {m : Bool} {G : List Departure} {S : Mat × Mat}
    (h : SeqOk m G S) (hW : WeightsGood m G) (x y : Nat) : 0 < S.1 x y := by
  by_cases hfin : S.1 x y = INF
  · rw [hfin]
    have hINF : INF = 2147483647 := rfl
    omega
  · obtain ⟨v, vs, hw, hwW, -⟩ := (h x y).2.2 hfin
    rw [← hwW]
    exact walkW_pos hW hw

theorem fw_inner_SeqOk {m : Bool} {G : List Departure} (V k i : Nat)
    {DN : Mat × Mat} (h : SeqOk m G DN) : SeqOk m G (fw_inner V k i DN) :=
  foldl_preserve (fun s j hs => fw_step_SeqOk k i j hs) _ _ h

theorem fw_pass_SeqOk {m : Bool} {G : List Departure} (V k : Nat)
    {DN : Mat × Mat} (h : SeqOk m G DN) : SeqOk m G (fw_pass V k DN) :=
  foldl_preserve (fun s i hs => fw_inner_SeqOk V k i hs) _ _ h

theorem fw_run_SeqOk {m : Bool} {G : List Departure} (V : Nat)
    {DN : Mat × Mat} (h : SeqOk m G DN) : SeqOk m G (fw_run V DN) :=
  foldl_preserve (fun s k hs => fw_pass_SeqOk V k hs) _ _ h

theorem fw_inner_mono (V k i : Nat) (DN : Mat × Mat) :
    ∀ x y, (fw_inner V k i DN).1 x y ≤ DN.1 x y := by
  have h := foldl_preserve
    (P := fun S => ∀ x y, (S : Mat × Mat).1 x y ≤ DN.1 x y)
    (fun s j hs x y => le_trans (fw_step_mono k i j s x y) (hs x y))
    (List.range V) DN (fun x y => le_refl _)
  exact h

theorem fw_pass_mono (V k : Nat) (DN : Mat × Mat) :
    ∀ x y, (fw_pass V k DN).1 x y ≤ DN.1 x y := by
  have h := foldl_preserve
    (P := fun S => ∀ x y, (S : Mat × Mat).1 x y ≤ DN.1 x y)
    (fun s i hs x y => le_trans (fw_inner_mono V k i s x y) (hs x y))
    (List.range V) DN (fun x y => le_refl _)
  exact h

theorem fw_step_self_le (k i j : Nat) (DN : Mat × Mat)
    (hik : 0 < DN.1 i k) (hkj : 0 < DN.1 k j) (hij : DN.1 i j ≤ INF) :
    (fw_step k i j DN).1 i j ≤ DN.1 i k + DN.1 k j := by
  unfold fw_step
  by_cases hg : DN.1 i k ≠ INF ∧ DN.1 k j ≠ INF ∧ DN.1 i k + DN.1 k j < DN.1 i j
  · rw [if_pos hg]
    show (if i = i ∧ j = j then DN.1 i k + DN.1 k j else DN.1 i j) ≤ _
    rw [if_pos ⟨rfl, rfl⟩]
  · rw [if_neg hg]
    have hINF : INF = 2147483647 := rfl
    by_cases ha : DN.1 i k = INF
    · omega
    · by_cases hb : DN.1 k j = INF
      · omega
      · have : ¬ DN.1 i k + DN.1 k j < DN.1 i j := fun hcon => hg ⟨ha, hb, hcon⟩
        omega

/-! ### List surgery for walks -/

theorem mem_first_split {α : Type} [DecidableEq α] {a : α} :
    ∀ {l : List α}, a ∈ l → ∃ l1 l2, l = l1 ++ a :: l2 ∧ a ∉ l1 := by
  intro l
  induction l with
  | nil => intro h; cases h
  | cons b l ih =>
      intro h
      by_cases hb : a = b
      · subst hb
        exact ⟨[], l, rfl, by simp⟩
      · have hmem : a ∈ l := by
          rcases List.mem_cons.mp h with h1 | h2
          · exact absurd h1 hb
          · exact h2
        rcases ih hmem with ⟨l1, l2, rfl, hnot⟩
        exact ⟨b :: l1, l2, rfl, by simp [hb, hnot]⟩

theorem walk_cons_inv {G : List Departure} {u b w : Nat} {tail : List Nat}
    (h : Walk G u (b :: tail) w) :
    (lastTripTo (G.getD u default) b).isSome = true ∧ u < G.length ∧
      ((tail = [] ∧ b = w) ∨ Walk G b tail w) := by
  cases h with
  | single hu ht => exact ⟨ht, hu, Or.inl ⟨rfl, rfl⟩⟩
  | cons hu ht hrest => exact ⟨ht, hu, Or.inr hrest⟩

theorem walk_split {G : List Departure} {u w a : Nat} :
    ∀ (l1 : List Nat) {l2 : List Nat}, l2 ≠ [] →
      Walk G u (l1 ++ a :: l2) w → Walk G u (l1 ++ [a]) a ∧ Walk G a l2 w := by
  intro l1
  induction l1 generalizing u with
  | nil =>
      intro l2 hne hw
      simp only [List.nil_append] at hw ⊢
      obtain ⟨ht, hu, hcase⟩ := walk_cons_inv hw
      rcases hcase with ⟨h1, -⟩ | hrest
      · exact absurd h1 hne
      · exact ⟨Walk.single hu ht, hrest⟩
  | cons b l1 ih =>
      intro l2 hne hw
      simp only [List.cons_append] at hw ⊢
      obtain ⟨ht, hu, hcase⟩ := walk_cons_inv hw
      rcases hcase with ⟨h1, -⟩ | hrest
      · exact absurd h1 (by simp)
      · obtain ⟨h1, h2⟩ := ih hne hrest
        exact ⟨Walk.cons hu ht h1, h2⟩

theorem cycle_drop {m : Bool} {G : List Departure}
    (hpos : WeightsGood m G) (K : List Nat) (k j : Nat) :
    ∀ (n : Nat) (vs : List Nat), vs.length ≤ n → Walk G k vs j →
      (∀ v ∈ vs.dropLast, v ∈ K ∨ v = k) →
      ∃ q, Walk G k q j ∧ walkW m G k q ≤ walkW m G k vs ∧
        ∀ v ∈ q.dropLast, v ∈ K := by
  intro n
  induction n with
  | zero =>
      intro vs hlen hw _
      have := walk_ne_nil hw
      cases vs
      · exact absurd rfl this
      · simp at hlen
  | succ n ih =>
      intro vs hlen hw hK
      by_cases hk : k ∈ vs.dropLast
      · obtain ⟨l1, l2d, hsplit, hnot⟩ := mem_first_split hk
        have hlast := walk_getLast hw
        have hvs2 : vs.dropLast ++ [j] = vs :=
          List.dropLast_append_getLast? j hlast
        rw [hsplit] at hvs2
        have hvs3 : vs = l1 ++ k :: (l2d ++ [j]) := by
          rw [← hvs2]
          simp
        have hl2ne : l2d ++ [j] ≠ [] := by simp
        have hsp := walk_split l1 hl2ne (hvs3 ▸ hw)
        obtain ⟨W1, W2⟩ := hsp
        have hlen2 : (l2d ++ [j]).length ≤ n := by
          have hlv : vs.length = l1.length + 1 + (l2d ++ [j]).length := by
            rw [hvs3]
            simp
            omega
          omega
        have hK2 : ∀ v ∈ (l2d ++ [j]).dropLast, v ∈ K ∨ v = k := by
          intro v hv
          rw [List.dropLast_concat] at hv
          apply hK
          rw [hsplit]
          exact List.mem_append_right _ (List.mem_cons_of_mem _ hv)
        obtain ⟨q, hq, hqw, hqK⟩ := ih (l2d ++ [j]) hlen2 W2 hK2
        refine ⟨q, hq, ?_, hqK⟩
        have hWapp := walkW_append (m := m) W1 (l2d ++ [j])
        have hvs4 : vs = (l1 ++ [k]) ++ (l2d ++ [j]) := by
          rw [hvs3]; simp
        have hpos1 : 0 < walkW m G k (l1 ++ [k]) := walkW_pos hpos W1
        rw [hvs4, hWapp]
        omega
      · refine ⟨vs, hw, le_refl _, fun v hv => ?_⟩
        rcases hK v hv with h1 | h2
        · exact h1
        · subst h2
          exact absurd hv hk

/-! ### The pass-level bound of the relaxation -/

theorem fw_pass_le {m : Bool} {G : List Departure} (k : Nat) (S0 : Mat × Mat)
    (hS : SeqOk m G S0) (hW : WeightsGood m G) :
    ∀ i ∈ List.range G.length, ∀ j ∈ List.range G.length,
      (fw_pass G.length k S0).1 i j ≤ S0.1 i j ∧
      (fw_pass G.length k S0).1 i j ≤ S0.1 i k + S0.1 k j := by
  have hmain := foldl_establish
    (P := fun S : Mat × Mat => (∀ a b, S.1 a b ≤ S0.1 a b) ∧ SeqOk m G S)
    (R := fun i (S : Mat × Mat) => ∀ j ∈ List.range G.length,
      S.1 i j ≤ S0.1 i j ∧ S.1 i j ≤ S0.1 i k + S0.1 k j)
    (f := fun S i => fw_inner G.length k i S)
    (fun S i hP => ⟨fun a b => le_trans (fw_inner_mono _ k i S a b) (hP.1 a b),
      fw_inner_SeqOk _ k i hP.2⟩)
    (fun S i b hR j hj => ⟨le_trans (fw_inner_mono _ k b S i j) ((hR j hj).1),
      le_trans (fw_inner_mono _ k b S i j) ((hR j hj).2)⟩)
    (List.range G.length) S0 ⟨fun a b => le_refl _, hS⟩
    (fun S i hP hi => by
      exact foldl_establish
        (P := fun S : Mat × Mat => (∀ a b, S.1 a b ≤ S0.1 a b) ∧ SeqOk m G S)
        (R := fun j (S : Mat × Mat) =>
          S.1 i j ≤ S0.1 i j ∧ S.1 i j ≤ S0.1 i k + S0.1 k j)
        (f := fun S j => fw_step k i j S)
        (fun S j hP2 =>
          ⟨fun a b => le_trans (fw_step_mono k i j S a b) (hP2.1 a b),
            fw_step_SeqOk k i j hP2.2⟩)
        (fun S j b hR =>
          ⟨le_trans (fw_step_mono k i b S i j) hR.1,
            le_trans (fw_step_mono k i b S i j) hR.2⟩)
        (List.range G.length) S hP
        (fun S j hP2 hj =>
          ⟨le_trans (fw_step_mono k i j S i j) (hP2.1 i j),
            le_trans
              (fw_step_self_le k i j S (SeqOk_pos hP2.2 hW i k)
                (SeqOk_pos hP2.2 hW k j) ((hP2.2 i j).1))
              (add_le_add (hP2.1 i k) (hP2.1 k j))⟩))
  exact hmain

theorem walk_inter_lt {G : List Departure} {u w : Nat} {vs : List Nat}
    (h : Walk G u vs w) : ∀ v ∈ vs.dropLast, v < G.length := by
  induction h with
  | single hu ht => intro v hv; simp at hv
  | cons hu ht hrest ih =>
      intro v hv
      rcases List.exists_cons_of_ne_nil (walk_ne_nil hrest) with ⟨b, l, heq⟩
      subst heq
      rw [List.dropLast_cons₂] at hv
      rcases List.mem_cons.mp hv with rfl | hv2
      · exact walk_src_lt hrest
      · exact ih v hv2

theorem fw_seed_GoodUpto (m : Bool) (G : List Departure)
    (hcanon : KeysCanonical G) (hnn : KeysNonneg G) :
    GoodUpto m G [] (fw_seed G m) := by
  intro x y vs hy hw hinter
  have hvs : vs = [y] := by
    rcases List.exists_cons_of_ne_nil (walk_ne_nil hw) with ⟨v0, l0, heq⟩
    subst heq
    cases l0 with
    | nil =>
        obtain ⟨-, -, hcase⟩ := walk_cons_inv hw
        rcases hcase with ⟨-, rfl⟩ | hrest
        · rfl
        · exact absurd rfl (walk_ne_nil hrest)
    | cons b l =>
        exfalso
        have hv0 : v0 ∈ (v0 :: b :: l).dropLast := by
          rw [List.dropLast_cons₂]
          exact List.mem_cons_self _ _
        exact absurd (hinter v0 hv0) (List.not_mem_nil _)
  subst hvs
  obtain ⟨ht, hu, -⟩ := walk_cons_inv hw
  obtain ⟨tr, htr⟩ := Option.isSome_iff_exists.mp ht
  have h1 := (fw_seed_spec m G hcanon hnn x y).1
  rw [h1, if_pos hu, htr]
  show weightSel m tr ≤ edgeWeight m G x y + walkW m G y []
  simp only [edgeWeight, htr, walkW, add_zero]
  exact le_refl _

theorem fw_passes_GoodUpto {m : Bool} {G : List Departure}
    (hW : WeightsGood m G) :
    ∀ (ks : List Nat), (∀ k2 ∈ ks, k2 < G.length) →
    ∀ (K : List Nat) (S : Mat × Mat), SeqOk m G S → GoodUpto m G K S →
      GoodUpto m G (K ++ ks)
        (ks.foldl (fun S k => fw_pass G.length k S) S) := by
  intro ks
  induction ks with
  | nil =>
      intro _ K S _ hG
      simpa using hG
  | cons k ks ih =>
      intro hks K S hS hG
      have hk : k < G.length := hks k (List.mem_cons_self _ _)
      have hG1 : GoodUpto m G (K ++ [k]) (fw_pass G.length k S) := by
        intro x y vs hy hw hinter
        by_cases hmem : k ∈ vs.dropLast
        · obtain ⟨l1, l2d, hsplit, hnot⟩ := mem_first_split hmem
          have hvs2 : vs.dropLast ++ [y] = vs :=
            List.dropLast_append_getLast? y (walk_getLast hw)
          rw [hsplit] at hvs2
          have hvs3 : vs = l1 ++ k :: (l2d ++ [y]) := by
            rw [← hvs2]
            simp
          have hl2ne : l2d ++ [y] ≠ [] := by simp
          obtain ⟨W1, W2⟩ := walk_split l1 hl2ne (hvs3 ▸ hw)
          have hl1K : ∀ v ∈ (l1 ++ [k]).dropLast, v ∈ K := by
            intro v hv
            rw [List.dropLast_concat] at hv
            have hvin : v ∈ vs.dropLast := by
              rw [hsplit]
              exact List.mem_append_left _ hv
            rcases List.mem_append.mp (hinter v hvin) with h1 | h2
            · exact h1
            · exfalso
              simp only [List.mem_singleton] at h2
              subst h2
              exact hnot hv
          have hK2 : ∀ v ∈ (l2d ++ [y]).dropLast, v ∈ K ∨ v = k := by
            intro v hv
            rw [List.dropLast_concat] at hv
            have hvin : v ∈ vs.dropLast := by
              rw [hsplit]
              exact List.mem_append_right _ (List.mem_cons_of_mem _ hv)
            rcases List.mem_append.mp (hinter v hvin) with h1 | h2
            · exact Or.inl h1
            · simp only [List.mem_singleton] at h2
              exact Or.inr h2
          obtain ⟨q, hq, hqw, hqK⟩ := cycle_drop hW K k y (l2d ++ [y]).length
            (l2d ++ [y]) (le_refl _) W2 hK2
          have hb1 : S.1 x k ≤ walkW m G x (l1 ++ [k]) := hG x k _ hk W1 hl1K
          have hb2 : S.1 k y ≤ walkW m G k q := hG k y q hy hq hqK
          have hple := (fw_pass_le k S hS hW x
            (List.mem_range.mpr (walk_src_lt hw)) y (List.mem_range.mpr hy)).2
          have happ := walkW_append (m := m) W1 (l2d ++ [y])
          have hvs4 : vs = (l1 ++ [k]) ++ (l2d ++ [y]) := by
            rw [hvs3]
            simp
          rw [hvs4, happ]
          omega
        · have hKonly : ∀ v ∈ vs.dropLast, v ∈ K := by
            intro v hv
            rcases List.mem_append.mp (hinter v hv) with h1 | h2
            · exact h1
            · exfalso
              simp only [List.mem_singleton] at h2
              subst h2
              exact hmem hv
          have hple := (fw_pass_le k S hS hW x
            (List.mem_range.mpr (walk_src_lt hw)) y (List.mem_range.mpr hy)).1
          exact le_trans hple (hG x y vs hy hw hKonly)
      have hrest := ih (fun k2 hk2 => hks k2 (List.mem_cons_of_mem _ hk2))
        (K ++ [k]) (fw_pass G.length k S) (fw_pass_SeqOk _ k hS) hG1
      rw [List.append_assoc] at hrest
      exact hrest

theorem fw_min {m : Bool} {G : List Departure} (hcanon : KeysCanonical G)
    (hnn : KeysNonneg G) (hW : WeightsGood m G) :
    ∀ x y vs, y < G.length → Walk G x vs y →
      (fw_run G.length (fw_seed G m)).1 x y ≤ walkW m G x vs := by
  intro x y vs hy hw
  have h := fw_passes_GoodUpto hW (List.range G.length)
    (fun k2 hk2 => List.mem_range.mp hk2) [] (fw_seed G m)
    (fw_seed_SeqOk m G hcanon hnn hW) (fw_seed_GoodUpto m G hcanon hnn)
  exact h x y vs hy hw (fun v hv => by
    simp only [List.nil_append]
    exact List.mem_range.mpr (walk_inter_lt hw v hv))

/-! ### Acyclicity and the hop equation -/

theorem lastTripTo_isSome_ne_nil {d : Departure} {v : Nat}
    (h : (lastTripTo d v).isSome = true) : d.validTrips ≠ [] := by
  obtain ⟨tr, htr⟩ := Option.isSome_iff_exists.mp h
  have := (lastTripTo_mem htr).1
  intro hnil
  rw [hnil] at this
  exact List.not_mem_nil tr this

theorem walk_nonsink {G : List Departure} {v w : Nat} {vs : List Nat}
    (h : Walk G v vs w) : (G.getD v default).validTrips ≠ [] := by
  cases h with
  | single hu ht => exact lastTripTo_isSome_ne_nil ht
  | cons hu ht _ => exact lastTripTo_isSome_ne_nil ht

theorem walk_depTime {G : List Departure} (hτ : DepTimesIncrease G) :
    ∀ {u w : Nat} {vs : List Nat}, Walk G u vs w →
      (G.getD w default).validTrips ≠ [] →
      (G.getD u default).departureTime < (G.getD w default).departureTime := by
  intro u w vs h
  induction h with
  | @single a b hu ht =>
      intro hns
      obtain ⟨tr, htr⟩ := Option.isSome_iff_exists.mp ht
      obtain ⟨hmem, hkey⟩ := lastTripTo_mem htr
      have hcast : tr.destinationKey.toNat = b := by omega
      have h1 := hτ a hu tr hmem
      rw [hcast] at h1
      exact h1 hns
  | @cons a b c vs2 hu ht hrest ih =>
      intro hns
      obtain ⟨tr, htr⟩ := Option.isSome_iff_exists.mp ht
      obtain ⟨hmem, hkey⟩ := lastTripTo_mem htr
      have hns2 := walk_nonsink hrest
      have hcast : tr.destinationKey.toNat = b := by omega
      have h1 := hτ a hu tr hmem
      rw [hcast] at h1
      exact lt_trans (h1 hns2) (ih hns)

theorem no_self_walk {G : List Departure} (hτ : DepTimesIncrease G)
    {u : Nat} {vs : List Nat} : ¬ Walk G u vs u := by
  intro h
  exact lt_irrefl _ (walk_depTime hτ h (walk_nonsink h))

theorem fw_diag_INF {m : Bool} {G : List Departure}
    (hcanon : KeysCanonical G) (hnn : KeysNonneg G) (hW : WeightsGood m G)
    (hτ : DepTimesIncrease G) (x : Nat) :
    (floyd_warshal_shortest_paths G m).1 x x = INF ∧
    (floyd_warshal_shortest_paths G m).2 x x = INF := by
  have hS : SeqOk m G (floyd_warshal_shortest_paths G m) :=
    fw_run_SeqOk G.length (fw_seed_SeqOk m G hcanon hnn hW)
  by_cases hfin : (floyd_warshal_shortest_paths G m).1 x x = INF
  · exact ⟨hfin, (hS x x).2.1 hfin⟩
  · obtain ⟨v, vs, hw, -, -⟩ := (hS x x).2.2 hfin
    exact absurd hw (no_self_walk hτ)

theorem walk_elems_lt {G : List Departure} (hkeys : KeysGood G) :
    ∀ {u w : Nat} {vs : List Nat}, Walk G u vs w →
      ∀ v ∈ vs, v < G.length := by
  intro u w vs h
  induction h with
  | single hu ht =>
      intro v hv
      rw [List.mem_singleton] at hv
      subst hv
      obtain ⟨tr, htr⟩ := Option.isSome_iff_exists.mp ht
      obtain ⟨hmem, hkey⟩ := lastTripTo_mem htr
      have := (hkeys _ (getD_mem_of_lt hu) tr hmem).2
      omega
  | cons hu ht hrest ih =>
      intro v hv
      rcases List.mem_cons.mp hv with rfl | hv2
      · obtain ⟨tr, htr⟩ := Option.isSome_iff_exists.mp ht
        obtain ⟨hmem, hkey⟩ := lastTripTo_mem htr
        have := (hkeys _ (getD_mem_of_lt hu) tr hmem).2
        omega
      · exact ih v hv2

theorem nodup_length_le (vs : List Nat) (V : Nat) (hnd : vs.Nodup)
    (hlt : ∀ v ∈ vs, v < V) : vs.length ≤ V := by
  have h1 : vs.toFinset.card = vs.length := List.toFinset_card_of_nodup hnd
  have h2 : vs.toFinset ⊆ Finset.range V := by
    intro a ha
    rw [List.mem_toFinset] at ha
    exact Finset.mem_range.mpr (hlt a ha)
  have h3 := Finset.card_le_card h2
  rw [h1, Finset.card_range] at h3
  exact h3

theorem fw_hop {m : Bool} {G : List Departure} (hcanon : KeysCanonical G)
    (hnn : KeysNonneg G) (hW : WeightsGood m G) (hτ : DepTimesIncrease G)
    {x y : Nat} (hy : y < G.length)
    (hfin : (floyd_warshal_shortest_paths G m).1 x y ≠ INF) :
    ∃ v : Nat, (floyd_warshal_shortest_paths G m).2 x y = (v : Int) ∧
      (lastTripTo (G.getD x default) v).isSome = true ∧ x < G.length ∧
      ((v = y ∧ (floyd_warshal_shortest_paths G m).1 x y =
          edgeWeight m G x y) ∨
       (v ≠ y ∧ (floyd_warshal_shortest_paths G m).1 v y ≠ INF ∧
        (floyd_warshal_shortest_paths G m).1 v y <
          (floyd_warshal_shortest_paths G m).1 x y ∧
        (floyd_warshal_shortest_paths G m).1 x y =
          edgeWeight m G x v + (floyd_warshal_shortest_paths G m).1 v y)) := by
  have hS : SeqOk m G (floyd_warshal_shortest_paths G m) :=
    fw_run_SeqOk G.length (fw_seed_SeqOk m G hcanon hnn hW)
  obtain ⟨v, vs, hw, hwW, hN⟩ := (hS x y).2.2 hfin
  obtain ⟨ht, hu, hcase⟩ := walk_cons_inv hw
  refine ⟨v, hN, ht, hu, ?_⟩
  rcases hcase with ⟨hnil, rfl⟩ | hrest
  · left
    subst hnil
    refine ⟨rfl, ?_⟩
    rw [← hwW]
    simp [walkW]
  · right
    have hvy : v ≠ y := by
      rintro rfl
      exact no_self_walk hτ hrest
    have hew := edge_weight_pos hW hu ht
    have hINF : INF = 2147483647 := rfl
    have hxyle : (floyd_warshal_shortest_paths G m).1 x y ≤ INF := (hS x y).1
    have hwWvs : walkW m G x (v :: vs) =
        edgeWeight m G x v + walkW m G v vs := rfl
    have hrest_le : (floyd_warshal_shortest_paths G m).1 v y ≤
        walkW m G v vs := fw_min hcanon hnn hW v y vs hy hrest
    have hvyfin : (floyd_warshal_shortest_paths G m).1 v y ≠ INF := by
      omega
    obtain ⟨v2, vs2, hw2, hwW2, -⟩ := (hS v y).2.2 hvyfin
    have hxle : (floyd_warshal_shortest_paths G m).1 x y ≤
        edgeWeight m G x v + (floyd_warshal_shortest_paths G m).1 v y := by
      have hcat : Walk G x (v :: (v2 :: vs2)) y := Walk.cons hu ht hw2
      have := fw_min hcanon hnn hW x y (v :: (v2 :: vs2)) hy hcat
      rw [show walkW m G x (v :: (v2 :: vs2)) =
        edgeWeight m G x v + walkW m G v (v2 :: vs2) from rfl, hwW2] at this
      exact this
    refine ⟨hvy, hvyfin, by omega, by omega⟩

/-! ### Walking the sequence table -/

theorem edge_target_lt {G : List Departure} (hkeys : KeysGood G)
    {x v : Nat} (hu : x < G.length)
    (ht : (lastTripTo (G.getD x default) v).isSome = true) :
    v < G.length := by
  obtain ⟨tr, htr⟩ := Option.isSome_iff_exists.mp ht
  obtain ⟨hmem, hkey⟩ := lastTripTo_mem htr
  have := (hkeys _ (getD_mem_of_lt hu) tr hmem).2
  omega

theorem nextChain_self (N : Mat) (j : Nat) :
    ∀ fuel, nextChain N j fuel j = [] := by
  intro fuel
  cases fuel <;> simp [nextChain]

theorem fw_chain {m : Bool} {G : List Departure} (hcanon : KeysCanonical G)
    (hnn : KeysNonneg G) (hW : WeightsGood m G) (hτ : DepTimesIncrease G)
    (hkeys : KeysGood G) {y : Nat} (hy : y < G.length) :
    ∀ (fuel x : Nat), x < G.length →
      (floyd_warshal_shortest_paths G m).1 x y ≠ INF →
      ((Finset.range G.length).filter (fun v =>
        (floyd_warshal_shortest_paths G m).1 v y ≠ INF ∧
        (floyd_warshal_shortest_paths G m).1 v y ≤
          (floyd_warshal_shortest_paths G m).1 x y)).card ≤ fuel →
      Walk G x
        (nextChain (floyd_warshal_shortest_paths G m).2 y fuel x) y ∧
      walkW m G x
        (nextChain (floyd_warshal_shortest_paths G m).2 y fuel x) =
        (floyd_warshal_shortest_paths G m).1 x y ∧
      (nextChain (floyd_warshal_shortest_paths G m).2 y fuel x).Nodup ∧
      (∀ v ∈ nextChain (floyd_warshal_shortest_paths G m).2 y fuel x,
        v = y ∨ ((floyd_warshal_shortest_paths G m).1 v y ≠ INF ∧
          (floyd_warshal_shortest_paths G m).1 v y <
            (floyd_warshal_shortest_paths G m).1 x y)) := by
  intro fuel
  induction fuel with
  | zero =>
      intro x hx hfin hcard
      exfalso
      have hxmem : x ∈ (Finset.range G.length).filter (fun v =>
          (floyd_warshal_shortest_paths G m).1 v y ≠ INF ∧
          (floyd_warshal_shortest_paths G m).1 v y ≤
            (floyd_warshal_shortest_paths G m).1 x y) :=
        Finset.mem_filter.mpr ⟨Finset.mem_range.mpr hx, hfin, le_refl _⟩
      have := Finset.card_pos.mpr ⟨x, hxmem⟩
      omega
  | succ fuel ih =>
      intro x hx hfin hcard
      have hxy : x ≠ y := by
        rintro rfl
        exact hfin (fw_diag_INF hcanon hnn hW hτ x).1
      obtain ⟨v, hN, ht, hu, hcase⟩ := fw_hop hcanon hnn hW hτ hy hfin
      have hch : nextChain (floyd_warshal_shortest_paths G m).2 y
          (fuel + 1) x = v :: nextChain
            (floyd_warshal_shortest_paths G m).2 y fuel v := by
        show (if x = y then [] else _) = _
        rw [if_neg hxy, hN]
        simp
      rcases hcase with ⟨rfl, heq⟩ | ⟨hvy, hfin2, hlt, heq⟩
      · rw [hch, nextChain_self]
        refine ⟨Walk.single hu ht, ?_, by simp, ?_⟩
        · show edgeWeight m G x v + walkW m G v [] = _
          simp only [walkW, add_zero]
          exact heq.symm
        · intro u hu2
          rw [List.mem_singleton] at hu2
          exact Or.inl hu2
      · have hvV : v < G.length := edge_target_lt hkeys hu ht
        have hsub : (Finset.range G.length).filter (fun u =>
            (floyd_warshal_shortest_paths G m).1 u y ≠ INF ∧
            (floyd_warshal_shortest_paths G m).1 u y ≤
              (floyd_warshal_shortest_paths G m).1 v y) ⊆
          (Finset.range G.length).filter (fun u =>
            (floyd_warshal_shortest_paths G m).1 u y ≠ INF ∧
            (floyd_warshal_shortest_paths G m).1 u y ≤
              (floyd_warshal_shortest_paths G m).1 x y) := by
          intro u hmem
          obtain ⟨h1, h2, h3⟩ := Finset.mem_filter.mp hmem
          exact Finset.mem_filter.mpr ⟨h1, h2, by omega⟩
        have hxnotin : x ∈ (Finset.range G.length).filter (fun u =>
            (floyd_warshal_shortest_paths G m).1 u y ≠ INF ∧
            (floyd_warshal_shortest_paths G m).1 u y ≤
              (floyd_warshal_shortest_paths G m).1 x y) ∧
          x ∉ (Finset.range G.length).filter (fun u =>
            (floyd_warshal_shortest_paths G m).1 u y ≠ INF ∧
            (floyd_warshal_shortest_paths G m).1 u y ≤
              (floyd_warshal_shortest_paths G m).1 v y) := by
          constructor
          · exact Finset.mem_filter.mpr ⟨Finset.mem_range.mpr hx, hfin,
              le_refl _⟩
          · intro hcon
            have := (Finset.mem_filter.mp hcon).2.2
            omega
        have hcard2 : ((Finset.range G.length).filter (fun u =>
            (floyd_warshal_shortest_paths G m).1 u y ≠ INF ∧
            (floyd_warshal_shortest_paths G m).1 u y ≤
              (floyd_warshal_shortest_paths G m).1 v y)).card ≤ fuel := by
          have hss := Finset.card_lt_card
            (Finset.ssubset_iff_of_subset hsub |>.mpr
              ⟨x, hxnotin.1, hxnotin.2⟩)
          omega
        obtain ⟨W, hwW, hnd, hmem⟩ := ih v hvV hfin2 hcard2
        rw [hch]
        refine ⟨Walk.cons hu ht W, ?_, ?_, ?_⟩
        · show edgeWeight m G x v + _ = _
          rw [hwW, heq]
        · refine List.nodup_cons.mpr ⟨?_, hnd⟩
          intro hcon
          rcases hmem v hcon with h1 | ⟨-, h2⟩
          · exact hvy h1
          · omega
        · intro u hu2
          rcases List.mem_cons.mp hu2 with rfl | hu3
          · exact Or.inr ⟨hfin2, hlt⟩
          · rcases hmem u hu3 with h1 | ⟨h2, h3⟩
            · exact Or.inl h1
            · exact Or.inr ⟨h2, by omega⟩

/-! ### Claim theorems (part 2) -/

/-- C3: for each weight mode, after the precomputation, every vertex pair
with a finite distance admits a next-hop chain: repeatedly following the
sequence table from `i` towards `j` yields a walk of the graph that
reaches `j` within at most V steps, and the edge weights traversed sum
exactly to the precomputed distance; and the triple loop, whenever
`distance[i][k] + distance[k][j]` improves `distance[i][j]`, updates the
distance and sets `next[i][j]` to `next[i][k]`, the first hop.  The
well-formedness hypotheses (canonical lookup keys, in-range non-negative
target keys, positive bounded weights, departure times increasing along
edges) hold for every graph the builder produces from a well-formed
timetable. -/
theorem next_hop_table_correct (m : Bool) (G : List Departure)
    (hcanon : KeysCanonical G) (hnn : KeysNonneg G) (hW : WeightsGood m G)
    (hτ : DepTimesIncrease G) (hkeys : KeysGood G) :
    (∀ x y : Nat, x < G.length → y < G.length →
      (floyd_warshal_shortest_paths G m).1 x y ≠ INF →
      Walk G x
        (nextChain (floyd_warshal_shortest_paths G m).2 y G.length x) y ∧
      (nextChain (floyd_warshal_shortest_paths G m).2 y G.length x).length ≤
        G.length ∧
      walkW m G x
        (nextChain (floyd_warshal_shortest_paths G m).2 y G.length x) =
        (floyd_warshal_shortest_paths G m).1 x y) ∧
    (∀ (DN : Mat × Mat) (k i j : Nat),
      DN.1 i k ≠ INF → DN.1 k j ≠ INF → DN.1 i k + DN.1 k j < DN.1 i j →
      fw_step k i j DN =
        (mupd DN.1 i j (DN.1 i k + DN.1 k j), mupd DN.2 i j (DN.2 i k))) := by
  constructor
  · intro x y hx hy hfin
    have hcard : ((Finset.range G.length).filter (fun v =>
        (floyd_warshal_shortest_paths G m).1 v y ≠ INF ∧
        (floyd_warshal_shortest_paths G m).1 v y ≤
          (floyd_warshal_shortest_paths G m).1 x y)).card ≤ G.length := by
      have := Finset.card_filter_le (Finset.range G.length) (fun v =>
        (floyd_warshal_shortest_paths G m).1 v y ≠ INF ∧
        (floyd_warshal_shortest_paths G m).1 v y ≤
          (floyd_warshal_shortest_paths G m).1 x y)
      rwa [Finset.card_range] at this
    obtain ⟨W, hwW, hnd, -⟩ :=
      fw_chain hcanon hnn hW hτ hkeys hy G.length x hx hfin hcard
    exact ⟨W, nodup_length_le _ _ hnd (walk_elems_lt hkeys W), hwW⟩
  · intro DN k i j h1 h2 h3
    unfold fw_step
    rw [if_pos ⟨h1, h2, h3⟩]

/-- Witness for C3 on the Scenario A graph, weight mode with layovers,
from vertex 0 to the terminal vertex of station 3 (key 4). -/
theorem next_hop_table_correct_witness :
    Walk (build_departures_graph tblA stA) 0
      (nextChain (floyd_warshal_shortest_paths
        (build_departures_graph tblA stA) true).2 4
        (build_departures_graph tblA stA).length 0) 4 ∧
    (nextChain (floyd_warshal_shortest_paths
        (build_departures_graph tblA stA) true).2 4
        (build_departures_graph tblA stA).length 0).length ≤
      (build_departures_graph tblA stA).length ∧
    walkW true (build_departures_graph tblA stA) 0
      (nextChain (floyd_warshal_shortest_paths
        (build_departures_graph tblA stA) true).2 4
        (build_departures_graph tblA stA).length 0) =
      (floyd_warshal_shortest_paths
        (build_departures_graph tblA stA) true).1 0 4 := by
  exact (next_hop_table_correct true (build_departures_graph tblA stA)
    (by unfold KeysCanonical; decide) (by unfold KeysNonneg; decide)
    (by unfold WeightsGood; decide) (by unfold DepTimesIncrease; decide)
    (by unfold KeysGood; decide)).1 0 4
    (by decide) (by decide) (by decide)

/-! ### Route reconstruction termination -/

theorem get_route_go_visited_ne_nil (G : List Departure) (T : Mat)
    (destKey : Nat) : ∀ (fuel cur : Nat),
    (get_route_go G T destKey fuel cur).2.1 ≠ [] := by
  intro fuel cur
  cases fuel with
  | zero => simp [get_route_go]
  | succ fuel =>
      show (if _ then _ else _ : List TripPlusLayover × List Nat × Bool).2.1 ≠ []
      split <;> simp

theorem get_route_go_stop (G : List Departure) (T : Mat) (destKey : Nat) :
    ∀ (fuel cur : Nat),
      (get_route_go G T destKey fuel cur).2.2 = true →
      ∃ last, (get_route_go G T destKey fuel cur).2.1.getLast? = some last ∧
        ((G.getD last default).IsFinalDestination = true ∨
          T last destKey = INF) := by
  intro fuel
  induction fuel with
  | zero => intro cur h; exact absurd h (by simp [get_route_go])
  | succ fuel ih =>
      intro cur hok
      by_cases hstop : (G.getD cur default).IsFinalDestination ∨
          T cur destKey = INF
      · refine ⟨cur, ?_, ?_⟩
        · show (if _ then _ else _ : List TripPlusLayover ×
            List Nat × Bool).2.1.getLast? = some cur
          rw [if_pos hstop]
          rfl
        · rcases hstop with h1 | h2
          · exact Or.inl h1
          · exact Or.inr h2
      · have hok2 : (get_route_go G T destKey fuel
            (T cur destKey).toNat).2.2 = true := by
          have : (get_route_go G T destKey (fuel + 1) cur).2.2 =
              (get_route_go G T destKey fuel (T cur destKey).toNat).2.2 := by
            show (if _ then _ else _ : List TripPlusLayover ×
              List Nat × Bool).2.2 = _
            rw [if_neg hstop]
          rw [← this]
          exact hok
        obtain ⟨last, hlast, hcond⟩ := ih (T cur destKey).toNat hok2
        refine ⟨last, ?_, hcond⟩
        have hshape : (get_route_go G T destKey (fuel + 1) cur).2.1 =
            cur :: (get_route_go G T destKey fuel
              (T cur destKey).toNat).2.1 := by
          show (if _ then _ else _ : List TripPlusLayover ×
            List Nat × Bool).2.1 = _
          rw [if_neg hstop]
        rcases List.exists_cons_of_ne_nil
          (get_route_go_visited_ne_nil G T destKey fuel
            (T cur destKey).toNat) with ⟨b, l, heq⟩
        rw [hshape, heq]
        rw [heq] at hlast
        rw [List.getLast?_cons_cons]
        exact hlast

theorem get_route_go_spec {m : Bool} {G : List Departure}
    (hcanon : KeysCanonical G) (hnn : KeysNonneg G) (hW : WeightsGood m G)
    (hτ : DepTimesIncrease G) (hkeys : KeysGood G) {k : Nat}
    (hk : k < G.length) :
    ∀ (fuel cur : Nat), cur < G.length →
      ((Finset.range G.length).filter (fun v =>
        (floyd_warshal_shortest_paths G m).1 v k ≠ INF ∧
        (floyd_warshal_shortest_paths G m).1 v k ≤
          (floyd_warshal_shortest_paths G m).1 cur k)).card + 1 ≤ fuel →
      (get_route_go G (floyd_warshal_shortest_paths G m).2 k fuel
        cur).2.2 = true ∧
      (get_route_go G (floyd_warshal_shortest_paths G m).2 k fuel
        cur).2.1.Nodup ∧
      (∀ u ∈ (get_route_go G (floyd_warshal_shortest_paths G m).2 k fuel
          cur).2.1, u = cur ∨ u = k ∨
        ((floyd_warshal_shortest_paths G m).1 u k ≠ INF ∧
          (floyd_warshal_shortest_paths G m).1 u k <
            (floyd_warshal_shortest_paths G m).1 cur k)) := by
  have hS : SeqOk m G (floyd_warshal_shortest_paths G m) :=
    fw_run_SeqOk G.length (fw_seed_SeqOk m G hcanon hnn hW)
  intro fuel
  induction fuel with
  | zero => intro cur _ hcard; omega
  | succ fuel ih =>
      intro cur hcur hcard
      by_cases hstop : (G.getD cur default).IsFinalDestination ∨
          (floyd_warshal_shortest_paths G m).2 cur k = INF
      · have hshape : get_route_go G
            (floyd_warshal_shortest_paths G m).2 k (fuel + 1) cur =
            ((if (floyd_warshal_shortest_paths G m).2 cur k ≠ INF then
              [(G.getD cur default).FindTripByDestinationKey
                ((floyd_warshal_shortest_paths G m).2 cur k)] else []),
              [cur], true) := by
          show (if _ then _ else _) = _
          rw [if_pos hstop]
        rw [hshape]
        refine ⟨rfl, by simp, ?_⟩
        intro u hu
        rw [show ((if (floyd_warshal_shortest_paths G m).2 cur k ≠ INF then
          [(G.getD cur default).FindTripByDestinationKey
            ((floyd_warshal_shortest_paths G m).2 cur k)] else []),
          [cur], (true : Bool)).2.1 = [cur] from rfl] at hu
        rw [List.mem_singleton] at hu
        exact Or.inl hu
      · push_neg at hstop
        obtain ⟨hnsink, hNfin⟩ := hstop
        have hDfin : (floyd_warshal_shortest_paths G m).1 cur k ≠ INF := by
          intro hcon
          exact hNfin ((hS cur k).2.1 hcon)
        obtain ⟨v, hN, ht, hu, hcase⟩ := fw_hop hcanon hnn hW hτ hk hDfin
        have hvV : v < G.length := edge_target_lt hkeys hu ht
        have hnext : ((floyd_warshal_shortest_paths G m).2 cur k).toNat =
            v := by
          rw [hN]
          omega
        have hshape : get_route_go G
            (floyd_warshal_shortest_paths G m).2 k (fuel + 1) cur =
            ((G.getD cur default).FindTripByDestinationKey
                ((floyd_warshal_shortest_paths G m).2 cur k) ::
              (get_route_go G (floyd_warshal_shortest_paths G m).2 k fuel
                v).1,
              cur :: (get_route_go G (floyd_warshal_shortest_paths G m).2 k
                fuel v).2.1,
              (get_route_go G (floyd_warshal_shortest_paths G m).2 k fuel
                v).2.2) := by
          show (if _ then _ else _) = _
          rw [if_neg (by
            push_neg
            exact ⟨hnsink, hNfin⟩), hnext]
        have hcurk : cur ≠ k := by
          intro hcon
          subst hcon
          exact hDfin (fw_diag_INF hcanon hnn hW hτ cur).1
      -- two subcases on the hop
        rcases hcase with ⟨hveq, heq⟩ | ⟨hvy, hfin2, hlt, heq⟩
        · -- the hop lands on the destination; it stops there next round
          have hfuel1 : 1 ≤ fuel := by
            have hmem : cur ∈ (Finset.range G.length).filter (fun u =>
                (floyd_warshal_shortest_paths G m).1 u k ≠ INF ∧
                (floyd_warshal_shortest_paths G m).1 u k ≤
                  (floyd_warshal_shortest_paths G m).1 cur k) :=
              Finset.mem_filter.mpr ⟨Finset.mem_range.mpr hcur, hDfin,
                le_refl _⟩
            have := Finset.card_pos.mpr ⟨cur, hmem⟩
            omega
          have hstopk : (G.getD v default).IsFinalDestination ∨
              (floyd_warshal_shortest_paths G m).2 v k = INF :=
            Or.inr (by
              rw [hveq]
              exact (fw_diag_INF hcanon hnn hW hτ k).2)
          obtain ⟨f2, hf2⟩ := Nat.exists_eq_add_of_le' hfuel1
          have hrest : get_route_go G
              (floyd_warshal_shortest_paths G m).2 k fuel v =
              ((if (floyd_warshal_shortest_paths G m).2 v k ≠ INF then
                [(G.getD v default).FindTripByDestinationKey
                  ((floyd_warshal_shortest_paths G m).2 v k)] else []),
                [v], true) := by
            rw [hf2]
            show (if _ then _ else _) = _
            rw [if_pos hstopk]
          rw [hshape, hrest]
          refine ⟨rfl, ?_, ?_⟩
          · show (cur :: [v]).Nodup
            simp only [List.nodup_cons, List.mem_singleton, List.nodup_nil,
              and_true, List.not_mem_nil, not_false_iff]
            rw [hveq]
            exact hcurk
          · intro u hu2
            have hmem2 : u ∈ cur :: [v] := hu2
            rcases List.mem_cons.mp hmem2 with rfl | h2
            · exact Or.inl rfl
            · rw [List.mem_singleton] at h2
              subst h2
              exact Or.inr (Or.inl hveq)
        · -- strictly closer vertex: recurse
          have hcard2 : ((Finset.range G.length).filter (fun u =>
              (floyd_warshal_shortest_paths G m).1 u k ≠ INF ∧
              (floyd_warshal_shortest_paths G m).1 u k ≤
                (floyd_warshal_shortest_paths G m).1 v k)).card + 1 ≤
              fuel := by
            have hsub : (Finset.range G.length).filter (fun u =>
                (floyd_warshal_shortest_paths G m).1 u k ≠ INF ∧
                (floyd_warshal_shortest_paths G m).1 u k ≤
                  (floyd_warshal_shortest_paths G m).1 v k) ⊆
              (Finset.range G.length).filter (fun u =>
                (floyd_warshal_shortest_paths G m).1 u k ≠ INF ∧
                (floyd_warshal_shortest_paths G m).1 u k ≤
                  (floyd_warshal_shortest_paths G m).1 cur k) := by
              intro u hmem
              obtain ⟨h1, h2, h3⟩ := Finset.mem_filter.mp hmem
              exact Finset.mem_filter.mpr ⟨h1, h2, by omega⟩
            have hss := Finset.card_lt_card
              ((Finset.ssubset_iff_of_subset hsub).mpr
                ⟨cur, Finset.mem_filter.mpr ⟨Finset.mem_range.mpr hcur,
                  hDfin, le_refl _⟩,
                  fun hcon => by
                    have := (Finset.mem_filter.mp hcon).2.2
                    omega⟩)
            omega
          obtain ⟨hok, hnd, hmem⟩ := ih v hvV hcard2
          rw [hshape]
          refine ⟨hok, ?_, ?_⟩
          · refine List.nodup_cons.mpr ⟨?_, hnd⟩
            intro hcon
            rcases hmem cur hcon with h1 | h2 | ⟨h3, h4⟩
            · exact absurd h1.symm (by
                intro hcon2
                rw [← hcon2] at hlt
                omega)
            · exact hcurk h2
            · omega
          · intro u hu2
            rcases List.mem_cons.mp hu2 with rfl | hu3
            · exact Or.inl rfl
            · rcases hmem u hu3 with h1 | h2 | ⟨h3, h4⟩
              · subst h1
                exact Or.inr (Or.inr ⟨hfin2, hlt⟩)
              · exact Or.inr (Or.inl h2)
              · exact Or.inr (Or.inr ⟨h3, by omega⟩)

/-- C6: for every pair of vertex keys and either sequence table produced
at construction, the reconstruction loop of `get_route` terminates within
the vertex count: the walk reaches its exit condition, never revisits a
vertex, and the vertex it stops on is a sink (`IsFinalDestination`) or
has the infinite sentinel as its table entry.  The hypotheses are the
decidable well-formedness facts of the built graph, true of every graph
built from a well-formed timetable. -/
theorem get_route_reconstruction_terminates (m : Bool) (G : List Departure)
    (hcanon : KeysCanonical G) (hnn : KeysNonneg G) (hW : WeightsGood m G)
    (hτ : DepTimesIncrease G) (hkeys : KeysGood G) (dep k : Nat)
    (hdep : dep < G.length) (hk : k < G.length) :
    (get_route_go G (floyd_warshal_shortest_paths G m).2 k (G.length + 1)
      dep).2.2 = true ∧
    (get_route_go G (floyd_warshal_shortest_paths G m).2 k (G.length + 1)
      dep).2.1.Nodup ∧
    ∃ last, (get_route_go G (floyd_warshal_shortest_paths G m).2 k
        (G.length + 1) dep).2.1.getLast? = some last ∧
      ((G.getD last default).IsFinalDestination = true ∨
        (floyd_warshal_shortest_paths G m).2 last k = INF) := by
  have hcard : ((Finset.range G.length).filter (fun v =>
      (floyd_warshal_shortest_paths G m).1 v k ≠ INF ∧
      (floyd_warshal_shortest_paths G m).1 v k ≤
        (floyd_warshal_shortest_paths G m).1 dep k)).card + 1 ≤
      G.length + 1 := by
    have := Finset.card_filter_le (Finset.range G.length) (fun v =>
      (floyd_warshal_shortest_paths G m).1 v k ≠ INF ∧
      (floyd_warshal_shortest_paths G m).1 v k ≤
        (floyd_warshal_shortest_paths G m).1 dep k)
    rw [Finset.card_range] at this
    omega
  obtain ⟨hok, hnd, -⟩ := get_route_go_spec hcanon hnn hW hτ hkeys hk
    (G.length + 1) dep hdep hcard
  exact ⟨hok, hnd, get_route_go_stop G _ k (G.length + 1) dep hok⟩

/-- Witness for C6 on the Scenario A graph, with-layover table, walking
from vertex 0 towards vertex 4. -/
theorem get_route_reconstruction_terminates_witness :
    (get_route_go (build_departures_graph tblA stA)
      (floyd_warshal_shortest_paths (build_departures_graph tblA stA)
        true).2 4 ((build_departures_graph tblA stA).length + 1)
      0).2.2 = true ∧
    (get_route_go (build_departures_graph tblA stA)
      (floyd_warshal_shortest_paths (build_departures_graph tblA stA)
        true).2 4 ((build_departures_graph tblA stA).length + 1)
      0).2.1.Nodup ∧
    ∃ last, (get_route_go (build_departures_graph tblA stA)
        (floyd_warshal_shortest_paths (build_departures_graph tblA stA)
          true).2 4 ((build_departures_graph tblA stA).length + 1)
        0).2.1.getLast? = some last ∧
      (((build_departures_graph tblA stA).getD last
          default).IsFinalDestination = true ∨
        (floyd_warshal_shortest_paths (build_departures_graph tblA stA)
          true).2 last 4 = INF) := by
  exact get_route_reconstruction_terminates true
    (build_departures_graph tblA stA)
    (by unfold KeysCanonical; decide) (by unfold KeysNonneg; decide)
    (by unfold WeightsGood; decide) (by unfold DepTimesIncrease; decide)
    (by unfold KeysGood; decide) 0 4 (by decide) (by decide)

/-! ### Reachability is weight-mode independent -/

theorem not_nodup_split {α : Type} [DecidableEq α] :
    ∀ (l : List α), ¬ l.Nodup →
      ∃ (a : List α) (u : α) (b c : List α), l = a ++ u :: (b ++ u :: c) := by
  intro l
  induction l with
  | nil => intro h; exact absurd List.nodup_nil h
  | cons hd tl ih =>
      intro h
      by_cases hmem : hd ∈ tl
      · obtain ⟨b, c, heq⟩ := List.append_of_mem hmem
        exact ⟨[], hd, b, c, by simp [heq]⟩
      · have : ¬ tl.Nodup := by
          intro hcon
          exact h (List.nodup_cons.mpr ⟨hmem, hcon⟩)
        obtain ⟨a, u, b, c, heq⟩ := ih this
        exact ⟨hd :: a, u, b, c, by simp [heq]⟩

theorem walk_simplify {G : List Departure} {x y : Nat} :
    ∀ (n : Nat) (vs : List Nat), vs.length ≤ n → Walk G x vs y →
      ∃ q, Walk G x q y ∧ q.Nodup := by
  intro n
  induction n generalizing x with
  | zero =>
      intro vs hlen hw
      have := walk_ne_nil hw
      cases vs
      · exact absurd rfl this
      · simp at hlen
  | succ n ih =>
      intro vs hlen hw
      by_cases hnd : vs.Nodup
      · exact ⟨vs, hw, hnd⟩
      · obtain ⟨a, u, b, c, heq⟩ := not_nodup_split vs hnd
        subst heq
        have hbc : (b ++ u :: c) ≠ [] := by simp
        obtain ⟨W1, Wrest⟩ := walk_split a hbc hw
        cases c with
        | nil =>
            have hy : u = y := by
              have hgl := walk_getLast Wrest
              rw [List.getLast?_concat] at hgl
              cases hgl
              rfl
            subst hy
            apply ih (a ++ [u])
            · simp only [List.length_append, List.length_cons,
                List.length_nil] at hlen ⊢
              omega
            · exact W1
        | cons c0 cs =>
            have hcne : c0 :: cs ≠ [] := by simp
            obtain ⟨W2, W3⟩ := walk_split b hcne Wrest
            have Wcomb : Walk G x ((a ++ [u]) ++ (c0 :: cs)) y :=
              walk_append W1 W3
            apply ih ((a ++ [u]) ++ (c0 :: cs))
            · simp only [List.length_append, List.length_cons,
                List.length_nil] at hlen ⊢
              omega
            · exact Wcomb

theorem fw_finite_iff_walk {m : Bool} {G : List Departure}
    (hcanon : KeysCanonical G) (hnn : KeysNonneg G) (hW : WeightsGood m G)
    (hkeys : KeysGood G) (hVB : (G.length : Int) * 20000 < INF)
    {x y : Nat} (hy : y < G.length) :
    (floyd_warshal_shortest_paths G m).1 x y ≠ INF ↔ ∃ vs, Walk G x vs y := by
  have hS : SeqOk m G (floyd_warshal_shortest_paths G m) :=
    fw_run_SeqOk G.length (fw_seed_SeqOk m G hcanon hnn hW)
  constructor
  · intro hfin
    obtain ⟨v, vs, hw, -, -⟩ := (hS x y).2.2 hfin
    exact ⟨v :: vs, hw⟩
  · rintro ⟨vs, hw⟩
    obtain ⟨q, hq, hnd⟩ := walk_simplify vs.length vs (le_refl _) hw
    have hlen : q.length ≤ G.length :=
      nodup_length_le q G.length hnd (walk_elems_lt hkeys hq)
    have hb := walkW_bounded hW hq
    have hmin := fw_min hcanon hnn hW x y q hy hq
    have hq20 : (q.length : Int) * 20000 ≤ (G.length : Int) * 20000 := by
      have hc : (q.length : Int) ≤ (G.length : Int) := by
        exact_mod_cast hlen
      nlinarith
    have hfin : (floyd_warshal_shortest_paths G m).1 x y < INF :=
      lt_of_le_of_lt (le_trans hmin (le_trans hb hq20)) hVB
    omega

/-! ### The segments the reconstruction collects -/

theorem findTrip_of_exists {d : Departure} {key : Int}
    (h : ∃ tr ∈ d.validTrips, tr.destinationKey = key) :
    d.FindTripByDestinationKey key ∈ d.validTrips ∧
    (d.FindTripByDestinationKey key).destinationKey = key := by
  unfold Departure.FindTripByDestinationKey
  cases hf : d.validTrips.find? (fun t => t.destinationKey = key) with
  | some tr =>
      have h1 := List.find?_some hf
      have h2 := List.mem_of_find?_eq_some hf
      simp only [decide_eq_true_eq] at h1
      exact ⟨h2, h1⟩
  | none =>
      exfalso
      obtain ⟨tr, hmem, hkey⟩ := h
      have := List.find?_eq_none.mp hf tr hmem
      simp [hkey] at this

theorem fw_N_ne_INF {m : Bool} {G : List Departure}
    (hcanon : KeysCanonical G) (hnn : KeysNonneg G) (hW : WeightsGood m G)
    (hkeys : KeysGood G) (hV : (G.length : Int) < INF) {x y : Nat}
    (hfin : (floyd_warshal_shortest_paths G m).1 x y ≠ INF) :
    (floyd_warshal_shortest_paths G m).2 x y ≠ INF := by
  have hS : SeqOk m G (floyd_warshal_shortest_paths G m) :=
    fw_run_SeqOk G.length (fw_seed_SeqOk m G hcanon hnn hW)
  obtain ⟨v, vs, hw, -, hN⟩ := (hS x y).2.2 hfin
  have hv : v < G.length :=
    walk_elems_lt hkeys hw v (List.mem_cons_self _ _)
  rw [hN]
  intro hcon
  have : (v : Int) < (G.length : Int) := by exact_mod_cast hv
  omega

theorem get_route_go_trips {m : Bool} {G : List Departure}
    (hcanon : KeysCanonical G) (hnn : KeysNonneg G) (hW : WeightsGood m G)
    (hτ : DepTimesIncrease G) (hkeys : KeysGood G)
    (hV : (G.length : Int) < INF) {k : Nat} (hk : k < G.length) :
    ∀ (fuel cur : Nat), cur < G.length →
      ((Finset.range G.length).filter (fun v =>
        (floyd_warshal_shortest_paths G m).1 v k ≠ INF ∧
        (floyd_warshal_shortest_paths G m).1 v k ≤
          (floyd_warshal_shortest_paths G m).1 cur k)).card + 1 ≤ fuel →
      (∀ tr ∈ (get_route_go G (floyd_warshal_shortest_paths G m).2 k fuel
          cur).1, ∃ d ∈ G, tr ∈ d.validTrips) ∧
      ((get_route_go G (floyd_warshal_shortest_paths G m).2 k fuel
          cur).1 = [] ↔
        (floyd_warshal_shortest_paths G m).1 cur k = INF) ∧
      (get_route_go G (floyd_warshal_shortest_paths G m).2 k fuel
          cur).1.length + 1 =
        (get_route_go G (floyd_warshal_shortest_paths G m).2 k fuel
          cur).2.1.length := by
  have hS : SeqOk m G (floyd_warshal_shortest_paths G m) :=
    fw_run_SeqOk G.length (fw_seed_SeqOk m G hcanon hnn hW)
  intro fuel
  induction fuel with
  | zero => intro cur _ hcard; omega
  | succ fuel ih =>
      intro cur hcur hcard
      by_cases hstop : (G.getD cur default).IsFinalDestination ∨
          (floyd_warshal_shortest_paths G m).2 cur k = INF
      · have hNINF : (floyd_warshal_shortest_paths G m).2 cur k = INF := by
          rcases hstop with h1 | h2
          · by_contra hcon
            have hDfin : (floyd_warshal_shortest_paths G m).1 cur k ≠
                INF := by
              intro hcon2
              exact hcon ((hS cur k).2.1 hcon2)
            obtain ⟨v, vs, hw, -, -⟩ := (hS cur k).2.2 hDfin
            have hns := walk_nonsink hw
            have h1b : (G.getD cur default).validTrips = [] := by
              simp only [Departure.IsFinalDestination, decide_eq_true_eq,
                List.length_eq_zero] at h1
              exact h1
            exact hns h1b
          · exact h2
        have hDINF : (floyd_warshal_shortest_paths G m).1 cur k = INF := by
          by_contra hcon
          exact fw_N_ne_INF hcanon hnn hW hkeys hV hcon hNINF
        have hshape : get_route_go G
            (floyd_warshal_shortest_paths G m).2 k (fuel + 1) cur =
            ([], [cur], true) := by
          show (if _ then _ else _) = _
          rw [if_pos hstop]
          rw [if_neg (by simp [hNINF])]
        rw [hshape]
        refine ⟨by simp, by simp [hDINF], rfl⟩
      · push_neg at hstop
        obtain ⟨hnsink, hNfin⟩ := hstop
        have hDfin : (floyd_warshal_shortest_paths G m).1 cur k ≠ INF := by
          intro hcon
          exact hNfin ((hS cur k).2.1 hcon)
        obtain ⟨v, hN, ht, hu, hcase⟩ := fw_hop hcanon hnn hW hτ hk hDfin
        have hvV : v < G.length := edge_target_lt hkeys hu ht
        have hnext : ((floyd_warshal_shortest_paths G m).2 cur k).toNat =
            v := by
          rw [hN]
          omega
        have htrip : (G.getD cur default).FindTripByDestinationKey
            ((floyd_warshal_shortest_paths G m).2 cur k) ∈
            (G.getD cur default).validTrips := by
          obtain ⟨tr, htr⟩ := Option.isSome_iff_exists.mp ht
          obtain ⟨hmem, hkey⟩ := lastTripTo_mem htr
          exact (findTrip_of_exists ⟨tr, hmem, by rw [hkey, hN]⟩).1
        have hshape : get_route_go G
            (floyd_warshal_shortest_paths G m).2 k (fuel + 1) cur =
            ((G.getD cur default).FindTripByDestinationKey
                ((floyd_warshal_shortest_paths G m).2 cur k) ::
              (get_route_go G (floyd_warshal_shortest_paths G m).2 k fuel
                v).1,
              cur :: (get_route_go G (floyd_warshal_shortest_paths G m).2 k
                fuel v).2.1,
              (get_route_go G (floyd_warshal_shortest_paths G m).2 k fuel
                v).2.2) := by
          show (if _ then _ else _) = _
          rw [if_neg (by
            push_neg
            exact ⟨hnsink, hNfin⟩), hnext]
        rcases hcase with ⟨hveq, heq⟩ | ⟨hvy, hfin2, hlt, heq⟩
        · have hfuel1 : 1 ≤ fuel := by
            have hmem : cur ∈ (Finset.range G.length).filter (fun u =>
                (floyd_warshal_shortest_paths G m).1 u k ≠ INF ∧
                (floyd_warshal_shortest_paths G m).1 u k ≤
                  (floyd_warshal_shortest_paths G m).1 cur k) :=
              Finset.mem_filter.mpr ⟨Finset.mem_range.mpr hcur, hDfin,
                le_refl _⟩
            have := Finset.card_pos.mpr ⟨cur, hmem⟩
            omega
          obtain ⟨f2, hf2⟩ := Nat.exists_eq_add_of_le' hfuel1
          have hNk : (floyd_warshal_shortest_paths G m).2 v k = INF := by
            rw [hveq]
            exact (fw_diag_INF hcanon hnn hW hτ k).2
          have hrest : get_route_go G
              (floyd_warshal_shortest_paths G m).2 k fuel v =
              ([], [v], true) := by
            rw [hf2]
            show (if _ then _ else _) = _
            rw [if_pos (Or.inr hNk)]
            rw [if_neg (by simp [hNk])]
          rw [hshape, hrest]
          refine ⟨?_, by simp [hDfin], rfl⟩
          intro tr htr2
          rw [show ((G.getD cur default).FindTripByDestinationKey
              ((floyd_warshal_shortest_paths G m).2 cur k) ::
              ([] : List TripPlusLayover)) =
            [(G.getD cur default).FindTripByDestinationKey
              ((floyd_warshal_shortest_paths G m).2 cur k)] from rfl] at htr2
          rw [List.mem_singleton] at htr2
          subst htr2
          exact ⟨G.getD cur default, getD_mem_of_lt hcur, htrip⟩
        · have hcard2 : ((Finset.range G.length).filter (fun u =>
              (floyd_warshal_shortest_paths G m).1 u k ≠ INF ∧
              (floyd_warshal_shortest_paths G m).1 u k ≤
                (floyd_warshal_shortest_paths G m).1 v k)).card + 1 ≤
              fuel := by
            have hsub : (Finset.range G.length).filter (fun u =>
                (floyd_warshal_shortest_paths G m).1 u k ≠ INF ∧
                (floyd_warshal_shortest_paths G m).1 u k ≤
                  (floyd_warshal_shortest_paths G m).1 v k) ⊆
              (Finset.range G.length).filter (fun u =>
                (floyd_warshal_shortest_paths G m).1 u k ≠ INF ∧
                (floyd_warshal_shortest_paths G m).1 u k ≤
                  (floyd_warshal_shortest_paths G m).1 cur k) := by
              intro u hmem
              obtain ⟨h1, h2, h3⟩ := Finset.mem_filter.mp hmem
              exact Finset.mem_filter.mpr ⟨h1, h2, by omega⟩
            have hss := Finset.card_lt_card
              ((Finset.ssubset_iff_of_subset hsub).mpr
                ⟨cur, Finset.mem_filter.mpr ⟨Finset.mem_range.mpr hcur,
                  hDfin, le_refl _⟩,
                  fun hcon => by
                    have := (Finset.mem_filter.mp hcon).2.2
                    omega⟩)
            omega
          obtain ⟨hmem, hiff, hlen⟩ := ih v hvV hcard2
          rw [hshape]
          refine ⟨?_, by simp [hDfin], ?_⟩
          · intro tr htr2
            rcases List.mem_cons.mp htr2 with rfl | htr3
            · exact ⟨G.getD cur default, getD_mem_of_lt hcur, htrip⟩
            · exact hmem tr htr3
          · simp only [List.length_cons]
            omega

/-! ### Validity of reconstructed and selected routes -/

theorem get_route_valid_iff {m : Bool} {G : List Departure}
    (hcanon : KeysCanonical G) (hnn : KeysNonneg G) (hW : WeightsGood m G)
    (hτ : DepTimesIncrease G) (hkeys : KeysGood G)
    (hV : (G.length : Int) < INF) (hsid : ∀ d ∈ G, 0 ≤ d.stationID)
    {j k : Nat} (hj : j < G.length) (hk : k < G.length) :
    (get_route G (floyd_warshal_shortest_paths G m).2 j k).RouteIsValid =
      true ↔ (floyd_warshal_shortest_paths G m).1 j k ≠ INF := by
  have hcard : ((Finset.range G.length).filter (fun v =>
      (floyd_warshal_shortest_paths G m).1 v k ≠ INF ∧
      (floyd_warshal_shortest_paths G m).1 v k ≤
        (floyd_warshal_shortest_paths G m).1 j k)).card + 1 ≤
      G.length + 1 := by
    have := Finset.card_filter_le (Finset.range G.length) (fun v =>
      (floyd_warshal_shortest_paths G m).1 v k ≠ INF ∧
      (floyd_warshal_shortest_paths G m).1 v k ≤
        (floyd_warshal_shortest_paths G m).1 j k)
    rw [Finset.card_range] at this
    omega
  obtain ⟨hmems, hiff, -⟩ := get_route_go_trips hcanon hnn hW hτ hkeys hV
    hk (G.length + 1) j hj hcard
  unfold get_route
  by_cases hval : (Route.mk (G.getD j default)
      (get_route_go G (floyd_warshal_shortest_paths G m).2 k
        (G.length + 1) j).1).RouteIsValid
  · rw [if_pos hval]
    constructor
    · intro _
      have hne : (get_route_go G (floyd_warshal_shortest_paths G m).2 k
          (G.length + 1) j).1 ≠ [] := by
        have hprops := hval
        simp only [Route.RouteIsValid, decide_eq_true_eq] at hprops
        exact hprops.2.1
      intro hcon
      exact hne (hiff.mpr hcon)
    · intro _
      exact hval
  · rw [if_neg hval]
    constructor
    · intro hcon
      simp [Route.RouteIsValid] at hcon
    · intro hfin
      exfalso
      apply hval
      simp only [Route.RouteIsValid, decide_eq_true_eq]
      refine ⟨hsid _ (getD_mem_of_lt hj), ?_, ?_⟩
      · intro hcon
        exact hfin (hiff.mp hcon)
      · rw [List.all_eq_true]
        intro tr htr
        obtain ⟨d, hd, hmem⟩ := hmems tr htr
        simp only [decide_eq_true_eq]
        exact (hnn d hd tr hmem)

theorem sel_fold_counter (mode : Bool) :
    ∀ (l : List Route) (acc : Int × Int × Int),
      (l.foldl (fun (acc : Int × Int × Int) r =>
        if routeWeight mode r < acc.1 then
          (routeWeight mode r, acc.2.2, acc.2.2 + 1)
        else (acc.1, acc.2.1, acc.2.2 + 1)) acc).2.2 =
        acc.2.2 + l.length := by
  intro l
  induction l with
  | nil => intro acc; simp
  | cons r l ih =>
      intro acc
      simp only [List.foldl_cons]
      by_cases h : routeWeight mode r < acc.1
      · rw [if_pos h, ih]
        simp only [List.length_cons]
        omega
      · rw [if_neg h, ih]
        simp only [List.length_cons]
        omega

theorem sel_fold_idx (mode : Bool) :
    ∀ (l : List Route) (acc : Int × Int × Int),
      ((l.foldl (fun (acc : Int × Int × Int) r =>
        if routeWeight mode r < acc.1 then
          (routeWeight mode r, acc.2.2, acc.2.2 + 1)
        else (acc.1, acc.2.1, acc.2.2 + 1)) acc).2.1 = acc.2.1 ∨
       (acc.2.2 ≤ (l.foldl (fun (acc : Int × Int × Int) r =>
          if routeWeight mode r < acc.1 then
            (routeWeight mode r, acc.2.2, acc.2.2 + 1)
          else (acc.1, acc.2.1, acc.2.2 + 1)) acc).2.1 ∧
        (l.foldl (fun (acc : Int × Int × Int) r =>
          if routeWeight mode r < acc.1 then
            (routeWeight mode r, acc.2.2, acc.2.2 + 1)
          else (acc.1, acc.2.1, acc.2.2 + 1)) acc).2.1 <
          acc.2.2 + l.length)) ∧
      ((∃ r ∈ l, routeWeight mode r < acc.1) →
        (acc.2.2 ≤ (l.foldl (fun (acc : Int × Int × Int) r =>
          if routeWeight mode r < acc.1 then
            (routeWeight mode r, acc.2.2, acc.2.2 + 1)
          else (acc.1, acc.2.1, acc.2.2 + 1)) acc).2.1 ∧
        (l.foldl (fun (acc : Int × Int × Int) r =>
          if routeWeight mode r < acc.1 then
            (routeWeight mode r, acc.2.2, acc.2.2 + 1)
          else (acc.1, acc.2.1, acc.2.2 + 1)) acc).2.1 <
          acc.2.2 + l.length)) ∧
      (l.foldl (fun (acc : Int × Int × Int) r =>
        if routeWeight mode r < acc.1 then
          (routeWeight mode r, acc.2.2, acc.2.2 + 1)
        else (acc.1, acc.2.1, acc.2.2 + 1)) acc).1 ≤ acc.1 := by
  intro l
  induction l with
  | nil =>
      intro acc
      refine ⟨Or.inl rfl, ?_, le_refl _⟩
      rintro ⟨r, hr, -⟩
      exact absurd hr (List.not_mem_nil r)
  | cons r l ih =>
      intro acc
      simp only [List.foldl_cons, List.length_cons]
      by_cases h : routeWeight mode r < acc.1
      · rw [if_pos h]
        obtain ⟨hidx, hset, hmono⟩ := ih (routeWeight mode r, acc.2.2,
          acc.2.2 + 1)
        have hcnt := sel_fold_counter mode l (routeWeight mode r, acc.2.2,
          acc.2.2 + 1)
        dsimp only at hidx hset hmono hcnt
        refine ⟨?_, ?_, ?_⟩
        · rcases hidx with h1 | ⟨h2, h3⟩
          · exact Or.inr ⟨by omega, by omega⟩
          · exact Or.inr ⟨by omega, by omega⟩
        · intro _
          rcases hidx with h1 | ⟨h2, h3⟩
          · exact ⟨by omega, by omega⟩
          · exact ⟨by omega, by omega⟩
        · exact le_trans hmono (le_of_lt h)
      · rw [if_neg h]
        obtain ⟨hidx, hset, hmono⟩ := ih (acc.1, acc.2.1, acc.2.2 + 1)
        have hcnt := sel_fold_counter mode l (acc.1, acc.2.1, acc.2.2 + 1)
        dsimp only at hidx hset hmono hcnt
        refine ⟨?_, ?_, ?_⟩
        · rcases hidx with h1 | ⟨h2, h3⟩
          · exact Or.inl h1
          · exact Or.inr ⟨by omega, by omega⟩
        · rintro ⟨r2, hr2, hw2⟩
          rcases List.mem_cons.mp hr2 with rfl | hr3
          · exact absurd hw2 h
          · have := hset ⟨r2, hr3, hw2⟩
            exact ⟨by omega, by omega⟩
        · exact hmono

theorem get_route_go_len (G : List Departure) (T : Mat) (k : Nat) :
    ∀ fuel cur, (get_route_go G T k fuel cur).1.length ≤ fuel := by
  intro fuel
  induction fuel with
  | zero => intro cur; simp [get_route_go]
  | succ fuel ih =>
      intro cur
      by_cases hstop : (G.getD cur default).IsFinalDestination ∨
          T cur k = INF
      · have hshape : get_route_go G T k (fuel + 1) cur =
            ((if T cur k ≠ INF then
                [(G.getD cur default).FindTripByDestinationKey (T cur k)]
              else []), [cur], true) := by
          show (if _ then _ else _) = _
          rw [if_pos hstop]
        rw [hshape]
        dsimp only
        split <;> simp
      · have hshape : get_route_go G T k (fuel + 1) cur =
            ((G.getD cur default).FindTripByDestinationKey (T cur k) ::
              (get_route_go G T k fuel (T cur k).toNat).1,
              cur :: (get_route_go G T k fuel (T cur k).toNat).2.1,
              (get_route_go G T k fuel (T cur k).toNat).2.2) := by
          show (if _ then _ else _) = _
          rw [if_neg hstop]
        rw [hshape]
        simp only [List.length_cons]
        exact Nat.succ_le_succ (ih _)

theorem foldl_weight_le (m : Bool) :
    ∀ (l : List TripPlusLayover) (acc : Int),
      (∀ tr ∈ l, weightSel m tr ≤ 20000) →
      l.foldl (fun acc tr => acc + weightSel m tr) acc ≤
        acc + (l.length : Int) * 20000 := by
  intro l
  induction l with
  | nil => intro acc _; simp
  | cons tr l ih =>
      intro acc hb
      simp only [List.foldl_cons, List.length_cons]
      have h1 := ih (acc + weightSel m tr)
        (fun t ht => hb t (List.mem_cons_of_mem _ ht))
      have h2 := hb tr (List.mem_cons_self _ _)
      have h3 : ((l.length + 1 : Nat) : Int) = (l.length : Int) + 1 := by
        push_cast
        ring
      rw [h3]
      nlinarith

theorem get_shortest_route_valid_iff {m : Bool} {G : List Departure}
    (hcanon : KeysCanonical G) (hnn : KeysNonneg G) (hW : WeightsGood m G)
    (hτ : DepTimesIncrease G) (hkeys : KeysGood G)
    (hVB : ((G.length : Int) + 1) * 20000 < INF)
    (hsid : ∀ d ∈ G, 0 ≤ d.stationID) (dep dst : Int) :
    (get_shortest_route G (floyd_warshal_shortest_paths G m).2 dep dst
        m).RouteIsValid = true ↔
      ∃ j k, j < G.length ∧ k < G.length ∧
        (G.getD j default).stationID = dep ∧
        (G.getD k default).stationID = dst ∧
        (floyd_warshal_shortest_paths G m).1 j k ≠ INF := by
  have hV : (G.length : Int) < INF := by nlinarith [Int.ofNat_nonneg G.length]
  unfold get_shortest_route
  dsimp only
  constructor
  · intro hval
    by_cases hlen : ((List.range G.length).flatMap
        (fun j => (List.range G.length).filterMap
          (fun k =>
            if (G.getD j default).stationID = dep ∧
                (G.getD k default).stationID = dst then
              if (get_route G (floyd_warshal_shortest_paths G m).2
                  j k).RouteIsValid = true then
                some (get_route G (floyd_warshal_shortest_paths G m).2 j k)
              else none
            else none))).length > 0
    · obtain ⟨r0, hr0⟩ := List.exists_mem_of_length_pos hlen
      obtain ⟨j, hj, hmem2⟩ := List.mem_flatMap.mp hr0
      obtain ⟨k, hk, hf⟩ := List.mem_filterMap.mp hmem2
      rw [List.mem_range] at hj hk
      by_cases hcond : (G.getD j default).stationID = dep ∧
          (G.getD k default).stationID = dst
      · rw [if_pos hcond] at hf
        by_cases hgv : (get_route G (floyd_warshal_shortest_paths G m).2
            j k).RouteIsValid = true
        · exact ⟨j, k, hj, hk, hcond.1, hcond.2,
            (get_route_valid_iff hcanon hnn hW hτ hkeys hV hsid hj
              hk).mp hgv⟩
        · rw [if_neg hgv] at hf
          exact absurd hf (by simp)
      · rw [if_neg hcond] at hf
        exact absurd hf (by simp)
    · rw [if_neg hlen] at hval
      simp [Route.RouteIsValid] at hval
  · rintro ⟨j, k, hj, hk, hjs, hks, hfin⟩
    have hgv : (get_route G (floyd_warshal_shortest_paths G m).2
        j k).RouteIsValid = true :=
      (get_route_valid_iff hcanon hnn hW hτ hkeys hV hsid hj hk).mpr hfin
    have hmemL : get_route G (floyd_warshal_shortest_paths G m).2 j k ∈
        (List.range G.length).flatMap
          (fun j => (List.range G.length).filterMap
            (fun k =>
              if (G.getD j default).stationID = dep ∧
                  (G.getD k default).stationID = dst then
                if (get_route G (floyd_warshal_shortest_paths G m).2
                    j k).RouteIsValid = true then
                  some (get_route G (floyd_warshal_shortest_paths G m).2
                    j k)
                else none
              else none)) := by
      refine List.mem_flatMap.mpr ⟨j, List.mem_range.mpr hj,
        List.mem_filterMap.mpr ⟨k, List.mem_range.mpr hk, ?_⟩⟩
      rw [if_pos ⟨hjs, hks⟩, if_pos hgv]
    have hallvalid : ∀ r ∈ (List.range G.length).flatMap
        (fun j => (List.range G.length).filterMap
          (fun k =>
            if (G.getD j default).stationID = dep ∧
                (G.getD k default).stationID = dst then
              if (get_route G (floyd_warshal_shortest_paths G m).2
                  j k).RouteIsValid = true then
                some (get_route G (floyd_warshal_shortest_paths G m).2 j k)
              else none
            else none)), r.RouteIsValid = true := by
      intro r hr
      obtain ⟨j2, hj2, hmem2⟩ := List.mem_flatMap.mp hr
      obtain ⟨k2, hk2, hf⟩ := List.mem_filterMap.mp hmem2
      by_cases hcond : (G.getD j2 default).stationID = dep ∧
          (G.getD k2 default).stationID = dst
      · rw [if_pos hcond] at hf
        by_cases hgv2 : (get_route G (floyd_warshal_shortest_paths G m).2
            j2 k2).RouteIsValid = true
        · rw [if_pos hgv2] at hf
          rw [← Option.some_inj.mp hf]
          exact hgv2
        · rw [if_neg hgv2] at hf
          exact absurd hf (by simp)
      · rw [if_neg hcond] at hf
        exact absurd hf (by simp)
    have hlen : ((List.range G.length).flatMap
        (fun j => (List.range G.length).filterMap
          (fun k =>
            if (G.getD j default).stationID = dep ∧
                (G.getD k default).stationID = dst then
              if (get_route G (floyd_warshal_shortest_paths G m).2
                  j k).RouteIsValid = true then
                some (get_route G (floyd_warshal_shortest_paths G m).2 j k)
              else none
            else none))).length > 0 :=
      List.length_pos.mpr (List.ne_nil_of_mem hmemL)
    rw [if_pos hlen]
    have hwlt : routeWeight m (get_route G
        (floyd_warshal_shortest_paths G m).2 j k) < INF := by
      have hv2 : (Route.mk (G.getD j default)
          (get_route_go G (floyd_warshal_shortest_paths G m).2 k
            (G.length + 1) j).1).RouteIsValid = true := by
        by_contra hc
        have hsent : get_route G (floyd_warshal_shortest_paths G m).2 j k =
            ⟨⟨[], -1, -1, -1⟩, []⟩ := by
          unfold get_route
          rw [if_neg (by exact fun h2 => hc h2)]
        rw [hsent] at hgv
        simp [Route.RouteIsValid] at hgv
      have hgr : get_route G (floyd_warshal_shortest_paths G m).2 j k =
          ⟨G.getD j default,
            (get_route_go G (floyd_warshal_shortest_paths G m).2 k
              (G.length + 1) j).1⟩ := by
        unfold get_route
        rw [if_pos hv2]
      have hcard : ((Finset.range G.length).filter (fun v =>
          (floyd_warshal_shortest_paths G m).1 v k ≠ INF ∧
          (floyd_warshal_shortest_paths G m).1 v k ≤
            (floyd_warshal_shortest_paths G m).1 j k)).card + 1 ≤
          G.length + 1 := by
        have := Finset.card_filter_le (Finset.range G.length) (fun v =>
          (floyd_warshal_shortest_paths G m).1 v k ≠ INF ∧
          (floyd_warshal_shortest_paths G m).1 v k ≤
            (floyd_warshal_shortest_paths G m).1 j k)
        rw [Finset.card_range] at this
        omega
      obtain ⟨hmems, -, -⟩ := get_route_go_trips hcanon hnn hW hτ hkeys hV
        hk (G.length + 1) j hj hcard
      rw [hgr]
      unfold routeWeight
      have hub : ∀ tr ∈ (get_route_go G
          (floyd_warshal_shortest_paths G m).2 k (G.length + 1) j).1,
          weightSel m tr ≤ 20000 := by
        intro tr htr
        obtain ⟨d, hd, hmem⟩ := hmems tr htr
        exact (hW d hd tr hmem).2
      have hfold := foldl_weight_le m (get_route_go G
          (floyd_warshal_shortest_paths G m).2 k (G.length + 1) j).1 0 hub
      have hlenb := get_route_go_len G
        (floyd_warshal_shortest_paths G m).2 k (G.length + 1) j
      have hcast : ((get_route_go G (floyd_warshal_shortest_paths G m).2 k
          (G.length + 1) j).1.length : Int) ≤ (G.length : Int) + 1 := by
        exact_mod_cast hlenb
      nlinarith
    obtain ⟨-, hset, -⟩ := sel_fold_idx m ((List.range G.length).flatMap
      (fun j => (List.range G.length).filterMap
        (fun k =>
          if (G.getD j default).stationID = dep ∧
              (G.getD k default).stationID = dst then
            if (get_route G (floyd_warshal_shortest_paths G m).2
                j k).RouteIsValid = true then
              some (get_route G (floyd_warshal_shortest_paths G m).2 j k)
            else none
          else none))) (INF, -1, 0)
    dsimp only at hset
    obtain ⟨hge, hlt⟩ := hset ⟨get_route G
      (floyd_warshal_shortest_paths G m).2 j k, hmemL, hwlt⟩
    rw [if_pos hge]
    have hltlen : (((List.range G.length).flatMap
        (fun j => (List.range G.length).filterMap
          (fun k =>
            if (G.getD j default).stationID = dep ∧
                (G.getD k default).stationID = dst then
              if (get_route G (floyd_warshal_shortest_paths G m).2
                  j k).RouteIsValid = true then
                some (get_route G (floyd_warshal_shortest_paths G m).2 j k)
              else none
            else none))).foldl
          (fun (acc : Int × Int × Int) r =>
            if routeWeight m r < acc.1 then
              (routeWeight m r, acc.2.2, acc.2.2 + 1)
            else (acc.1, acc.2.1, acc.2.2 + 1)) (INF, -1, 0)).2.1.toNat <
        ((List.range G.length).flatMap
          (fun j => (List.range G.length).filterMap
            (fun k =>
              if (G.getD j default).stationID = dep ∧
                  (G.getD k default).stationID = dst then
                if (get_route G (floyd_warshal_shortest_paths G m).2
                    j k).RouteIsValid = true then
                  some (get_route G (floyd_warshal_shortest_paths G m).2
                    j k)
                else none
              else none))).length := by
      omega
    rw [List.getD_eq_getElem _ _ hltlen]
    exact hallvalid _ (List.getElem_mem _)

/-! ### C5: weight-mode topology equivalence -/

/-- C5: For vertices of the time-expanded graph, an entry of the
with-layovers sequence (next-hop) table is the `INF` sentinel exactly when
the corresponding entry of the without-layovers table is, so both tables
reach the same destination set from every origin vertex; consequently
`GetShortestRoute(origin, destination, true)` returns a valid `Route` if
and only if `GetShortestRoute(origin, destination, false)` does. -/
theorem weight_mode_topology_equivalence {G : List Departure}
    (g : StationGraph) (hg1 : g.departureGraphList = G)
    (hg2 : g.shortestRouteWithLayoverSequenceTable =
      (floyd_warshal_shortest_paths G true).2)
    (hg3 : g.shortestRouteWithoutLayoverSequenceTable =
      (floyd_warshal_shortest_paths G false).2)
    (hcanon : KeysCanonical G) (hnn : KeysNonneg G)
    (hWt : WeightsGood true G) (hWf : WeightsGood false G)
    (hτ : DepTimesIncrease G) (hkeys : KeysGood G)
    (hVB : ((G.length : Int) + 1) * 20000 < INF)
    (hsid : ∀ d ∈ G, 0 ≤ d.stationID) :
    (∀ x y, x < G.length → y < G.length →
      ((floyd_warshal_shortest_paths G true).2 x y = INF ↔
        (floyd_warshal_shortest_paths G false).2 x y = INF)) ∧
    ∀ dep dst : Int,
      ((g.GetShortestRoute dep dst true).RouteIsValid = true ↔
        (g.GetShortestRoute dep dst false).RouteIsValid = true) := by
  have hVB0 : (G.length : Int) * 20000 < INF := by nlinarith
  have hV : (G.length : Int) < INF := by
    nlinarith [Int.ofNat_nonneg G.length]
  have hD : ∀ x y, y < G.length →
      ((floyd_warshal_shortest_paths G true).1 x y = INF ↔
        (floyd_warshal_shortest_paths G false).1 x y = INF) := by
    intro x y hy
    have h1 := @fw_finite_iff_walk true G hcanon hnn hWt hkeys hVB0 x y hy
    have h2 := @fw_finite_iff_walk false G hcanon hnn hWf hkeys hVB0 x y hy
    constructor
    · intro ht
      by_contra hf
      exact (h1.mpr (h2.mp hf)) ht
    · intro hf
      by_contra ht
      exact (h2.mpr (h1.mp ht)) hf
  have hSt : SeqOk true G (floyd_warshal_shortest_paths G true) :=
    fw_run_SeqOk G.length (fw_seed_SeqOk true G hcanon hnn hWt)
  have hSf : SeqOk false G (floyd_warshal_shortest_paths G false) :=
    fw_run_SeqOk G.length (fw_seed_SeqOk false G hcanon hnn hWf)
  have hND : ∀ (m : Bool), WeightsGood m G →
      ∀ x y, SeqOk m G (floyd_warshal_shortest_paths G m) →
      ((floyd_warshal_shortest_paths G m).2 x y = INF ↔
        (floyd_warshal_shortest_paths G m).1 x y = INF) := by
    intro m hWm x y hS
    constructor
    · intro hn
      by_contra hd
      exact fw_N_ne_INF hcanon hnn hWm hkeys hV hd hn
    · intro hd
      exact (hS x y).2.1 hd
  constructor
  · intro x y _ hy
    rw [hND true hWt x y hSt, hND false hWf x y hSf]
    exact hD x y hy
  · intro dep dst
    have hq1 : g.GetShortestRoute dep dst true =
        get_shortest_route G (floyd_warshal_shortest_paths G true).2
          dep dst true := by
      unfold StationGraph.GetShortestRoute
      rw [if_pos rfl, hg1, hg2]
    have hq2 : g.GetShortestRoute dep dst false =
        get_shortest_route G (floyd_warshal_shortest_paths G false).2
          dep dst false := by
      unfold StationGraph.GetShortestRoute
      rw [if_neg (by simp), hg1, hg3]
    rw [hq1, hq2,
      get_shortest_route_valid_iff hcanon hnn hWt hτ hkeys hVB hsid dep dst,
      get_shortest_route_valid_iff hcanon hnn hWf hτ hkeys hVB hsid dep dst]
    constructor
    · rintro ⟨j, k, hj, hk, hjs, hks, hfin⟩
      exact ⟨j, k, hj, hk, hjs, hks, fun hc => hfin ((hD j k hk).mpr hc)⟩
    · rintro ⟨j, k, hj, hk, hjs, hks, hfin⟩
      exact ⟨j, k, hj, hk, hjs, hks, fun hc => hfin ((hD j k hk).mp hc)⟩

/-- The equivalence of C5 checked on Scenario A: both the table entry
`0 → 4` and the two station-level queries agree across weight modes. -/
theorem weight_mode_topology_equivalence_witness :
    (((floyd_warshal_shortest_paths (build_departures_graph tblA stA)
        true).2 0 4 = INF ↔
      (floyd_warshal_shortest_paths (build_departures_graph tblA stA)
        false).2 0 4 = INF)) ∧
    (((mkStationGraph tblA stA 3).GetShortestRoute 1 3
        true).RouteIsValid = true ↔
      ((mkStationGraph tblA stA 3).GetShortestRoute 1 3
        false).RouteIsValid = true) := by
  have h := weight_mode_topology_equivalence
    (G := build_departures_graph tblA stA)
    (mkStationGraph tblA stA 3) rfl rfl rfl
    (by unfold KeysCanonical; decide) (by unfold KeysNonneg; decide)
    (by unfold WeightsGood; decide) (by unfold WeightsGood; decide)
    (by unfold DepTimesIncrease; decide) (by unfold KeysGood; decide)
    (by decide) (by decide)
  exact ⟨h.1 0 4 (by decide) (by decide), h.2 1 3⟩

/-! ### Characterization of the departure-graph construction -/

theorem srm_self (t : List TripRow) (i : Nat) :
    station_records_match t i i = true := by
  simp [station_records_match]

theorem match_upd_fold (t : List TripRow) (i : Nat) (P : Int × Int)
    (E : TripPlusLayover)
    (hdist : ∀ k, k < t.length → station_records_match t k i = true →
      k = i) :
    ∀ (l : List Nat), l.count i ≤ 1 → (∀ k ∈ l, k < t.length) →
      ∀ (tmp : Nat → DepSlot),
      l.foldl (fun tmp k =>
        if station_records_match t k i then
          (fun x => if x = k then (P, (tmp k).2 ++ [E]) else tmp x)
        else tmp) tmp =
      if i ∈ l then
        (fun x => if x = i then (P, (tmp i).2 ++ [E]) else tmp x)
      else tmp := by
  intro l
  induction l with
  | nil => intro _ _ tmp; simp
  | cons k l ih =>
      intro hcount hlt tmp
      simp only [List.foldl_cons]
      by_cases hm : station_records_match t k i = true
      · have hki : k = i := hdist k (hlt k (List.mem_cons_self _ _)) hm
        subst hki
        rw [if_pos hm]
        have hni : k ∉ l := by
          rw [List.count_cons_self] at hcount
          exact List.count_eq_zero.mp (by omega)
        rw [ih (by rw [List.count_eq_zero.mpr hni]; omega)
          (fun u hu => hlt u (List.mem_cons_of_mem _ hu)) _]
        rw [if_neg hni, if_pos (List.mem_cons_self _ _)]
      · have hki : k ≠ i := by
          intro h
          subst h
          exact hm (srm_self t k)
        rw [if_neg hm]
        rw [ih (by
            rw [List.count_cons_of_ne (fun h => hki h.symm)] at hcount
            exact hcount)
          (fun u hu => hlt u (List.mem_cons_of_mem _ hu)) tmp]
        by_cases hil : i ∈ l
        · rw [if_pos hil, if_pos (List.mem_cons_of_mem _ hil)]
        · rw [if_neg hil, if_neg (by
            intro hc
            rcases List.mem_cons.mp hc with h1 | h2
            · exact hki h1.symm
            · exact hil h2)]

theorem match_pick_fold (t : List TripRow) (j : Nat) (f : Nat → Int)
    (hdist : ∀ k, k < t.length → station_records_match t k j = true →
      k = j) :
    ∀ (l : List Nat), l.count j ≤ 1 → (∀ k ∈ l, k < t.length) →
      ∀ (dk : Int),
      l.foldl (fun dk keyIndx =>
        if station_records_match t keyIndx j then f keyIndx else dk) dk =
      if j ∈ l then f j else dk := by
  intro l
  induction l with
  | nil => intro _ _ dk; simp
  | cons k l ih =>
      intro hcount hlt dk
      simp only [List.foldl_cons]
      by_cases hm : station_records_match t k j = true
      · have hkj : k = j := hdist k (hlt k (List.mem_cons_self _ _)) hm
        subst hkj
        rw [if_pos hm]
        have hni : k ∉ l := by
          rw [List.count_cons_self] at hcount
          exact List.count_eq_zero.mp (by omega)
        rw [ih (by rw [List.count_eq_zero.mpr hni]; omega)
          (fun u hu => hlt u (List.mem_cons_of_mem _ hu)) (f k)]
        rw [if_neg hni, if_pos (List.mem_cons_self _ _)]
      · have hkj : k ≠ j := by
          intro h
          subst h
          exact hm (srm_self t k)
        rw [if_neg hm]
        rw [ih (by
            rw [List.count_cons_of_ne (fun h => hkj h.symm)] at hcount
            exact hcount)
          (fun u hu => hlt u (List.mem_cons_of_mem _ hu)) dk]
        by_cases hjl : j ∈ l
        · rw [if_pos hjl, if_pos (List.mem_cons_of_mem _ hjl)]
        · rw [if_neg hjl, if_neg (by
            intro hc
            rcases List.mem_cons.mp hc with h1 | h2
            · exact hkj h1.symm
            · exact hjl h2)]

theorem count_range_le (i n : Nat) : (List.range n).count i ≤ 1 :=
  List.nodup_iff_count_le_one.mp (List.nodup_range n) i

theorem connection_push_aux (t : List TripRow) (i : Nat)
    (hdist : RecordsDistinct t) (hi : i < t.length) :
    ∀ (l : List Nat), (∀ j ∈ l, j < t.length) →
      ∀ (tmp : Nat → DepSlot),
      (tmp i).1 =
        (stoi (t.getD i default).dep, stoi (t.getD i default).orig) →
      l.foldl
        (fun tmp j =>
          if j ≠ i ∧
              streq (t.getD i default).dest (t.getD j default).orig ∧
              strLt (t.getD i default).arr (t.getD j default).dep then
            (List.range t.length).foldl
              (fun tmp k =>
                if station_records_match t k i then
                  fun x =>
                    if x = k then
                      ((stoi (t.getD i default).dep,
                          stoi (t.getD i default).orig),
                        (tmp k).2 ++
                          [⟨(List.range t.length).foldl
                              (fun dk keyIndx =>
                                if station_records_match t keyIndx j then
                                  (keyIndx : Int)
                                else dk) 0,
                            stoi (t.getD i default).arr -
                              stoi (t.getD i default).dep,
                            stoi (t.getD j default).dep -
                              stoi (t.getD i default).arr,
                            stoi (t.getD i default).arr -
                                stoi (t.getD i default).dep +
                              (stoi (t.getD j default).dep -
                                stoi (t.getD i default).arr)⟩])
                    else tmp x
                else tmp)
              tmp
          else tmp)
        tmp =
      fun x =>
        if x = i then
          ((stoi (t.getD i default).dep, stoi (t.getD i default).orig),
            (tmp i).2 ++
              l.filterMap (fun j =>
                if j ≠ i ∧
                    streq (t.getD i default).dest (t.getD j default).orig ∧
                    strLt (t.getD i default).arr (t.getD j default).dep then
                  some (connEdge t i j)
                else none))
        else tmp x := by
  intro l
  induction l with
  | nil =>
      intro _ tmp hfirst
      funext x
      simp only [List.foldl_nil, List.filterMap_nil, List.append_nil]
      by_cases hx : x = i
      · subst hx
        rw [if_pos rfl, ← hfirst]
      · rw [if_neg hx]
  | cons j l ih =>
      intro hlt tmp hfirst
      have hj : j < t.length := hlt j (List.mem_cons_self _ _)
      simp only [List.foldl_cons, List.filterMap_cons]
      by_cases hc : j ≠ i ∧
          streq (t.getD i default).dest (t.getD j default).orig ∧
          strLt (t.getD i default).arr (t.getD j default).dep
      · rw [if_pos hc, if_pos hc]
        rw [match_pick_fold t j (fun keyIndx => (keyIndx : Int))
          (fun k hk hm => hdist k hk j hj hm) (List.range t.length)
          (count_range_le j t.length)
          (fun k hk => List.mem_range.mp hk) 0]
        rw [if_pos (List.mem_range.mpr hj)]
        rw [match_upd_fold t i
          (stoi (t.getD i default).dep, stoi (t.getD i default).orig)
          ⟨(j : Int),
            stoi (t.getD i default).arr - stoi (t.getD i default).dep,
            stoi (t.getD j default).dep - stoi (t.getD i default).arr,
            stoi (t.getD i default).arr - stoi (t.getD i default).dep +
              (stoi (t.getD j default).dep -
                stoi (t.getD i default).arr)⟩
          (fun k hk hm => hdist k hk i hi hm) (List.range t.length)
          (count_range_le i t.length)
          (fun k hk => List.mem_range.mp hk) tmp]
        rw [if_pos (List.mem_range.mpr hi)]
        rw [ih (fun u hu => hlt u (List.mem_cons_of_mem _ hu)) _
          (by rw [if_pos rfl])]
        have hce : connEdge t i j =
            ⟨(j : Int),
              stoi (t.getD i default).arr - stoi (t.getD i default).dep,
              stoi (t.getD j default).dep - stoi (t.getD i default).arr,
              stoi (t.getD i default).arr - stoi (t.getD i default).dep +
                (stoi (t.getD j default).dep -
                  stoi (t.getD i default).arr)⟩ := rfl
        funext x
        dsimp only
        by_cases hx : x = i
        · rw [if_pos hx, if_pos hx, if_pos (show (i = i) from rfl), hce,
            ← List.append_cons]
        · rw [if_neg hx, if_neg hx, if_neg hx]
      · rw [if_neg hc, if_neg hc]
        exact ih (fun u hu => hlt u (List.mem_cons_of_mem _ hu)) tmp hfirst

theorem connection_push_char (t : List TripRow) (i : Nat)
    (hdist : RecordsDistinct t) (hi : i < t.length)
    (tmp : Nat → DepSlot)
    (hfirst : (tmp i).1 =
      (stoi (t.getD i default).dep, stoi (t.getD i default).orig)) :
    connection_push t i tmp =
      fun x =>
        if x = i then
          ((stoi (t.getD i default).dep, stoi (t.getD i default).orig),
            (tmp i).2 ++ connEdges t i)
        else tmp x :=
  connection_push_aux t i hdist hi (List.range t.length)
    (fun j hj => List.mem_range.mp hj) tmp hfirst

theorem record_push_char (t : List TripRow) (hdist : RecordsDistinct t)
    (i : Nat) (hi : i < t.length) (tmp : Nat → DepSlot) :
    record_push t tmp i =
      fun x =>
        if x = i then
          ((stoi (t.getD i default).dep, stoi (t.getD i default).orig),
            (tmp i).2 ++ (rideEdge t i :: connEdges t i))
        else tmp x := by
  unfold record_push
  dsimp only
  rw [match_pick_fold t i
    (fun keyIndx => stoi (t.getD keyIndx default).dest +
      ((t.length : Int) - 1))
    (fun k hk hm => hdist k hk i hi hm) (List.range t.length)
    (count_range_le i t.length) (fun k hk => List.mem_range.mp hk) 0]
  rw [if_pos (List.mem_range.mpr hi)]
  rw [match_upd_fold t i
    (stoi (t.getD i default).dep, stoi (t.getD i default).orig)
    ⟨stoi (t.getD i default).dest + ((t.length : Int) - 1),
      stoi (t.getD i default).arr - stoi (t.getD i default).dep, 0,
      stoi (t.getD i default).arr - stoi (t.getD i default).dep + 0⟩
    (fun k hk hm => hdist k hk i hi hm) (List.range t.length)
    (count_range_le i t.length) (fun k hk => List.mem_range.mp hk) tmp]
  rw [if_pos (List.mem_range.mpr hi)]
  rw [connection_push_char t i hdist hi _
    (by rw [if_pos (show (i = i) from rfl)])]
  have hre : rideEdge t i =
      ⟨stoi (t.getD i default).dest + ((t.length : Int) - 1),
        stoi (t.getD i default).arr - stoi (t.getD i default).dep, 0,
        stoi (t.getD i default).arr - stoi (t.getD i default).dep + 0⟩ :=
    rfl
  funext x
  dsimp only
  by_cases hx : x = i
  · rw [if_pos hx, if_pos hx, if_pos (show (i = i) from rfl), hre,
      ← List.append_cons]
  · rw [if_neg hx, if_neg hx, if_neg hx]

theorem build_tmp_char (t : List TripRow) (hdist : RecordsDistinct t) :
    ∀ (l : List Nat), l.Nodup → (∀ k ∈ l, k < t.length) →
      ∀ (tmp : Nat → DepSlot) (x : Nat),
      (l.foldl (record_push t) tmp) x =
        if x ∈ l then
          ((stoi (t.getD x default).dep, stoi (t.getD x default).orig),
            (tmp x).2 ++ (rideEdge t x :: connEdges t x))
        else tmp x := by
  intro l
  induction l with
  | nil => intro _ _ tmp x; simp
  | cons i l ih =>
      intro hnd hlt tmp x
      have hi : i < t.length := hlt i (List.mem_cons_self _ _)
      simp only [List.foldl_cons]
      rw [record_push_char t hdist i hi tmp]
      rw [ih (List.Nodup.of_cons hnd)
        (fun u hu => hlt u (List.mem_cons_of_mem _ hu)) _ x]
      by_cases hxl : x ∈ l
      · rw [if_pos hxl, if_pos (List.mem_cons_of_mem _ hxl)]
        have hxi : x ≠ i := by
          intro h
          subst h
          exact (List.nodup_cons.mp hnd).1 hxl
        rw [if_neg hxi]
      · rw [if_neg hxl]
        by_cases hxi : x = i
        · subst hxi
          rw [if_pos rfl, if_pos (List.mem_cons_self _ _)]
        · rw [if_neg hxi, if_neg (by
            intro hc
            rcases List.mem_cons.mp hc with h1 | h2
            · exact hxi h1
            · exact hxl h2)]

theorem build_departures_record_char (t : List TripRow) (s : List String)
    (hdist : RecordsDistinct t) (i : Nat) (hi : i < t.length) :
    (build_departures_graph t s).getD i default =
      Departure.mk (rideEdge t i :: connEdges t i)
        (stoi (t.getD i default).orig) (i : Int)
        (stoi (t.getD i default).dep) := by
  unfold build_departures_graph
  dsimp only
  rw [List.getD_append _ _ _ _ (by
    rw [List.length_map, List.length_range]
    exact hi)]
  rw [getD_map_range _ _ _ _ hi]
  rw [build_tmp_char t hdist (List.range t.length) (List.nodup_range _)
    (fun k hk => List.mem_range.mp hk) _ i]
  rw [if_pos (List.mem_range.mpr hi)]
  simp

theorem build_departures_sink_char (t : List TripRow) (s : List String)
    (i : Nat) (hi : i < s.length) :
    (build_departures_graph t s).getD (t.length + i) default =
      Departure.mk [] (stoi (s.getD i "")) ((i : Int) + (t.length : Int))
        0 := by
  unfold build_departures_graph
  dsimp only
  rw [List.getD_append_right _ _ _ _ (by
    rw [List.length_map, List.length_range]
    omega)]
  rw [List.length_map, List.length_range]
  rw [show t.length + i - t.length = i by omega]
  rw [getD_map_range _ _ _ _ hi]

theorem lastTripTo_fold_isSome (v : Nat) :
    ∀ (ts : List TripPlusLayover) (acc : Option TripPlusLayover),
      acc.isSome = true →
      (ts.foldl (fun acc tr =>
        if tr.destinationKey = (v : Int) then some tr else acc)
          acc).isSome = true := by
  intro ts
  induction ts with
  | nil => intro acc h; exact h
  | cons tr ts ih =>
      intro acc h
      simp only [List.foldl_cons]
      by_cases hk : tr.destinationKey = (v : Int)
      · rw [if_pos hk]
        exact ih _ rfl
      · rw [if_neg hk]
        exact ih _ h

theorem lastTripTo_isSome_of_mem {d : Departure} {v : Nat}
    {tr : TripPlusLayover} (hmem : tr ∈ d.validTrips)
    (hk : tr.destinationKey = (v : Int)) :
    (lastTripTo d v).isSome = true := by
  unfold lastTripTo
  obtain ⟨l1, l2, heq⟩ := List.append_of_mem hmem
  rw [heq, List.foldl_append, List.foldl_cons, if_pos hk]
  exact lastTripTo_fold_isSome v l2 (some tr) rfl

theorem edge_class {t : List TripRow} {s : List String}
    (hdist : RecordsDistinct t) {u : Nat} {tr : TripPlusLayover}
    (hu : u < (build_departures_graph t s).length)
    (hmem : tr ∈ ((build_departures_graph t s).getD u default).validTrips) :
    u < t.length ∧
      (tr = rideEdge t u ∨
        ∃ j, j < t.length ∧ j ≠ u ∧
          streq (t.getD u default).dest (t.getD j default).orig = true ∧
          strLt (t.getD u default).arr (t.getD j default).dep = true ∧
          tr = connEdge t u j) := by
  rw [build_departures_length] at hu
  by_cases hu2 : u < t.length
  · refine ⟨hu2, ?_⟩
    rw [build_departures_record_char t s hdist u hu2] at hmem
    rcases List.mem_cons.mp hmem with rfl | hconn
    · exact Or.inl rfl
    · right
      obtain ⟨j, hjr, hsome⟩ := List.mem_filterMap.mp hconn
      rw [List.mem_range] at hjr
      by_cases hc : j ≠ u ∧
          streq (t.getD u default).dest (t.getD j default).orig ∧
          strLt (t.getD u default).arr (t.getD j default).dep
      · rw [if_pos hc] at hsome
        exact ⟨j, hjr, hc.1, hc.2.1, hc.2.2,
          (Option.some_inj.mp hsome).symm⟩
      · rw [if_neg hc] at hsome
        exact absurd hsome (by simp)
  · exfalso
    have hrw : u = t.length + (u - t.length) := by omega
    rw [hrw, build_departures_sink_char t s _ (by omega)] at hmem
    exact List.not_mem_nil tr hmem

theorem mem_getD_index {α : Type} [Inhabited α] {l : List α} {d : α}
    (h : d ∈ l) : ∃ u, u < l.length ∧ l.getD u default = d := by
  obtain ⟨i, hi, heq⟩ := List.mem_iff_getElem.mp h
  exact ⟨i, hi, by rw [List.getD_eq_getElem _ _ hi]; exact heq⟩

theorem edge_facts {t : List TripRow} {s : List String}
    (hwf : TripsWF t s) {u : Nat} {tr : TripPlusLayover}
    (hu : u < (build_departures_graph t s).length)
    (hmem : tr ∈ ((build_departures_graph t s).getD u default).validTrips) :
    0 ≤ tr.destinationKey ∧
    tr.destinationKey < ((build_departures_graph t s).length : Int) ∧
    0 < tr.rideTimeToDestinationMins ∧
    tr.rideTimeToDestinationMins ≤ 20000 ∧
    0 < tr.tripWeight ∧ tr.tripWeight ≤ 20000 := by
  obtain ⟨hdist, horig, hdest, htimes, hlex, hscanon⟩ := hwf
  obtain ⟨hu2, hcase⟩ := edge_class hdist hu hmem
  rw [build_departures_length]
  have hrow := getD_mem_of_lt hu2
  have hd := hdest _ hrow
  have ht := htimes _ hrow
  rcases hcase with rfl | ⟨j, hj, hne, hsq, hsl, rfl⟩
  · have hR : 1 ≤ t.length := by omega
    unfold rideEdge
    dsimp only
    push_cast
    omega
  · have hrowj := getD_mem_of_lt hj
    have htj := htimes _ hrowj
    have hl := hlex _ hrow _ hrowj hsl
    unfold connEdge
    dsimp only
    push_cast
    omega

theorem bridge_all (t : List TripRow) (s : List String)
    (hwf : TripsWF t s) :
    KeysCanonical (build_departures_graph t s) ∧
    KeysNonneg (build_departures_graph t s) ∧
    KeysGood (build_departures_graph t s) ∧
    WeightsGood true (build_departures_graph t s) ∧
    WeightsGood false (build_departures_graph t s) ∧
    DepTimesIncrease (build_departures_graph t s) ∧
    (∀ d ∈ build_departures_graph t s, 0 ≤ d.stationID) := by
  obtain ⟨hdist, horig, hdest, htimes, hlex, hscanon⟩ := hwf
  have hwf2 : TripsWF t s := ⟨hdist, horig, hdest, htimes, hlex, hscanon⟩
  have hkeys : KeysGood (build_departures_graph t s) := by
    intro d hd tr htr
    obtain ⟨u, hu, hgd⟩ := mem_getD_index hd
    rw [← hgd] at htr
    have := edge_facts hwf2 hu htr
    exact ⟨this.1, this.2.1⟩
  refine ⟨?_, ?_, hkeys, ?_, ?_, ?_, ?_⟩
  · intro p hp
    rw [build_departures_length] at hp
    by_cases hp2 : p < t.length
    · rw [build_departures_record_char t s hdist p hp2]
    · rw [show p = t.length + (p - t.length) from by omega,
        build_departures_sink_char t s _ (by omega)]
      dsimp only
      push_cast
      omega
  · intro d hd tr htr
    obtain ⟨u, hu, hgd⟩ := mem_getD_index hd
    rw [← hgd] at htr
    exact (edge_facts hwf2 hu htr).1
  · intro d hd tr htr
    obtain ⟨u, hu, hgd⟩ := mem_getD_index hd
    rw [← hgd] at htr
    have := edge_facts hwf2 hu htr
    simp only [weightSel, if_pos rfl]
    exact ⟨this.2.2.2.2.1, this.2.2.2.2.2⟩
  · intro d hd tr htr
    obtain ⟨u, hu, hgd⟩ := mem_getD_index hd
    rw [← hgd] at htr
    have := edge_facts hwf2 hu htr
    simp only [weightSel, Bool.false_eq_true, if_false]
    exact ⟨this.2.2.1, this.2.2.2.1⟩
  · intro u hu tr htr hne
    have hu0 := hu
    rw [build_departures_length] at hu0
    obtain ⟨hu2, hcase⟩ := edge_class hdist hu htr
    have hrow := getD_mem_of_lt hu2
    have ht := htimes _ hrow
    have hd := hdest _ hrow
    rcases hcase with rfl | ⟨j, hj, hnej, hsq, hsl, rfl⟩
    · exfalso
      have hkey : (rideEdge t u).destinationKey =
          stoi (t.getD u default).dest + ((t.length : Int) - 1) := rfl
      have hR : 1 ≤ t.length := by omega
      have hw1 : t.length ≤ (rideEdge t u).destinationKey.toNat := by
        rw [hkey]; omega
      have hw2 : (rideEdge t u).destinationKey.toNat - t.length <
          s.length := by
        rw [hkey]; omega
      rw [show (rideEdge t u).destinationKey.toNat =
          t.length + ((rideEdge t u).destinationKey.toNat - t.length)
          from by omega,
        build_departures_sink_char t s _ hw2] at hne
      exact hne rfl
    · have hrowj := getD_mem_of_lt hj
      have htj := htimes _ hrowj
      have hl := hlex _ hrow _ hrowj hsl
      have hkey : (connEdge t u j).destinationKey.toNat = j := by
        have : (connEdge t u j).destinationKey = (j : Int) := rfl
        rw [this]; omega
      rw [hkey, build_departures_record_char t s hdist u hu2,
        build_departures_record_char t s hdist j hj]
      dsimp only
      omega
  · intro d hd
    obtain ⟨u, hu, hgd⟩ := mem_getD_index hd
    rw [build_departures_length] at hu
    by_cases hu2 : u < t.length
    · rw [← hgd, build_departures_record_char t s hdist u hu2]
      have := horig _ (getD_mem_of_lt hu2)
      dsimp only
      omega
    · rw [← hgd, show u = t.length + (u - t.length) from by omega,
        build_departures_sink_char t s _ (by omega)]
      have := hscanon (u - t.length) (by omega)
      dsimp only
      omega

theorem walk_sink_min {t : List TripRow} {s : List String}
    (hwf : TripsWF t s) :
    ∀ {u : Nat} {vs : List Nat} {y : Nat},
      Walk (build_departures_graph t s) u vs y → t.length ≤ y →
      (stoi (t.getD u default).arr - stoi (t.getD u default).dep ≤
        walkW true (build_departures_graph t s) u vs) ∧
      (2 ≤ vs.length →
        stoi (t.getD u default).arr - stoi (t.getD u default).dep <
          walkW true (build_departures_graph t s) u vs) := by
  obtain ⟨hdist, horig, hdest, htimes, hlex, hscanon⟩ := hwf
  intro u vs y hw
  induction hw with
  | @single a b hu ht =>
      intro hy
      obtain ⟨tr, htr⟩ := Option.isSome_iff_exists.mp ht
      obtain ⟨hmem, hkey⟩ := lastTripTo_mem htr
      obtain ⟨ha2, hcase⟩ := edge_class hdist hu hmem
      have hrow := getD_mem_of_lt ha2
      have ht2 := htimes _ hrow
      rcases hcase with rfl | ⟨j, hj, hnej, hsq, hsl, rfl⟩
      · constructor
        · simp only [walkW, edgeWeight, htr]
          have hws : weightSel true (rideEdge t a) =
              stoi (t.getD a default).arr - stoi (t.getD a default).dep +
                0 := rfl
          rw [hws]
          omega
        · intro h2
          simp at h2
      · exfalso
        have hkj : (connEdge t a j).destinationKey = (j : Int) := rfl
        rw [hkj] at hkey
        have : j = b := by omega
        omega
  | @cons a b w vs hu ht hw ih =>
      intro hy
      obtain ⟨tr, htr⟩ := Option.isSome_iff_exists.mp ht
      obtain ⟨hmem, hkey⟩ := lastTripTo_mem htr
      obtain ⟨ha2, hcase⟩ := edge_class hdist hu hmem
      have hrow := getD_mem_of_lt ha2
      have ht2 := htimes _ hrow
      have hbV := walk_src_lt hw
      rcases hcase with rfl | ⟨j, hj, hnej, hsq, hsl, rfl⟩
      · exfalso
        have hkr : (rideEdge t a).destinationKey =
            stoi (t.getD a default).dest + ((t.length : Int) - 1) := rfl
        rw [hkr] at hkey
        have hdb := hdest _ hrow
        have hbR : t.length ≤ b := by omega
        rw [build_departures_length] at hbV
        have hnsk := walk_nonsink hw
        rw [show b = t.length + (b - t.length) from by omega,
          build_departures_sink_char t s _ (by omega)] at hnsk
        exact hnsk rfl
      · have hkj : (connEdge t a j).destinationKey = (j : Int) := rfl
        rw [hkj] at hkey
        have hbj : b = j := by omega
        subst hbj
        have hrowj := getD_mem_of_lt hj
        have htj := htimes _ hrowj
        have hl := hlex _ hrow _ hrowj hsl
        obtain ⟨hge, -⟩ := ih hy
        have hws : weightSel true (connEdge t a b) =
            stoi (t.getD a default).arr - stoi (t.getD a default).dep +
              (stoi (t.getD b default).dep -
                stoi (t.getD a default).arr) := rfl
        constructor
        · simp only [walkW, edgeWeight, htr, hws]
          omega
        · intro _
          simp only [walkW, edgeWeight, htr, hws]
          omega

theorem lastTripTo_fold_skip (v : Nat) :
    ∀ (ts : List TripPlusLayover) (acc : Option TripPlusLayover),
      (∀ tr ∈ ts, tr.destinationKey ≠ (v : Int)) →
      ts.foldl (fun acc tr =>
        if tr.destinationKey = (v : Int) then some tr else acc) acc =
        acc := by
  intro ts
  induction ts with
  | nil => intro acc _; rfl
  | cons tr ts ih =>
      intro acc hno
      simp only [List.foldl_cons]
      rw [if_neg (hno tr (List.mem_cons_self _ _))]
      exact ih acc (fun u hu => hno u (List.mem_cons_of_mem _ hu))

theorem connEdges_key {t : List TripRow} {i : Nat} {tr : TripPlusLayover}
    (h : tr ∈ connEdges t i) :
    ∃ j, j < t.length ∧ tr.destinationKey = (j : Int) := by
  obtain ⟨j, hjr, hsome⟩ := List.mem_filterMap.mp h
  rw [List.mem_range] at hjr
  by_cases hc : j ≠ i ∧
      streq (t.getD i default).dest (t.getD j default).orig ∧
      strLt (t.getD i default).arr (t.getD j default).dep
  · rw [if_pos hc] at hsome
    refine ⟨j, hjr, ?_⟩
    rw [← Option.some_inj.mp hsome]
    rfl
  · rw [if_neg hc] at hsome
    exact absurd hsome (by simp)

theorem fw_direct_sink {t : List TripRow} {s : List String}
    (hwf : TripsWF t s) {i : Nat} (hi : i < t.length) :
    t.length ≤ (rideEdge t i).destinationKey.toNat ∧
    (rideEdge t i).destinationKey.toNat <
      (build_departures_graph t s).length ∧
    (floyd_warshal_shortest_paths (build_departures_graph t s) true).1 i
      (rideEdge t i).destinationKey.toNat ≠ INF ∧
    (floyd_warshal_shortest_paths (build_departures_graph t s) true).2 i
      (rideEdge t i).destinationKey.toNat =
      (((rideEdge t i).destinationKey.toNat : Nat) : Int) := by
  obtain ⟨hcanon, hnn, hkeys, hWt, hWf, hτ, hsid⟩ := bridge_all t s hwf
  obtain ⟨hdist, horig, hdest, htimes, hlex, hscanon⟩ := hwf
  have hwf2 : TripsWF t s := ⟨hdist, horig, hdest, htimes, hlex, hscanon⟩
  have hrow := getD_mem_of_lt hi
  have ht2 := htimes _ hrow
  have hd := hdest _ hrow
  have hkr : (rideEdge t i).destinationKey =
      stoi (t.getD i default).dest + ((t.length : Int) - 1) := rfl
  have hR : 1 ≤ t.length := by omega
  have hk1 : t.length ≤ (rideEdge t i).destinationKey.toNat := by
    rw [hkr]; omega
  have hk2 : (rideEdge t i).destinationKey.toNat <
      (build_departures_graph t s).length := by
    rw [build_departures_length, hkr]; omega
  have hiV : i < (build_departures_graph t s).length := by
    rw [build_departures_length]; omega
  have hkey2 : (rideEdge t i).destinationKey =
      (((rideEdge t i).destinationKey.toNat : Nat) : Int) := by
    rw [hkr]; omega
  have hmemr : rideEdge t i ∈
      ((build_departures_graph t s).getD i default).validTrips := by
    rw [build_departures_record_char t s hdist i hi]
    exact List.mem_cons_self _ _
  have hts : (lastTripTo ((build_departures_graph t s).getD i default)
      (rideEdge t i).destinationKey.toNat).isSome = true :=
    lastTripTo_isSome_of_mem hmemr hkey2
  have hwalk : Walk (build_departures_graph t s) i
      [(rideEdge t i).destinationKey.toNat]
      (rideEdge t i).destinationKey.toNat :=
    Walk.single hiV hts
  have hlast : lastTripTo ((build_departures_graph t s).getD i default)
      (rideEdge t i).destinationKey.toNat = some (rideEdge t i) := by
    rw [build_departures_record_char t s hdist i hi]
    unfold lastTripTo
    dsimp only
    rw [List.foldl_cons, if_pos hkey2]
    apply lastTripTo_fold_skip
    intro tr htr
    obtain ⟨j, hj, hkj⟩ := connEdges_key htr
    rw [hkj, ← hkey2, hkr]
    intro hc
    omega
  have hedge : edgeWeight true (build_departures_graph t s) i
      (rideEdge t i).destinationKey.toNat =
      stoi (t.getD i default).arr - stoi (t.getD i default).dep + 0 := by
    simp only [edgeWeight, hlast]
    rfl
  have hDle : (floyd_warshal_shortest_paths
      (build_departures_graph t s) true).1 i
      (rideEdge t i).destinationKey.toNat ≤
      stoi (t.getD i default).arr - stoi (t.getD i default).dep + 0 := by
    have := fw_min hcanon hnn hWt i (rideEdge t i).destinationKey.toNat
      [(rideEdge t i).destinationKey.toNat] hk2 hwalk
    simp only [walkW, hedge] at this
    have hz : stoi (t.getD i default).arr - stoi (t.getD i default).dep +
        0 + 0 = stoi (t.getD i default).arr -
        stoi (t.getD i default).dep + 0 := by omega
    rw [hz] at this
    exact this
  have hfin : (floyd_warshal_shortest_paths
      (build_departures_graph t s) true).1 i
      (rideEdge t i).destinationKey.toNat ≠ INF := by
    have hINF : INF = 2147483647 := rfl
    omega
  refine ⟨hk1, hk2, hfin, ?_⟩
  obtain ⟨v, hN, htv, -, hcase⟩ := fw_hop hcanon hnn hWt hτ hk2 hfin
  rcases hcase with ⟨hveq, -⟩ | ⟨hvy, hfin2, hlt, heq⟩
  · rw [hN, hveq, hkey2]
  · exfalso
    have hS : SeqOk true (build_departures_graph t s)
        (floyd_warshal_shortest_paths (build_departures_graph t s)
          true) :=
      fw_run_SeqOk (build_departures_graph t s).length
        (fw_seed_SeqOk true (build_departures_graph t s) hcanon hnn hWt)
    obtain ⟨v2, vs2, hwv, hwW, -⟩ :=
      (hS v (rideEdge t i).destinationKey.toNat).2.2 hfin2
    have hwcomp : Walk (build_departures_graph t s) i
        (v :: v2 :: vs2) (rideEdge t i).destinationKey.toNat :=
      Walk.cons hiV htv hwv
    have hwW2 : walkW true (build_departures_graph t s) i
        (v :: v2 :: vs2) =
        edgeWeight true (build_departures_graph t s) i v +
          walkW true (build_departures_graph t s) v (v2 :: vs2) := rfl
    obtain ⟨-, hstrict⟩ := walk_sink_min hwf2 hwcomp hk1
    have hst := hstrict (by simp)
    rw [hwW2, hwW, ← heq] at hst
    omega

theorem direct_route_single {t : List TripRow} {s : List String}
    (hwf : TripsWF t s) {i : Nat} (hi : i < t.length)
    (hVle : ((build_departures_graph t s).length : Int) < INF) :
    (get_route (build_departures_graph t s)
      (floyd_warshal_shortest_paths (build_departures_graph t s) true).2
      i (rideEdge t i).destinationKey.toNat).RouteIsValid = true ∧
    (get_route (build_departures_graph t s)
      (floyd_warshal_shortest_paths (build_departures_graph t s) true).2
      i (rideEdge t i).destinationKey.toNat).tripList.length = 1 := by
  obtain ⟨hcanon, hnn, hkeys, hWt, hWf, hτ, hsid⟩ := bridge_all t s hwf
  obtain ⟨hk1, hk2, hfin, hNik⟩ := fw_direct_sink hwf hi
  obtain ⟨hdist, horig, hdest, htimes, hlex, hscanon⟩ := hwf
  have hiV : i < (build_departures_graph t s).length := by
    rw [build_departures_length]; omega
  have hval : (get_route (build_departures_graph t s)
      (floyd_warshal_shortest_paths (build_departures_graph t s) true).2
      i (rideEdge t i).destinationKey.toNat).RouteIsValid = true :=
    (get_route_valid_iff hcanon hnn hWt hτ hkeys hVle hsid hiV hk2).mpr
      hfin
  refine ⟨hval, ?_⟩
  have hfinal_i : ((build_departures_graph t s).getD i
      default).IsFinalDestination = false := by
    rw [build_departures_record_char t s hdist i hi]
    simp [Departure.IsFinalDestination]
  have hkInt : ((rideEdge t i).destinationKey.toNat : Int) <
      ((build_departures_graph t s).length : Int) := by
    exact_mod_cast hk2
  have hINF : INF = 2147483647 := rfl
  have hNne : (floyd_warshal_shortest_paths
      (build_departures_graph t s) true).2 i
      (rideEdge t i).destinationKey.toNat ≠ INF := by
    rw [hNik]
    omega
  have hfinal_k : ((build_departures_graph t s).getD
      (rideEdge t i).destinationKey.toNat default).IsFinalDestination =
      true := by
    rw [build_departures_length] at hk2
    rw [show (rideEdge t i).destinationKey.toNat =
        t.length + ((rideEdge t i).destinationKey.toNat - t.length)
        from by omega,
      build_departures_sink_char t s _ (by omega)]
    simp [Departure.IsFinalDestination]
  have hNkk : (floyd_warshal_shortest_paths
      (build_departures_graph t s) true).2
      (rideEdge t i).destinationKey.toNat
      (rideEdge t i).destinationKey.toNat = INF :=
    (fw_diag_INF hcanon hnn hWt hτ _).2
  have hVpos : 1 ≤ (build_departures_graph t s).length := by
    rw [build_departures_length]; omega
  obtain ⟨f, hf⟩ := Nat.exists_eq_add_of_le' hVpos
  have hrest : get_route_go (build_departures_graph t s)
      (floyd_warshal_shortest_paths (build_departures_graph t s) true).2
      (rideEdge t i).destinationKey.toNat
      (build_departures_graph t s).length
      (rideEdge t i).destinationKey.toNat =
      ([], [(rideEdge t i).destinationKey.toNat], true) := by
    rw [hf]
    show (if _ then _ else _) = _
    rw [if_pos (Or.inl (by rw [hfinal_k]))]
    rw [if_neg (by simp [hNkk])]
  have htoNat : ((floyd_warshal_shortest_paths
      (build_departures_graph t s) true).2 i
      (rideEdge t i).destinationKey.toNat).toNat =
      (rideEdge t i).destinationKey.toNat := by
    rw [hNik]
    omega
  have hshape : get_route_go (build_departures_graph t s)
      (floyd_warshal_shortest_paths (build_departures_graph t s) true).2
      (rideEdge t i).destinationKey.toNat
      ((build_departures_graph t s).length + 1) i =
      (((build_departures_graph t s).getD i
          default).FindTripByDestinationKey
          ((floyd_warshal_shortest_paths
            (build_departures_graph t s) true).2 i
            (rideEdge t i).destinationKey.toNat) ::
        (get_route_go (build_departures_graph t s)
          (floyd_warshal_shortest_paths
            (build_departures_graph t s) true).2
          (rideEdge t i).destinationKey.toNat
          (build_departures_graph t s).length
          (rideEdge t i).destinationKey.toNat).1,
        i :: (get_route_go (build_departures_graph t s)
          (floyd_warshal_shortest_paths
            (build_departures_graph t s) true).2
          (rideEdge t i).destinationKey.toNat
          (build_departures_graph t s).length
          (rideEdge t i).destinationKey.toNat).2.1,
        (get_route_go (build_departures_graph t s)
          (floyd_warshal_shortest_paths
            (build_departures_graph t s) true).2
          (rideEdge t i).destinationKey.toNat
          (build_departures_graph t s).length
          (rideEdge t i).destinationKey.toNat).2.2) := by
    show (if _ then _ else _) = _
    rw [if_neg (by
      push_neg
      constructor
      · rw [hfinal_i]
        simp
      · exact hNne)]
    rw [htoNat]
  have hv2 : (Route.mk ((build_departures_graph t s).getD i default)
      (get_route_go (build_departures_graph t s)
        (floyd_warshal_shortest_paths (build_departures_graph t s)
          true).2 (rideEdge t i).destinationKey.toNat
        ((build_departures_graph t s).length + 1) i).1).RouteIsValid =
      true := by
    by_contra hc
    have hsent : get_route (build_departures_graph t s)
        (floyd_warshal_shortest_paths (build_departures_graph t s)
          true).2 i (rideEdge t i).destinationKey.toNat =
        ⟨⟨[], -1, -1, -1⟩, []⟩ := by
      unfold get_route
      rw [if_neg (by exact fun h2 => hc h2)]
    rw [hsent] at hval
    simp [Route.RouteIsValid] at hval
  have hgr : get_route (build_departures_graph t s)
      (floyd_warshal_shortest_paths (build_departures_graph t s) true).2
      i (rideEdge t i).destinationKey.toNat =
      ⟨(build_departures_graph t s).getD i default,
        (get_route_go (build_departures_graph t s)
          (floyd_warshal_shortest_paths (build_departures_graph t s)
            true).2 (rideEdge t i).destinationKey.toNat
          ((build_departures_graph t s).length + 1) i).1⟩ := by
    unfold get_route
    rw [if_pos hv2]
  rw [hgr]
  show (get_route_go (build_departures_graph t s)
      (floyd_warshal_shortest_paths (build_departures_graph t s) true).2
      (rideEdge t i).destinationKey.toNat
      ((build_departures_graph t s).length + 1) i).1.length = 1
  rw [hshape, hrest]
  rfl

theorem streq_stoi {a b : String} (h : streq a b = true) :
    stoi a = stoi b := by
  have hd : a.data = b.data := by simpa [streq] using h
  unfold stoi
  rw [hd]

theorem route_single_edge {t : List TripRow} {s : List String}
    (hwf : TripsWF t s)
    (hVle : ((build_departures_graph t s).length : Int) < INF)
    {j k : Nat} (hj : j < (build_departures_graph t s).length)
    (hk : k < (build_departures_graph t s).length)
    (hval : (get_route (build_departures_graph t s)
      (floyd_warshal_shortest_paths (build_departures_graph t s) true).2
      j k).RouteIsValid = true)
    (hlen : (get_route (build_departures_graph t s)
      (floyd_warshal_shortest_paths (build_departures_graph t s) true).2
      j k).tripList.length = 1) :
    ∃ r ∈ t, stoi r.orig =
        ((build_departures_graph t s).getD j default).stationID ∧
      stoi r.dest =
        ((build_departures_graph t s).getD k default).stationID := by
  obtain ⟨hcanon, hnn, hkeys, hWt, hWf, hτ, hsid⟩ := bridge_all t s hwf
  obtain ⟨hdist, horig, hdest, htimes, hlex, hscanon⟩ := hwf
  have hwf2 : TripsWF t s := ⟨hdist, horig, hdest, htimes, hlex, hscanon⟩
  have hfin : (floyd_warshal_shortest_paths
      (build_departures_graph t s) true).1 j k ≠ INF :=
    (get_route_valid_iff hcanon hnn hWt hτ hkeys hVle hsid hj hk).mp hval
  have hS : SeqOk true (build_departures_graph t s)
      (floyd_warshal_shortest_paths (build_departures_graph t s) true) :=
    fw_run_SeqOk (build_departures_graph t s).length
      (fw_seed_SeqOk true (build_departures_graph t s) hcanon hnn hWt)
  obtain ⟨v, hN, htv, -, hcase⟩ := fw_hop hcanon hnn hWt hτ hk hfin
  have hINF : INF = 2147483647 := rfl
  rcases hcase with ⟨hveq, -⟩ | ⟨hvy, hfin2, hlt, heq⟩
  · subst hveq
    obtain ⟨tr, htr⟩ := Option.isSome_iff_exists.mp htv
    obtain ⟨hmem, hkey⟩ := lastTripTo_mem htr
    obtain ⟨hj2, hcase2⟩ := edge_class hdist hj hmem
    have hrow := getD_mem_of_lt hj2
    have hdj := hdest _ hrow
    rcases hcase2 with rfl | ⟨j2, hj2b, hnej, hsq, hsl, rfl⟩
    · have hkr : (rideEdge t j).destinationKey =
          stoi (t.getD j default).dest + ((t.length : Int) - 1) := rfl
      rw [hkr] at hkey
      have hkR : t.length ≤ v := by omega
      rw [build_departures_length] at hk
      refine ⟨t.getD j default, hrow, ?_, ?_⟩
      · rw [build_departures_record_char t s hdist j hj2]
      · rw [show v = t.length + (v - t.length) from by omega,
          build_departures_sink_char t s _ (by omega)]
        have hsc := hscanon (v - t.length) (by omega)
        dsimp only
        omega
    · have hkc : (connEdge t j j2).destinationKey = (j2 : Int) := rfl
      rw [hkc] at hkey
      have hj2v : j2 = v := by omega
      subst hj2v
      refine ⟨t.getD j default, hrow, ?_, ?_⟩
      · rw [build_departures_record_char t s hdist j hj2]
      · rw [build_departures_record_char t s hdist j2 hj2b]
        exact streq_stoi hsq
  · exfalso
    have hjV := hj
    have hvV : v < (build_departures_graph t s).length :=
      edge_target_lt hkeys hjV htv
    obtain ⟨vw, vsw, hww, -, -⟩ := (hS j k).2.2 hfin
    have hfj : ((build_departures_graph t s).getD j
        default).IsFinalDestination ≠ true := by
      intro hc
      simp only [Departure.IsFinalDestination, decide_eq_true_eq] at hc
      exact walk_nonsink hww (List.length_eq_zero.mp hc)
    have hNne : (floyd_warshal_shortest_paths
        (build_departures_graph t s) true).2 j k ≠ INF := by
      rw [hN]
      have : (v : Int) < ((build_departures_graph t s).length : Int) := by
        exact_mod_cast hvV
      omega
    have htoNat : ((floyd_warshal_shortest_paths
        (build_departures_graph t s) true).2 j k).toNat = v := by
      rw [hN]
      omega
    have hv2 : (Route.mk ((build_departures_graph t s).getD j default)
        (get_route_go (build_departures_graph t s)
          (floyd_warshal_shortest_paths (build_departures_graph t s)
            true).2 k ((build_departures_graph t s).length + 1)
          j).1).RouteIsValid = true := by
      by_contra hc
      have hsent : get_route (build_departures_graph t s)
          (floyd_warshal_shortest_paths (build_departures_graph t s)
            true).2 j k = ⟨⟨[], -1, -1, -1⟩, []⟩ := by
        unfold get_route
        rw [if_neg (by exact fun h2 => hc h2)]
      rw [hsent] at hval
      simp [Route.RouteIsValid] at hval
    have hgr : get_route (build_departures_graph t s)
        (floyd_warshal_shortest_paths (build_departures_graph t s)
          true).2 j k =
        ⟨(build_departures_graph t s).getD j default,
          (get_route_go (build_departures_graph t s)
            (floyd_warshal_shortest_paths (build_departures_graph t s)
              true).2 k ((build_departures_graph t s).length + 1)
            j).1⟩ := by
      unfold get_route
      rw [if_pos hv2]
    rw [hgr] at hlen
    have hshape : get_route_go (build_departures_graph t s)
        (floyd_warshal_shortest_paths (build_departures_graph t s)
          true).2 k ((build_departures_graph t s).length + 1) j =
        (((build_departures_graph t s).getD j
            default).FindTripByDestinationKey
            ((floyd_warshal_shortest_paths
              (build_departures_graph t s) true).2 j k) ::
          (get_route_go (build_departures_graph t s)
            (floyd_warshal_shortest_paths (build_departures_graph t s)
              true).2 k (build_departures_graph t s).length v).1,
          j :: (get_route_go (build_departures_graph t s)
            (floyd_warshal_shortest_paths (build_departures_graph t s)
              true).2 k (build_departures_graph t s).length v).2.1,
          (get_route_go (build_departures_graph t s)
            (floyd_warshal_shortest_paths (build_departures_graph t s)
              true).2 k (build_departures_graph t s).length v).2.2) := by
      show (if _ then _ else _) = _
      rw [if_neg (by
        push_neg
        exact ⟨hfj, hNne⟩)]
      rw [htoNat]
    rw [hshape] at hlen
    simp only [List.length_cons] at hlen
    have hcard : ((Finset.range
        (build_departures_graph t s).length).filter (fun u =>
        (floyd_warshal_shortest_paths (build_departures_graph t s)
          true).1 u k ≠ INF ∧
        (floyd_warshal_shortest_paths (build_departures_graph t s)
          true).1 u k ≤
          (floyd_warshal_shortest_paths (build_departures_graph t s)
            true).1 v k)).card + 1 ≤
        (build_departures_graph t s).length := by
      have hsub : (Finset.range
          (build_departures_graph t s).length).filter (fun u =>
          (floyd_warshal_shortest_paths (build_departures_graph t s)
            true).1 u k ≠ INF ∧
          (floyd_warshal_shortest_paths (build_departures_graph t s)
            true).1 u k ≤
            (floyd_warshal_shortest_paths (build_departures_graph t s)
              true).1 v k) ⊆
          (Finset.range (build_departures_graph t s).length).erase j := by
        intro u hu
        obtain ⟨hur, hu1, hu2⟩ := Finset.mem_filter.mp hu
        refine Finset.mem_erase.mpr ⟨?_, hur⟩
        rintro rfl
        omega
      have hcl := Finset.card_le_card hsub
      rw [Finset.card_erase_of_mem (Finset.mem_range.mpr hjV),
        Finset.card_range] at hcl
      omega
    obtain ⟨-, hiff, -⟩ := get_route_go_trips hcanon hnn hWt hτ hkeys hVle
      hk (build_departures_graph t s).length v hvV hcard
    have hlen0 : (get_route_go (build_departures_graph t s)
        (floyd_warshal_shortest_paths (build_departures_graph t s)
          true).2 k (build_departures_graph t s).length v).1.length =
        0 := by omega
    have hnil : (get_route_go (build_departures_graph t s)
        (floyd_warshal_shortest_paths (build_departures_graph t s)
          true).2 k (build_departures_graph t s).length v).1 = [] :=
      List.length_eq_zero.mp hlen0
    exact hfin2 (hiff.mp hnil)

theorem direct_route_exists_iff {t : List TripRow} {s : List String}
    (hwf : TripsWF t s)
    (hVle : ((build_departures_graph t s).length : Int) < INF)
    (origin target : Int) :
    direct_route_exists (build_departures_graph t s)
      (floyd_warshal_shortest_paths (build_departures_graph t s) true).2
      origin target = true ↔
    ∃ r ∈ t, stoi r.orig = origin ∧ stoi r.dest = target := by
  obtain ⟨hdist, horig, hdest, htimes, hlex, hscanon⟩ := hwf
  have hwf2 : TripsWF t s := ⟨hdist, horig, hdest, htimes, hlex, hscanon⟩
  unfold direct_route_exists
  dsimp only
  rw [List.any_eq_true]
  constructor
  · rintro ⟨j, hjm, hinner⟩
    rw [List.mem_range] at hjm
    rw [List.any_eq_true] at hinner
    obtain ⟨k, hkm, hcond⟩ := hinner
    rw [List.mem_range] at hkm
    by_cases hc : ((build_departures_graph t s).getD j
          default).stationID = origin ∧
        ((build_departures_graph t s).getD k default).stationID = target
    · rw [if_pos hc] at hcond
      rw [decide_eq_true_eq] at hcond
      obtain ⟨hval, hlen⟩ := hcond
      obtain ⟨r, hr, h1, h2⟩ := route_single_edge hwf2 hVle hjm hkm hval
        hlen
      exact ⟨r, hr, by rw [h1]; exact hc.1, by rw [h2]; exact hc.2⟩
    · rw [if_neg hc] at hcond
      exact absurd hcond (by simp)
  · rintro ⟨r, hr, ho, hd⟩
    obtain ⟨i, hi, hgd⟩ := mem_getD_index hr
    obtain ⟨hk1, hk2, hfin, hNik⟩ := fw_direct_sink hwf2 hi
    have hiV : i < (build_departures_graph t s).length := by
      rw [build_departures_length]; omega
    obtain ⟨hval, hlen⟩ := direct_route_single hwf2 hi hVle
    refine ⟨i, List.mem_range.mpr hiV, ?_⟩
    rw [List.any_eq_true]
    refine ⟨(rideEdge t i).destinationKey.toNat,
      List.mem_range.mpr hk2, ?_⟩
    have hsid_j : ((build_departures_graph t s).getD i
        default).stationID = origin := by
      rw [build_departures_record_char t s hdist i hi, hgd]
      exact ho
    have hrowd := hdest _ hr
    have hkr : (rideEdge t i).destinationKey =
        stoi (t.getD i default).dest + ((t.length : Int) - 1) := rfl
    have hsid_k : ((build_departures_graph t s).getD
        (rideEdge t i).destinationKey.toNat default).stationID =
        target := by
      rw [build_departures_length] at hk2
      rw [show (rideEdge t i).destinationKey.toNat =
          t.length + ((rideEdge t i).destinationKey.toNat - t.length)
          from by omega,
        build_departures_sink_char t s _ (by omega)]
      have hsc := hscanon ((rideEdge t i).destinationKey.toNat -
        t.length) (by omega)
      dsimp only
      rw [hsc]
      rw [hgd] at hkr
      rw [← hd]
      have hgd2 : stoi r.dest ≤ (s.length : Int) := hrowd.2
      omega
    rw [if_pos ⟨hsid_j, hsid_k⟩, decide_eq_true_eq]
    exact ⟨hval, hlen⟩

theorem build_stations_temp (n : Nat) :
    ∀ (l : List TripRow) (tab : Nat → List Trip) (i : Nat),
      (l.foldl
        (fun tab r =>
          if 0 ≤ stoi r.orig - 1 ∧ stoi r.orig - 1 < (n : Int) then
            fun x =>
              if x = (stoi r.orig - 1).toNat then
                tab x ++ [⟨stoi r.dest, stoi r.dep, stoi r.arr⟩]
              else tab x
          else tab)
        tab) i =
      tab i ++
        l.filterMap (fun r =>
          if 0 ≤ stoi r.orig - 1 ∧ stoi r.orig - 1 < (n : Int) then
            (if (stoi r.orig - 1).toNat = i then
              some (⟨stoi r.dest, stoi r.dep, stoi r.arr⟩ : Trip)
            else none)
          else none) := by
  intro l
  induction l with
  | nil => intro tab i; simp
  | cons r l ih =>
      intro tab i
      simp only [List.foldl_cons, List.filterMap_cons]
      by_cases hc : 0 ≤ stoi r.orig - 1 ∧ stoi r.orig - 1 < (n : Int)
      · rw [if_pos hc, if_pos hc]
        rw [ih _ i]
        by_cases hx : (stoi r.orig - 1).toNat = i
        · rw [if_pos hx, if_pos hx.symm, ← List.append_cons]
        · rw [if_neg hx, if_neg (fun h => hx h.symm)]
      · rw [if_neg hc, if_neg hc]
        exact ih tab i

theorem build_stations_trips (n : Nat) (t : List TripRow) (i : Nat)
    (hi : i < n) :
    ((build_stations_graph n t).getD i ⟨-1, []⟩).trips =
      t.filterMap (fun r =>
        if 0 ≤ stoi r.orig - 1 ∧ stoi r.orig - 1 < (n : Int) then
          (if (stoi r.orig - 1).toNat = i then
            some (⟨stoi r.dest, stoi r.dep, stoi r.arr⟩ : Trip)
          else none)
        else none) := by
  unfold build_stations_graph
  dsimp only
  rw [getD_map_range _ _ _ _ hi]
  dsimp only
  rw [build_stations_temp n t _ i]
  rw [List.nil_append]

theorem staticDirectAdj_iff {t : List TripRow} {s : List String}
    {cnt : Nat} (hwf : TripsWF t s) (hcnt : cnt = s.length)
    (origin target : Int) :
    staticDirectAdj (mkStationGraph t s cnt) origin target = true ↔
    ∃ r ∈ t, stoi r.orig = origin ∧ stoi r.dest = target := by
  obtain ⟨hdist, horig, hdest, htimes, hlex, hscanon⟩ := hwf
  have hfield : (mkStationGraph t s cnt).stationsGraphList =
      build_stations_graph cnt t := rfl
  unfold staticDirectAdj StationGraph.GetStationFromGraph
  rw [hfield, build_stations_length]
  dsimp only
  constructor
  · intro hadj
    by_cases hrange : origin - 1 < (cnt : Int) ∧ 0 ≤ origin - 1
    · rw [if_pos hrange] at hadj
      have hidx : (origin - 1).toNat < cnt := by omega
      rw [build_stations_trips cnt t _ hidx, List.any_eq_true] at hadj
      obtain ⟨trip, htm, hpred⟩ := hadj
      obtain ⟨r, hr, hsome⟩ := List.mem_filterMap.mp htm
      by_cases hc : 0 ≤ stoi r.orig - 1 ∧ stoi r.orig - 1 < (cnt : Int)
      · rw [if_pos hc] at hsome
        by_cases hx : (stoi r.orig - 1).toNat = (origin - 1).toNat
        · rw [if_pos hx] at hsome
          have htrip := Option.some_inj.mp hsome
          rw [decide_eq_true_eq] at hpred
          refine ⟨r, hr, by omega, ?_⟩
          rw [← hpred, ← htrip]
        · rw [if_neg hx] at hsome
          exact absurd hsome (by simp)
      · rw [if_neg hc] at hsome
        exact absurd hsome (by simp)
    · rw [if_neg hrange] at hadj
      simp at hadj
  · rintro ⟨r, hr, ho, hd⟩
    have hor := horig _ hr
    have hrange : origin - 1 < (cnt : Int) ∧ 0 ≤ origin - 1 := by omega
    rw [if_pos hrange]
    have hidx : (origin - 1).toNat < cnt := by omega
    rw [build_stations_trips cnt t _ hidx, List.any_eq_true]
    refine ⟨⟨stoi r.dest, stoi r.dep, stoi r.arr⟩, ?_, ?_⟩
    · refine List.mem_filterMap.mpr ⟨r, hr, ?_⟩
      rw [if_pos (by omega), if_pos (by omega)]
    · rw [decide_eq_true_eq]
      exact hd

/-! ### C7: the direct-connection check -/

/-- C7: For every pair of station IDs, `DirectPathExists(origin, target)`
returns true exactly when the static outgoing adjacency list of the
origin station contains at least one trip whose destination station is
the target station: under record-level well-formedness of the timetable,
a single-segment reconstruction between some vertex pair matching the two
stations exists iff some trip record goes from the origin station to the
target station, with no time-feasibility condition beyond the
timetable's own well-formedness. -/
theorem direct_path_exists_iff_static_single_hop (t : List TripRow)
    (s : List String) (cnt : Nat) (hcnt : cnt = s.length)
    (hwf : TripsWF t s)
    (hVle : (t.length : Int) + (s.length : Int) < INF) :
    ∀ origin target : Int,
      ((mkStationGraph t s cnt).DirectPathExists origin target = true ↔
        staticDirectAdj (mkStationGraph t s cnt) origin target = true) := by
  intro origin target
  have hD : (mkStationGraph t s cnt).DirectPathExists origin target =
      direct_route_exists (build_departures_graph t s)
        (floyd_warshal_shortest_paths (build_departures_graph t s)
          true).2 origin target := rfl
  have hVle2 : ((build_departures_graph t s).length : Int) < INF := by
    rw [build_departures_length]
    push_cast
    exact hVle
  rw [hD, direct_route_exists_iff hwf hVle2 origin target]
  exact (staticDirectAdj_iff hwf hcnt origin target).symm

/-- The equivalence of C7 checked on Scenario A: station 1 has a direct
trip to station 2 and both sides agree, and no direct trip to station 3
with both sides again agreeing. -/
theorem direct_path_exists_iff_static_single_hop_witness :
    ((mkStationGraph tblA stA 3).DirectPathExists 1 2 = true ↔
      staticDirectAdj (mkStationGraph tblA stA 3) 1 2 = true) ∧
    ((mkStationGraph tblA stA 3).DirectPathExists 1 3 = true ↔
      staticDirectAdj (mkStationGraph tblA stA 3) 1 3 = true) := by
  have h := direct_path_exists_iff_static_single_hop tblA stA 3 rfl
    (by
      unfold TripsWF RecordsDistinct StationsCanonical
      decide)
    (by decide)
  exact ⟨h 1 2, h 1 3⟩
